import Mathlib

/-!
Verification of the radix-tree core in src/node/flex_ref_2.rs.

The development shallowly embeds the logical content of the tree
representation: a tree node is its loaded prefix (a byte string), its
optional loaded value, and the list of loaded child nodes, in the order in
which they are stored in the node sequence.  Byte values (u8 in the source)
are modelled as Nat.  All definitions are executable.
-/

namespace RadixDb

abbrev Byte := Nat

abbrev Key := List Byte

abbrev Val := List Byte

/-- One node triple of the source: loaded prefix bytes, optional loaded
value, and the loaded child node sequence (in stored sibling order). -/
inductive TNode : Type where
  | mk (pre : List Byte) (val : Option Val) (children : List TNode)

def TNode.pre : TNode → List Byte
  | .mk p _ _ => p

def TNode.val : TNode → Option Val
  | .mk _ v _ => v

def TNode.children : TNode → List TNode
  | .mk _ _ cs => cs

@[simp] theorem TNode.pre_mk (p v cs) : (TNode.mk p v cs).pre = p := rfl

@[simp] theorem TNode.val_mk (p v cs) : (TNode.mk p v cs).val = v := rfl

@[simp] theorem TNode.children_mk (p v cs) : (TNode.mk p v cs).children = cs := rfl

mutual

def TNode.size : TNode → Nat
  | .mk _ _ cs => 1 + sizeL cs

def sizeL : List TNode → Nat
  | [] => 0
  | c :: cs => TNode.size c + sizeL cs

end

@[simp] theorem size_mk (p v cs) : (TNode.mk p v cs).size = 1 + sizeL cs := by
  simp [TNode.size]

@[simp] theorem sizeL_nil : sizeL [] = 0 := by simp [sizeL]

@[simp] theorem sizeL_cons (c cs) : sizeL (c :: cs) = c.size + sizeL cs := by
  simp [sizeL]

theorem size_pos (t : TNode) : 0 < t.size := by
  cases t with
  | mk p v cs => simp [TNode.size]

/-! Lexicographic three-way comparison of byte strings, the order in which
the iterators are supposed to produce keys.  This is the reference order of
the spec; the source compares u8 slices with the standard Ord instance. -/

def keyCmp : List Byte → List Byte → Ordering
  | [], [] => .eq
  | [], _ :: _ => .lt
  | _ :: _, [] => .gt
  | a :: as, b :: bs =>
    if a < b then .lt else if b < a then .gt else keyCmp as bs

def keyLt (a b : List Byte) : Bool := keyCmp a b = .lt

@[simp] theorem keyCmp_nil_nil : keyCmp [] [] = .eq := rfl

@[simp] theorem keyCmp_nil_cons (b bs) : keyCmp [] (b :: bs) = .lt := rfl

@[simp] theorem keyCmp_cons_nil (a as) : keyCmp (a :: as) [] = .gt := rfl

theorem keyCmp_cons_cons (a b : Byte) (as bs) :
    keyCmp (a :: as) (b :: bs) =
      (if a < b then .lt else if b < a then .gt else keyCmp as bs) := rfl

theorem keyCmp_self (a : List Byte) : keyCmp a a = .eq := by
  induction a with
  | nil => rfl
  | cons x xs ih => simp [keyCmp_cons_cons, ih]

theorem keyCmp_eq_iff {a b : List Byte} : keyCmp a b = .eq ↔ a = b := by
  constructor
  · intro h
    induction a generalizing b with
    | nil => cases b with
      | nil => rfl
      | cons y ys => simp [keyCmp] at h
    | cons x xs ih =>
      cases b with
      | nil => simp [keyCmp] at h
      | cons y ys =>
        rw [keyCmp_cons_cons] at h
        by_cases hxy : x < y
        · simp [hxy] at h
        · by_cases hyx : y < x
          · simp [hxy, hyx] at h
          · have : x = y := Nat.le_antisymm (Nat.le_of_not_lt hyx) (Nat.le_of_not_lt hxy)
            simp [hxy, hyx] at h
            simp [this, ih h]
  · intro h; subst h; exact keyCmp_self a

theorem keyCmp_swap (a b : List Byte) :
    keyCmp b a = (keyCmp a b).swap := by
  induction a generalizing b with
  | nil => cases b <;> rfl
  | cons x xs ih =>
    cases b with
    | nil => rfl
    | cons y ys =>
      rw [keyCmp_cons_cons, keyCmp_cons_cons]
      by_cases hxy : x < y
      · have hyx : ¬ y < x := Nat.lt_asymm hxy
        simp [hxy, hyx, Ordering.swap]
      · by_cases hyx : y < x
        · simp [hxy, hyx, Ordering.swap]
        · simp [hxy, hyx, ih ys]

theorem keyCmp_gt_iff {a b : List Byte} : keyCmp a b = .gt ↔ keyCmp b a = .lt := by
  have hs := keyCmp_swap a b
  cases h : keyCmp a b <;> rw [h] at hs <;> simp [Ordering.swap] at hs <;> simp [hs]

theorem keyLt_trans {a b c : List Byte} :
    keyLt a b = true → keyLt b c = true → keyLt a c = true := by
  simp only [keyLt, decide_eq_true_eq]
  intro hab hbc
  induction a generalizing b c with
  | nil =>
    cases c with
    | nil =>
      cases b with
      | nil => simp [keyCmp] at hab
      | cons y ys => simp [keyCmp] at hbc
    | cons z zs => rfl
  | cons x xs ih =>
    cases b with
    | nil => simp [keyCmp] at hab
    | cons y ys =>
      cases c with
      | nil => simp [keyCmp] at hbc
      | cons z zs =>
        rw [keyCmp_cons_cons] at hab hbc ⊢
        by_cases hxy : x < y
        · by_cases hyz : y < z
          · simp [Nat.lt_trans hxy hyz]
          · by_cases hzy : z < y
            · simp [hyz, hzy] at hbc
            · have : y = z := Nat.le_antisymm (Nat.le_of_not_lt hzy) (Nat.le_of_not_lt hyz)
              subst this
              simp [hxy]
        · by_cases hyx : y < x
          · simp [hxy, hyx] at hab
          · have hxey : x = y := Nat.le_antisymm (Nat.le_of_not_lt hyx) (Nat.le_of_not_lt hxy)
            subst hxey
            simp only [hxy, if_neg, ite_self] at hab
            by_cases hyz : x < z
            · simp [hyz]
            · by_cases hzy : z < x
              · simp [hyz, hzy] at hbc
              · have : x = z := Nat.le_antisymm (Nat.le_of_not_lt hzy) (Nat.le_of_not_lt hyz)
                subst this
                simp only [hyz, if_neg, ite_self] at hbc ⊢
                simp at hab hbc ⊢
                exact ih hab hbc

theorem keyLt_irrefl (a : List Byte) : keyLt a a = false := by
  simp [keyLt, keyCmp_self]

theorem keyLt_asymm {a b : List Byte} (h : keyLt a b = true) : keyLt b a = false := by
  simp only [keyLt, decide_eq_true_eq] at h
  simp [keyLt, keyCmp_swap a b, h, Ordering.swap]

theorem keyCmp_trichotomy (a b : List Byte) :
    keyCmp a b = .lt ∨ keyCmp a b = .eq ∨ keyCmp a b = .gt := by
  cases keyCmp a b <;> simp

/-! Tree constructors, from NodeSeqBuilder::empty_tree and
NodeSeqBuilder::single: the empty tree is the node with empty prefix, no
value and no children; a single-entry tree is one node holding the full key
as its prefix and the value, with no children. -/

/-- Models NodeSeqBuilder::empty_tree / Tree::empty. -/
def emptyTree : TNode := .mk [] none []

/-- Models NodeSeqBuilder::single / Tree::single. -/
def single (k : Key) (v : Val) : TNode := .mk k (some v) []

/-- Models the common_prefix function: the length of the longest common
prefix of two byte slices. -/
def commonPfx : List Byte → List Byte → Nat
  | a :: as, b :: bs => if a = b then commonPfx as bs + 1 else 0
  | _, _ => 0

@[simp] theorem commonPfx_nil_left (b : List Byte) : commonPfx [] b = 0 := by
  cases b <;> rfl

@[simp] theorem commonPfx_nil_right (a : List Byte) : commonPfx a [] = 0 := by
  cases a <;> rfl

theorem commonPfx_cons (a b : Byte) (as bs : List Byte) :
    commonPfx (a :: as) (b :: bs) =
      (if a = b then commonPfx as bs + 1 else 0) := rfl

theorem commonPfx_le_left (a b : List Byte) : commonPfx a b ≤ a.length := by
  induction a generalizing b with
  | nil => simp
  | cons x xs ih =>
    cases b with
    | nil => simp
    | cons y ys =>
      rw [commonPfx_cons]
      by_cases h : x = y
      · simp only [h, if_pos rfl, List.length_cons]
        exact Nat.succ_le_succ (ih ys)
      · simp [h]

theorem commonPfx_le_right (a b : List Byte) : commonPfx a b ≤ b.length := by
  induction a generalizing b with
  | nil => simp
  | cons x xs ih =>
    cases b with
    | nil => simp
    | cons y ys =>
      rw [commonPfx_cons]
      by_cases h : x = y
      · simp only [h, if_pos rfl, List.length_cons]
        exact Nat.succ_le_succ (ih ys)
      · simp [h]

theorem commonPfx_take (a b : List Byte) :
    a.take (commonPfx a b) = b.take (commonPfx a b) := by
  induction a generalizing b with
  | nil => simp
  | cons x xs ih =>
    cases b with
    | nil => simp
    | cons y ys =>
      rw [commonPfx_cons]
      by_cases h : x = y
      · simp [h, ih ys]
      · simp [h]

theorem commonPfx_self (a : List Byte) : commonPfx a a = a.length := by
  induction a with
  | nil => simp
  | cons x xs ih => simp [commonPfx_cons, ih]

/-- If the common prefix stops before the end of both lists, the next bytes
differ. -/
theorem commonPfx_get_ne (a b : List Byte)
    (ha : commonPfx a b < a.length) (hb : commonPfx a b < b.length) :
    a.getD (commonPfx a b) 0 ≠ b.getD (commonPfx a b) 0 := by
  induction a generalizing b with
  | nil => simp at ha
  | cons x xs ih =>
    cases b with
    | nil => simp at hb
    | cons y ys =>
      rw [commonPfx_cons] at ha hb ⊢
      by_cases h : x = y
      · simp only [h, if_pos rfl] at ha hb ⊢
        simpa using ih ys (Nat.lt_of_succ_lt_succ ha) (Nat.lt_of_succ_lt_succ hb)
      · rw [if_neg h] at ha hb ⊢
        simpa using h

/-- Models NodeSeqBuilder::push_shortened (as used by shortened and
push_shortened_converted): the node re-encoded with the first n bytes of its
prefix stripped.  The source asserts 0 < n → n < prefix length. -/
def shorten (n : Nat) (t : TNode) : TNode := .mk (t.pre.drop n) t.val t.children

@[simp] theorem shorten_zero (t : TNode) : shorten 0 t = t := by
  cases t; simp [shorten]

@[simp] theorem size_shorten (n : Nat) (t : TNode) : (shorten n t).size = t.size := by
  cases t; simp [shorten]

/-- The first byte of a node's prefix, as used for sibling ordering
(TreePrefixRef::first).  The source panics when the prefix is empty; the
default 0 is only ever exercised on inputs the well-formedness predicate
excludes. -/
def fb (t : TNode) : Byte := t.pre.headD 0

/-! Traversal semantics.

iterList models Iter::next0: the iterator pushes one stack frame per node,
remembering the node's value, descends into the children, and yields the
remembered value only once the node's children are exhausted.  Hence each
node's own entry is produced after all entries of its subtree.

valuesList models Values::next0: it yields a node's value immediately when
the node is first read, before descending into the children.

entriesLex is the reference order stated by the spec: each entry is the
full key (concatenated prefixes) with the value, parents before their
subtrees, so that keys come out in ascending lexicographic order. -/

mutual

/-- Entries produced by Tree::iter (Iter::next0), in produced order. -/
def iterList : TNode → List (Key × Val)
  | .mk p v cs =>
    (iterListL cs).map (fun e => (p ++ e.1, e.2)) ++
      (match v with | some x => [(p, x)] | none => [])

def iterListL : List TNode → List (Key × Val)
  | [] => []
  | c :: cs => iterList c ++ iterListL cs

end

mutual

/-- Values produced by Tree::values (Values::next0), in produced order. -/
def valuesList : TNode → List Val
  | .mk _ v cs =>
    (match v with | some x => [x] | none => []) ++ valuesListL cs

def valuesListL : List TNode → List Val
  | [] => []
  | c :: cs => valuesList c ++ valuesListL cs

end

mutual

/-- The entries of a tree with full keys, parent entry first: this is the
ascending-lexicographic reference order of the spec. -/
def entriesLex : TNode → List (Key × Val)
  | .mk p v cs =>
    (match v with | some x => [(p, x)] | none => []) ++
      (entriesLexL cs).map (fun e => (p ++ e.1, e.2))

def entriesLexL : List TNode → List (Key × Val)
  | [] => []
  | c :: cs => entriesLex c ++ entriesLexL cs

end

@[simp] theorem iterList_mk (p v cs) :
    iterList (.mk p v cs) =
      (iterListL cs).map (fun e => (p ++ e.1, e.2)) ++
        (match v with | some x => [(p, x)] | none => []) := by
  simp [iterList]

@[simp] theorem iterListL_nil : iterListL [] = [] := by simp [iterListL]

@[simp] theorem iterListL_cons (c cs) :
    iterListL (c :: cs) = iterList c ++ iterListL cs := by simp [iterListL]

@[simp] theorem valuesList_mk (p v cs) :
    valuesList (.mk p v cs) =
      (match v with | some x => [x] | none => []) ++ valuesListL cs := by
  simp [valuesList]

@[simp] theorem valuesListL_nil : valuesListL [] = [] := by simp [valuesListL]

@[simp] theorem valuesListL_cons (c cs) :
    valuesListL (c :: cs) = valuesList c ++ valuesListL cs := by simp [valuesListL]

@[simp] theorem entriesLex_mk (p v cs) :
    entriesLex (.mk p v cs) =
      (match v with | some x => [(p, x)] | none => []) ++
        (entriesLexL cs).map (fun e => (p ++ e.1, e.2)) := by
  simp [entriesLex]

@[simp] theorem entriesLexL_nil : entriesLexL [] = [] := by simp [entriesLexL]

@[simp] theorem entriesLexL_cons (c cs) :
    entriesLexL (c :: cs) = entriesLex c ++ entriesLexL cs := by simp [entriesLexL]

theorem size_le_of_mem {c : TNode} {cs : List TNode} (h : c ∈ cs) :
    c.size ≤ sizeL cs := by
  induction cs with
  | nil => cases h
  | cons d ds ih =>
    rcases List.mem_cons.mp h with h | h
    · subst h; simp
    · have := ih h
      simp
      omega

/-- Nested induction over the tree: to prove a property of every node it
suffices to prove it for a node assuming it for all its children. -/
theorem TNode.rec_children {P : TNode → Prop}
    (h : ∀ p v cs, (∀ c ∈ cs, P c) → P (.mk p v cs)) : ∀ t, P t := by
  have main : ∀ n, ∀ t : TNode, t.size ≤ n → P t := by
    intro n
    induction n with
    | zero =>
      intro t ht
      exact absurd (Nat.lt_of_lt_of_le (size_pos t) ht) (by simp)
    | succ n ih =>
      intro t ht
      cases t with
      | mk p v cs =>
        refine h p v cs (fun c hc => ih c ?_)
        have h1 := size_le_of_mem hc
        simp at ht
        omega
  exact fun t => main t.size t (Nat.le_refl _)

theorem iterListL_perm_of {cs : List TNode}
    (h : ∀ c ∈ cs, List.Perm (iterList c) (entriesLex c)) : List.Perm (iterListL cs) (entriesLexL cs) := by
  induction cs with
  | nil => simp
  | cons c cs ih =>
    simp only [iterListL_cons, entriesLexL_cons]
    exact (h c (by simp)).append (ih (fun d hd => h d (by simp [hd])))

/-- The iterator's output is a permutation of the reference entries: the
same entries, with each parent entry after its subtree instead of before. -/
theorem iterList_perm_entriesLex (t : TNode) : List.Perm (iterList t) (entriesLex t) := by
  induction t using TNode.rec_children with
  | h p v cs ih =>
    have h1 : List.Perm (iterList (.mk p v cs))
        ((match v with | some x => [(p, x)] | none => []) ++
          (iterListL cs).map (fun e => (p ++ e.1, e.2))) := by
      simp only [iterList_mk]
      exact List.perm_append_comm
    have h2 : List.Perm
        ((match v with | some x => [(p, x)] | none => []) ++
          (iterListL cs).map (fun e => (p ++ e.1, e.2)))
        (entriesLex (.mk p v cs)) := by
      simp only [entriesLex_mk]
      exact List.Perm.append_left _ ((iterListL_perm_of ih).map _)
    exact h1.trans h2

theorem sizeL_children_lt (t : TNode) : sizeL t.children < t.size := by
  cases t with
  | mk p v cs => simp

/-! The allocating merge engine: outer_combine and outer_combine_children
from the source.  The combine function f is the pure NoStore form used by
Tree::outer_combine.  outer_combine_children models the OuterJoin loop of
outer_combine_children: it walks both sibling sequences comparing the first
byte of the next prefix on each side, passes unmatched siblings through
unchanged (push_detached), and recurses on first-byte matches.  The source
panics when a sibling has an empty prefix (TreePrefixRef::first); that
branch is modelled as the empty result and is unreachable on well-formed
sequences. -/

mutual

def outer_combine (f : Val → Val → Option Val) (a b : TNode) : TNode :=
  let ap := a.pre
  let bp := b.pre
  let n := commonPfx ap bp
  if n = ap.length ∧ n = bp.length then
    -- prefixes are identical
    let value : Option Val :=
      match a.val, b.val with
      | some av, some bv => f av bv
      | some av, none => some av
      | none, some bv => some bv
      | none, none => none
    .mk (ap.take n) value (outer_combine_children f a.children b.children)
  else if n = ap.length then
    -- a is a prefix of b: value is value of a
    .mk (ap.take n) a.val (outer_combine_children f a.children [shorten n b])
  else if n = bp.length then
    -- b is a prefix of a: value is value of b
    .mk (ap.take n) b.val (outer_combine_children f [shorten n a] b.children)
  else
    -- the two nodes are disjoint: value is none, children are the two
    -- shortened nodes in first-byte order
    .mk (ap.take n) none
      (if ap.getD n 0 ≤ bp.getD n 0 then [shorten n a, shorten n b]
       else [shorten n b, shorten n a])
termination_by 2 * (a.size + b.size)
decreasing_by
  all_goals simp_wf
  all_goals
    have ha := sizeL_children_lt a
    have hb := sizeL_children_lt b
    omega

def outer_combine_children (f : Val → Val → Option Val) :
    List TNode → List TNode → List TNode
  | [], [] => []
  | a :: as, [] => a :: outer_combine_children f as []
  | [], b :: bs => b :: outer_combine_children f [] bs
  | a :: as, b :: bs =>
    match a.pre.head?, b.pre.head? with
    | some x, some y =>
      if x < y then a :: outer_combine_children f as (b :: bs)
      else if y < x then b :: outer_combine_children f (a :: as) bs
      else outer_combine f a b :: outer_combine_children f as bs
    | _, _ => []  -- the source panics on an empty sibling prefix
termination_by as bs => 2 * (sizeL as + sizeL bs) + 1
decreasing_by
  all_goals simp_wf
  all_goals first
    | omega
    | (have ha := size_pos a; omega)
    | (have hb := size_pos b; omega)

end

/-- The right-biased combine function of the spec and tests: the second
value wins on a key collision. -/
def take_right : Val → Val → Option Val := fun _ b => some b

/-- The left-biased combine function: the first value wins. -/
def take_left : Val → Val → Option Val := fun a _ => some a

/-- Models InPlaceNodeSeqBuilder::canonicalize_one on one triple: a triple
whose value and children are both absent but whose prefix is non-empty is
rewritten to the all-absent empty-prefix leaf. -/
def canonicalize_one (t : TNode) : TNode :=
  if t.val.isNone && t.children.isEmpty && !t.pre.isEmpty then .mk [] none [] else t

/-- Models InPlaceNodeSeqBuilder::canonicalize_all (after rewind_all): every
triple of the sequence is canonicalized in place. -/
def canonicalize_all (cs : List TNode) : List TNode := cs.map canonicalize_one

/-! The in-place merge engine: outer_combine_with and
outer_combine_children_with from the source, as run by
Tree::try_outer_combine_with on the gap-buffer builder.  combiner_loop
models the Combiner while-let loop inside the mutate closure of
outer_combine_children_with; after the loop, mutate rewinds and
canonicalizes the rewritten child sequence. -/

mutual

def outer_combine_with (f : Val → Val → Option Val) (a b : TNode) : TNode :=
  let ap := a.pre
  let bp := b.pre
  let n := commonPfx ap bp
  if n = ap.length ∧ n = bp.length then
    -- prefixes are identical: move prefix, combine values
    let value : Option Val :=
      match a.val, b.val with
      | some av, some bv => f av bv
      | some av, none => some av
      | none, _ => b.val
    .mk ap value (outer_combine_children_with f a.children b.children)
  else if n = ap.length then
    -- a is a prefix of b: move prefix and value
    .mk ap a.val (outer_combine_children_with f a.children [shorten n b])
  else if n = bp.length then
    -- b is a prefix of a: split a at n, keep b's value at the split point
    let child : TNode := .mk (ap.drop n) a.val a.children
    .mk (ap.take n) b.val (outer_combine_children_with f [child] b.children)
  else
    -- the two nodes are disjoint: split a at n, no value, the split-off
    -- rest of a and the shortened b in first-byte order
    let child : TNode := .mk (ap.drop n) a.val a.children
    .mk (ap.take n) none
      (if ap.getD n 0 ≤ bp.getD n 0 then [child, shorten n b]
       else [shorten n b, child])
termination_by 3 * (a.size + b.size)
decreasing_by
  all_goals simp_wf
  all_goals
    have ha := sizeL_children_lt a
    have hb := sizeL_children_lt b
    omega

def outer_combine_children_with (f : Val → Val → Option Val)
    (as bs : List TNode) : List TNode :=
  match as, bs with
  | as, [] => as
  | [], bs => bs
  | a :: as, b :: bs =>
    canonicalize_all (combiner_loop f (a :: as) (b :: bs))
termination_by 3 * (sizeL as + sizeL bs) + 2
decreasing_by
  all_goals simp_wf

def combiner_loop (f : Val → Val → Option Val) :
    List TNode → List TNode → List TNode
  | as, [] => as
  | [], b :: bs => b :: combiner_loop f [] bs
  | a :: as, b :: bs =>
    match a.pre.head?, b.pre.head? with
    | some x, some y =>
      if x < y then a :: combiner_loop f as (b :: bs)
      else if y < x then b :: combiner_loop f (a :: as) bs
      else outer_combine_with f a b :: combiner_loop f as bs
    | _, _ => []  -- the source panics on an empty sibling prefix
termination_by as bs => 3 * (sizeL as + sizeL bs) + 1
decreasing_by
  all_goals simp_wf
  all_goals first
    | omega
    | (have ha := size_pos a; omega)
    | (have hb := size_pos b; omega)

end

/-- Models the FromIterator impl for Tree: starting from the empty tree,
combine in a single-entry tree per pair with the right-biased in-place
merge. -/
def fromList (ps : List (Key × Val)) : TNode :=
  ps.foldl (fun t kv => outer_combine_with take_right t (single kv.1 kv.2)) emptyTree

/-! Structural invariants of node sequences (section 3 of the spec): sibling
sequences are sorted strictly by the first byte of each sibling's prefix,
and every non-root triple has a non-empty prefix.  The canonical-form
invariant additionally requires every non-root triple to carry a value or
children, and an emptyable root to have an empty prefix. -/

/-- Sibling order: strictly ascending first prefix byte. -/
def sortedFB : List TNode → Bool
  | [] => true
  | [_] => true
  | a :: b :: rest => decide (fb a < fb b) && sortedFB (b :: rest)

@[simp] theorem sortedFB_nil : sortedFB [] = true := rfl

@[simp] theorem sortedFB_single (a : TNode) : sortedFB [a] = true := rfl

theorem sortedFB_cons_cons (a b : TNode) (rest : List TNode) :
    sortedFB (a :: b :: rest) = (decide (fb a < fb b) && sortedFB (b :: rest)) := rfl

theorem sortedFB_of_cons {a : TNode} {cs : List TNode}
    (h : sortedFB (a :: cs) = true) : sortedFB cs = true := by
  cases cs with
  | nil => rfl
  | cons b rest =>
    rw [sortedFB_cons_cons] at h
    exact ((Bool.and_eq_true _ _).mp h).2

mutual

/-- Well-formed as a (non-root) sibling: non-empty prefix, and a
well-formed child sequence. -/
def wfC : TNode → Bool
  | .mk p _ cs => !p.isEmpty && sortedFB cs && wfCL cs

def wfCL : List TNode → Bool
  | [] => true
  | c :: cs => wfC c && wfCL cs

end

/-- Well-formed tree: every sibling sequence below the root is sorted by
first byte with well-formed members; the root's own prefix and value are
unconstrained. -/
def wfT (t : TNode) : Bool := sortedFB t.children && wfCL t.children

@[simp] theorem wfC_mk (p v cs) :
    wfC (.mk p v cs) = (!p.isEmpty && sortedFB cs && wfCL cs) := by
  simp [wfC]

@[simp] theorem wfCL_nil : wfCL [] = true := by simp [wfCL]

@[simp] theorem wfCL_cons (c cs) : wfCL (c :: cs) = (wfC c && wfCL cs) := by
  simp [wfCL]

theorem wfT_mk (p v cs) : wfT (.mk p v cs) = (sortedFB cs && wfCL cs) := rfl

/-- A well-formed sibling is a well-formed tree with a non-empty prefix. -/
theorem wfT_of_wfC {t : TNode} (h : wfC t = true) : wfT t = true := by
  cases t with
  | mk p v cs =>
    simp only [wfC_mk, Bool.and_eq_true] at h
    simp [wfT_mk, h.1.2, h.2]

mutual

/-- Canonical as a (non-root) triple: it carries a value or children, and so
do all triples below it. -/
def canonC : TNode → Bool
  | .mk _ v cs => (v.isSome || !cs.isEmpty) && canonCL cs

def canonCL : List TNode → Bool
  | [] => true
  | c :: cs => canonC c && canonCL cs

end

/-- Canonical tree: all non-root triples are canonical, and if the root
itself carries neither value nor children its prefix is empty (the
distinguished empty-tree root). -/
def canonT (t : TNode) : Bool :=
  canonCL t.children && (!(t.val.isNone && t.children.isEmpty) || t.pre.isEmpty)

@[simp] theorem canonC_mk (p v cs) :
    canonC (.mk p v cs) = ((v.isSome || !cs.isEmpty) && canonCL cs) := by
  simp [canonC]

@[simp] theorem canonCL_nil : canonCL [] = true := by simp [canonCL]

@[simp] theorem canonCL_cons (c cs) : canonCL (c :: cs) = (canonC c && canonCL cs) := by
  simp [canonCL]

mutual

/-- The canonical-form property exactly as the spec states it for one
subtree: this triple, viewed as a non-root triple, does not combine a
non-empty prefix with an absent value and absent children, and neither does
any triple below it. -/
def noBadTriple : TNode → Bool
  | .mk p v cs => !(!p.isEmpty && v.isNone && cs.isEmpty) && noBadTripleL cs

def noBadTripleL : List TNode → Bool
  | [] => true
  | c :: cs => noBadTriple c && noBadTripleL cs

end

/-- The spec's canonical-form property of a whole tree: no non-root triple
has a non-empty prefix together with an absent value and absent children. -/
def canonical_form_ok (t : TNode) : Bool := noBadTripleL t.children

@[simp] theorem noBadTriple_mk (p v cs) :
    noBadTriple (.mk p v cs) =
      (!(!p.isEmpty && v.isNone && cs.isEmpty) && noBadTripleL cs) := by
  simp [noBadTriple]

@[simp] theorem noBadTripleL_nil : noBadTripleL [] = true := by simp [noBadTripleL]

@[simp] theorem noBadTripleL_cons (c cs) :
    noBadTripleL (c :: cs) = (noBadTriple c && noBadTripleL cs) := by
  simp [noBadTripleL]

/-! The reference union on iterated entry lists: a sorted merge join keyed
by the full key, applying the combine function on key collisions.  With
take_right this is the reference union in which the right-hand mapping's
value wins on every collision. -/

def mergeJoinE (f : Val → Val → Option Val) :
    List (Key × Val) → List (Key × Val) → List (Key × Val)
  | [], ys => ys
  | x :: xs, [] => x :: xs
  | x :: xs, y :: ys =>
    match keyCmp x.1 y.1 with
    | .lt => x :: mergeJoinE f xs (y :: ys)
    | .gt => y :: mergeJoinE f (x :: xs) ys
    | .eq =>
      match f x.2 y.2 with
      | some v => (x.1, v) :: mergeJoinE f xs ys
      | none => mergeJoinE f xs ys
termination_by xs ys => xs.length + ys.length

@[simp] theorem mergeJoinE_nil_left (f ys) : mergeJoinE f [] ys = ys := by
  rw [mergeJoinE]

@[simp] theorem mergeJoinE_nil_right (f xs) : mergeJoinE f xs [] = xs := by
  cases xs <;> rw [mergeJoinE]

theorem mergeJoinE_cons_cons (f) (x y : Key × Val) (xs ys) :
    mergeJoinE f (x :: xs) (y :: ys) =
      (match keyCmp x.1 y.1 with
       | .lt => x :: mergeJoinE f xs (y :: ys)
       | .gt => y :: mergeJoinE f (x :: xs) ys
       | .eq =>
         match f x.2 y.2 with
         | some v => (x.1, v) :: mergeJoinE f xs ys
         | none => mergeJoinE f xs ys) := by
  rw [mergeJoinE]

/-- Prepending a common key part, as when a node prefix is put in front of
the keys of its subtree entries. -/
def prependKeys (p : Key) (es : List (Key × Val)) : List (Key × Val) :=
  es.map (fun e => (p ++ e.1, e.2))

@[simp] theorem prependKeys_nil (p) : prependKeys p [] = [] := rfl

@[simp] theorem prependKeys_cons (p e es) :
    prependKeys p (e :: es) = (p ++ e.1, e.2) :: prependKeys p es := rfl

@[simp] theorem prependKeys_append (p es fs) :
    prependKeys p (es ++ fs) = prependKeys p es ++ prependKeys p fs := by
  simp [prependKeys]

theorem prependKeys_prependKeys (p q es) :
    prependKeys p (prependKeys q es) = prependKeys (p ++ q) es := by
  simp [prependKeys, Function.comp]

@[simp] theorem prependKeys_nil_key (es) : prependKeys [] es = es := by
  simp [prependKeys]

/-- The optional value entry of a node. -/
def optE (p : Key) : Option Val → List (Key × Val)
  | some x => [(p, x)]
  | none => []

@[simp] theorem optE_some (p x) : optE p (some x) = [(p, x)] := rfl

@[simp] theorem optE_none (p) : optE p none = [] := rfl

theorem entriesLex_eq (p v cs) :
    entriesLex (.mk p v cs) = optE p v ++ prependKeys p (entriesLexL cs) := by
  cases v <;> simp [prependKeys]

theorem iterList_eq (p v cs) :
    iterList (.mk p v cs) = prependKeys p (iterListL cs) ++ optE p v := by
  cases v <;> simp [prependKeys]

/-- Models the value match of outer_combine with identical prefixes. -/
def combineV (f : Val → Val → Option Val) : Option Val → Option Val → Option Val
  | some av, some bv => f av bv
  | some av, none => some av
  | none, some bv => some bv
  | none, none => none

@[simp] theorem combineV_some_some (f av bv) :
    combineV f (some av) (some bv) = f av bv := rfl

@[simp] theorem combineV_some_none (f av) : combineV f (some av) none = some av := rfl

@[simp] theorem combineV_none_some (f bv) : combineV f none (some bv) = some bv := rfl

@[simp] theorem combineV_none_none (f) : combineV f none none = none := rfl

/-! Ordering facts about keys under prefixes. -/

theorem keyCmp_append_same (p a b : List Byte) :
    keyCmp (p ++ a) (p ++ b) = keyCmp a b := by
  induction p with
  | nil => simp
  | cons x xs ih => simp [keyCmp_cons_cons, ih]

theorem keyLt_append_of_nonempty (p : List Byte) {t : List Byte} (h : t ≠ []) :
    keyLt p (p ++ t) = true := by
  simp only [keyLt, decide_eq_true_eq]
  have : keyCmp (p ++ []) (p ++ t) = keyCmp [] t := keyCmp_append_same p [] t
  simp at this
  rw [this]
  cases t with
  | nil => exact absurd rfl h
  | cons x xs => simp

theorem keyLt_of_head_lt {x y : Byte} {xs ys : List Byte} (h : x < y) :
    keyLt (x :: xs) (y :: ys) = true := by
  simp [keyLt, keyCmp_cons_cons, h]

/-! Shape of the keys of subtree entries. -/

theorem entriesLex_key_shape {t : TNode} :
    ∀ e ∈ entriesLex t, ∃ k', e.1 = t.pre ++ k' := by
  cases t with
  | mk p v cs =>
    intro e he
    rw [entriesLex_eq] at he
    rcases List.mem_append.mp he with h | h
    · cases v with
      | none => simp at h
      | some x =>
        simp at h
        exact ⟨[], by simp [h]⟩
    · rcases List.mem_map.mp h with ⟨e', _, rfl⟩
      exact ⟨e'.1, rfl⟩

theorem entriesLexL_key_head {cs : List TNode} (hwf : wfCL cs = true) :
    ∀ e ∈ entriesLexL cs, ∃ c ∈ cs, ∃ t', e.1 = fb c :: t' := by
  induction cs with
  | nil => simp
  | cons c cs ih =>
    simp only [wfCL_cons, Bool.and_eq_true] at hwf
    intro e he
    rw [entriesLexL_cons] at he
    rcases List.mem_append.mp he with h | h
    · rcases entriesLex_key_shape e h with ⟨k', hk⟩
      have hp : ¬ c.pre.isEmpty = true := by
        cases c with
        | mk p v cs' =>
          have := hwf.1
          simp only [wfC_mk, Bool.and_eq_true] at this
          simpa using this.1.1
      cases hcp : c.pre with
      | nil => simp [hcp] at hp
      | cons h0 hs =>
        refine ⟨c, by simp, hs ++ k', ?_⟩
        simp [hk, hcp, fb]
    · rcases ih hwf.2 e h with ⟨d, hd, t', ht⟩
      exact ⟨d, by simp [hd], t', ht⟩

theorem sortedFB_lt_of_mem {c : TNode} {cs : List TNode}
    (h : sortedFB (c :: cs) = true) : ∀ d ∈ cs, fb c < fb d := by
  induction cs generalizing c with
  | nil => simp
  | cons b rest ih =>
    rw [sortedFB_cons_cons] at h
    simp only [Bool.and_eq_true, decide_eq_true_eq] at h
    intro d hd
    rcases List.mem_cons.mp hd with hd | hd
    · subst hd; exact h.1
    · exact Nat.lt_trans h.1 (ih h.2 d hd)

/-! Block lemmas for the merge join: what the join does to concatenations
of key-separated blocks. -/

theorem mergeJoinE_all_lt (f) {xs ys : List (Key × Val)}
    (h : ∀ x ∈ xs, ∀ y ∈ ys, keyLt x.1 y.1 = true) :
    mergeJoinE f xs ys = xs ++ ys := by
  induction xs with
  | nil => simp
  | cons x xs ih =>
    cases ys with
    | nil => simp
    | cons y ys =>
      have hxy : keyCmp x.1 y.1 = .lt := by
        have := h x (by simp) y (by simp)
        simpa [keyLt] using this
      rw [mergeJoinE_cons_cons, hxy]
      simp only [List.cons_append, List.cons.injEq, true_and]
      exact ih (fun x' hx' y' hy' => h x' (by simp [hx']) y' hy')

theorem mergeJoinE_emit_left (f) {x : Key × Val} {xs ys : List (Key × Val)}
    (h : ∀ y ∈ ys, keyLt x.1 y.1 = true) :
    mergeJoinE f (x :: xs) ys = x :: mergeJoinE f xs ys := by
  cases ys with
  | nil => simp
  | cons y ys =>
    have hxy : keyCmp x.1 y.1 = .lt := by
      have := h y (by simp)
      simpa [keyLt] using this
    rw [mergeJoinE_cons_cons, hxy]

theorem mergeJoinE_emit_right (f) {y : Key × Val} {xs ys : List (Key × Val)}
    (h : ∀ x ∈ xs, keyLt y.1 x.1 = true) :
    mergeJoinE f xs (y :: ys) = y :: mergeJoinE f xs ys := by
  cases xs with
  | nil => simp
  | cons x xs =>
    have hxy : keyCmp x.1 y.1 = .gt := by
      have := h x (by simp)
      simp only [keyLt, decide_eq_true_eq] at this
      exact keyCmp_gt_iff.mpr this
    rw [mergeJoinE_cons_cons, hxy]

theorem mergeJoinE_append_right (f) {R Y S : List (Key × Val)}
    (h : ∀ y ∈ Y, ∀ r ∈ R, keyLt y.1 r.1 = true) :
    mergeJoinE f R (Y ++ S) = Y ++ mergeJoinE f R S := by
  induction Y with
  | nil => simp
  | cons y Y ih =>
    rw [List.cons_append, mergeJoinE_emit_right f (h y (by simp))]
    simp only [List.cons_append, List.cons.injEq, true_and]
    exact ih (fun y' hy' => h y' (by simp [hy']))

theorem mergeJoinE_append_left (f) {X R S : List (Key × Val)}
    (h : ∀ x ∈ X, ∀ s ∈ S, keyLt x.1 s.1 = true) :
    mergeJoinE f (X ++ R) S = X ++ mergeJoinE f R S := by
  induction X with
  | nil => simp
  | cons x X ih =>
    rw [List.cons_append, mergeJoinE_emit_left f (h x (by simp))]
    simp only [List.cons_append, List.cons.injEq, true_and]
    exact ih (fun x' hx' => h x' (by simp [hx']))

theorem mergeJoinE_block (f) {X Y R S : List (Key × Val)}
    (hXS : ∀ x ∈ X, ∀ s ∈ S, keyLt x.1 s.1 = true)
    (hYR : ∀ y ∈ Y, ∀ r ∈ R, keyLt y.1 r.1 = true) :
    mergeJoinE f (X ++ R) (Y ++ S) = mergeJoinE f X Y ++ mergeJoinE f R S := by
  have main : ∀ n (X Y : List (Key × Val)), X.length + Y.length ≤ n →
      (∀ x ∈ X, ∀ s ∈ S, keyLt x.1 s.1 = true) →
      (∀ y ∈ Y, ∀ r ∈ R, keyLt y.1 r.1 = true) →
      mergeJoinE f (X ++ R) (Y ++ S) = mergeJoinE f X Y ++ mergeJoinE f R S := by
    intro n
    induction n with
    | zero =>
      intro X Y hlen hXS hYR
      have hX : X = [] := by cases X <;> simp_all
      have hY : Y = [] := by cases Y <;> simp_all
      subst hX; subst hY
      simp
    | succ n ih =>
      intro X Y hlen hXS hYR
      cases X with
      | nil =>
        simp only [List.nil_append, mergeJoinE_nil_left]
        exact mergeJoinE_append_right f hYR
      | cons x X =>
        cases Y with
        | nil =>
          simp only [List.nil_append, mergeJoinE_nil_right]
          exact mergeJoinE_append_left f hXS
        | cons y Y =>
          have hXS' : ∀ x' ∈ X, ∀ s ∈ S, keyLt x'.1 s.1 = true :=
            fun x' hx' => hXS x' (by simp [hx'])
          have hYR' : ∀ y' ∈ Y, ∀ r ∈ R, keyLt y'.1 r.1 = true :=
            fun y' hy' => hYR y' (by simp [hy'])
          simp only [List.cons_append]
          rw [mergeJoinE_cons_cons, mergeJoinE_cons_cons]
          cases hcmp : keyCmp x.1 y.1 with
          | lt =>
            have := ih X (y :: Y) (by simp at hlen ⊢; omega) hXS' hYR
            simp only [List.cons_append] at this
            simp [this]
          | gt =>
            have := ih (x :: X) Y (by simp at hlen ⊢; omega) hXS hYR'
            simp only [List.cons_append] at this
            simp [this]
          | eq =>
            have := ih X Y (by simp at hlen ⊢; omega) hXS' hYR'
            cases hf : f x.2 y.2 <;> simp [this]
  exact main (X.length + Y.length) X Y (Nat.le_refl _) hXS hYR

theorem mergeJoinE_prependKeys (f) (p : Key) (xs ys : List (Key × Val)) :
    mergeJoinE f (prependKeys p xs) (prependKeys p ys) =
      prependKeys p (mergeJoinE f xs ys) := by
  have main : ∀ n (xs ys : List (Key × Val)), xs.length + ys.length ≤ n →
      mergeJoinE f (prependKeys p xs) (prependKeys p ys) =
        prependKeys p (mergeJoinE f xs ys) := by
    intro n
    induction n with
    | zero =>
      intro xs ys hlen
      have hx : xs = [] := by cases xs <;> simp_all
      have hy : ys = [] := by cases ys <;> simp_all
      subst hx; subst hy; simp
    | succ n ih =>
      intro xs ys hlen
      cases xs with
      | nil => simp
      | cons x xs =>
        cases ys with
        | nil => simp
        | cons y ys =>
          simp only [prependKeys_cons]
          rw [mergeJoinE_cons_cons, mergeJoinE_cons_cons]
          simp only [keyCmp_append_same]
          cases hcmp : keyCmp x.1 y.1 with
          | lt =>
            have := ih xs (y :: ys) (by simp at hlen ⊢; omega)
            simp only [prependKeys_cons] at this
            simp [this]
          | gt =>
            have := ih (x :: xs) ys (by simp at hlen ⊢; omega)
            simp only [prependKeys_cons] at this
            simp [this]
          | eq =>
            have := ih xs ys (by simp at hlen ⊢; omega)
            cases hf : f x.2 y.2 <;> simp [this]
  exact main (xs.length + ys.length) xs ys (Nat.le_refl _)

/-- Re-attaching the peeled common part of a prefix to the entries of the
shortened node yields the entries of the original node. -/
theorem prependKeys_entriesLex_shorten {b : TNode} {n : Nat} :
    prependKeys (b.pre.take n) (entriesLex (shorten n b)) = entriesLex b := by
  cases b with
  | mk bp bv bcs =>
    simp only [shorten, TNode.pre_mk, TNode.val_mk, TNode.children_mk, entriesLex_eq]
    rw [prependKeys_append, prependKeys_prependKeys, List.take_append_drop]
    congr 1
    cases bv <;> simp [List.take_append_drop]

/-! Case-unfolding lemmas for the allocating merge. -/

theorem outer_combine_eq_both (f) {a b : TNode}
    (h1 : commonPfx a.pre b.pre = a.pre.length)
    (h2 : commonPfx a.pre b.pre = b.pre.length) :
    outer_combine f a b =
      .mk a.pre (combineV f a.val b.val)
        (outer_combine_children f a.children b.children) := by
  rw [outer_combine]
  have h2' : a.pre.length = b.pre.length := by rw [← h1, h2]
  simp only [h1, h2', and_self, if_pos]
  rw [← h2', List.take_length]
  cases hva : a.val <;> cases hvb : b.val <;> simp [combineV]

theorem outer_combine_eq_left (f) {a b : TNode}
    (h1 : commonPfx a.pre b.pre = a.pre.length)
    (h2 : commonPfx a.pre b.pre ≠ b.pre.length) :
    outer_combine f a b =
      .mk a.pre a.val
        (outer_combine_children f a.children [shorten (commonPfx a.pre b.pre) b]) := by
  rw [outer_combine]
  have hcond : ¬ (commonPfx a.pre b.pre = a.pre.length ∧
      commonPfx a.pre b.pre = b.pre.length) := by
    intro h; exact h2 h.2
  rw [if_neg hcond, if_pos h1, h1, List.take_length]

theorem outer_combine_eq_right (f) {a b : TNode}
    (h1 : commonPfx a.pre b.pre ≠ a.pre.length)
    (h2 : commonPfx a.pre b.pre = b.pre.length) :
    outer_combine f a b =
      .mk (a.pre.take (commonPfx a.pre b.pre)) b.val
        (outer_combine_children f [shorten (commonPfx a.pre b.pre) a] b.children) := by
  rw [outer_combine]
  have hcond : ¬ (commonPfx a.pre b.pre = a.pre.length ∧
      commonPfx a.pre b.pre = b.pre.length) := by
    intro h; exact h1 h.1
  rw [if_neg hcond, if_neg h1, if_pos h2]

theorem outer_combine_eq_disjoint (f) {a b : TNode}
    (h1 : commonPfx a.pre b.pre ≠ a.pre.length)
    (h2 : commonPfx a.pre b.pre ≠ b.pre.length) :
    outer_combine f a b =
      .mk (a.pre.take (commonPfx a.pre b.pre)) none
        (if a.pre.getD (commonPfx a.pre b.pre) 0 ≤ b.pre.getD (commonPfx a.pre b.pre) 0
         then [shorten (commonPfx a.pre b.pre) a, shorten (commonPfx a.pre b.pre) b]
         else [shorten (commonPfx a.pre b.pre) b, shorten (commonPfx a.pre b.pre) a]) := by
  rw [outer_combine]
  have hcond : ¬ (commonPfx a.pre b.pre = a.pre.length ∧
      commonPfx a.pre b.pre = b.pre.length) := by
    intro h; exact h1 h.1
  rw [if_neg hcond, if_neg h1, if_neg h2]

/-! Unfolding lemmas for the child join. -/

theorem outer_combine_children_nil_left (f) (bs : List TNode) :
    outer_combine_children f [] bs = bs := by
  induction bs with
  | nil => rw [outer_combine_children]
  | cons b bs ih =>
    rw [outer_combine_children, ih]

theorem outer_combine_children_nil_right (f) (as : List TNode) :
    outer_combine_children f as [] = as := by
  induction as with
  | nil => rw [outer_combine_children]
  | cons a as ih =>
    rw [outer_combine_children, ih]

theorem outer_combine_children_cons_cons (f) (a b : TNode) (as bs : List TNode)
    {x y : Byte} (ha : a.pre.head? = some x) (hb : b.pre.head? = some y) :
    outer_combine_children f (a :: as) (b :: bs) =
      (if x < y then a :: outer_combine_children f as (b :: bs)
       else if y < x then b :: outer_combine_children f (a :: as) bs
       else outer_combine f a b :: outer_combine_children f as bs) := by
  rw [outer_combine_children]
  simp [ha, hb]

/-! Small helper facts used by the merge correctness proof. -/

theorem eq_of_commonPfx_full {a b : List Byte}
    (h1 : commonPfx a b = a.length) (h2 : commonPfx a b = b.length) : a = b := by
  have hl : a.length = b.length := by rw [← h1, h2]
  have ht := commonPfx_take a b
  rw [h1, List.take_length] at ht
  rw [ht, hl, List.take_length]

theorem drop_ne_nil_of_lt {l : List Byte} {n : Nat} (h : n < l.length) :
    l.drop n ≠ [] := by
  intro hc
  have := List.drop_eq_nil_iff.mp hc
  omega

theorem drop_eq_getD_cons {l : List Byte} {n : Nat} (h : n < l.length) :
    l.drop n = l.getD n 0 :: l.drop (n + 1) := by
  induction l generalizing n with
  | nil => simp at h
  | cons x xs ih =>
    cases n with
    | zero => simp
    | succ m =>
      simp only [List.drop_succ_cons, List.getD_cons_succ]
      exact ih (by simpa using h)

theorem head?_eq_fb {a : TNode} (h : ¬ a.pre.isEmpty = true) :
    a.pre.head? = some (fb a) := by
  cases hp : a.pre with
  | nil => simp [hp] at h
  | cons x xs => simp [fb, hp]

theorem wfC_pre_ne {a : TNode} (h : wfC a = true) : ¬ a.pre.isEmpty = true := by
  cases a with
  | mk p v cs =>
    simp only [wfC_mk, Bool.and_eq_true] at h
    simpa using h.1.1

theorem wfC_parts {p v cs} (h : wfC (TNode.mk p v cs) = true) :
    ¬ p.isEmpty = true ∧ sortedFB cs = true ∧ wfCL cs = true := by
  simp only [wfC_mk, Bool.and_eq_true] at h
  exact ⟨by simpa using h.1.1, h.1.2, h.2⟩

theorem entriesLexL_key_ne_nil {cs : List TNode} (hwf : wfCL cs = true) :
    ∀ e ∈ entriesLexL cs, e.1 ≠ [] := by
  intro e he
  rcases entriesLexL_key_head hwf e he with ⟨c, _, t', ht⟩
  simp [ht]

/-- Keys of subtree entries are lexicographically above the node prefix
with anything non-empty appended below it stripped: concretely, the node
prefix key is strictly below every properly longer key of the subtree. -/
theorem keyLt_pre_entry {p : Key} {e : Key × Val}
    (hk : ∃ k', e.1 = p ++ k') (hne : e.1 ≠ p) : keyLt p e.1 = true := by
  rcases hk with ⟨k', hk⟩
  cases hk' : k' with
  | nil => exact absurd (by simp [hk, hk']) hne
  | cons x xs =>
    rw [hk, hk']
    exact keyLt_append_of_nonempty p (by simp)

/-- Entries of a well-formed sibling all start with its first prefix
byte. -/
theorem entriesLex_key_head_of_wfC {a : TNode} (h : wfC a = true) :
    ∀ e ∈ entriesLex a, ∃ t', e.1 = fb a :: t' := by
  intro e he
  rcases entriesLex_key_shape e he with ⟨k', hk⟩
  have hp := wfC_pre_ne h
  cases hcp : a.pre with
  | nil => simp [hcp] at hp
  | cons h0 hs =>
    refine ⟨hs ++ k', ?_⟩
    simp [hk, hcp, fb]

/-- Keys that agree on their first n bytes and differ at byte n compare by
that byte, whatever follows. -/
theorem keyLt_of_getD_lt {p q : List Byte} {n : Nat} (hpn : n < p.length)
    (hqn : n < q.length) (htake : p.take n = q.take n)
    (hlt : p.getD n 0 < q.getD n 0) :
    ∀ k k' : List Byte, keyLt (p ++ k) (q ++ k') = true := by
  intro k k'
  have hp : p = p.take n ++ (p.getD n 0 :: p.drop (n + 1)) := by
    rw [← drop_eq_getD_cons hpn, List.take_append_drop]
  have hq : q = q.take n ++ (q.getD n 0 :: q.drop (n + 1)) := by
    rw [← drop_eq_getD_cons hqn, List.take_append_drop]
  rw [hp, hq, htake]
  simp only [keyLt, List.append_assoc, List.cons_append]
  rw [keyCmp_append_same, keyCmp_cons_cons, if_pos hlt]
  simp


/-- Simultaneous statement for the allocating merge: entries of the merged
node, and of the merged child sequences, are the merge join of the entries
of the inputs. -/
theorem outer_combine_main (f : Val → Val → Option Val) : ∀ N : Nat,
    (∀ a b : TNode, a.size + b.size ≤ N → wfT a = true → wfT b = true →
      entriesLex (outer_combine f a b) = mergeJoinE f (entriesLex a) (entriesLex b)) ∧
    (∀ as bs : List TNode, sizeL as + sizeL bs ≤ N →
      sortedFB as = true → wfCL as = true → sortedFB bs = true → wfCL bs = true →
      entriesLexL (outer_combine_children f as bs) =
        mergeJoinE f (entriesLexL as) (entriesLexL bs)) := by
  intro N
  induction N using Nat.strong_induction_on with
  | _ N ih =>
    have hP : ∀ a b : TNode, a.size + b.size ≤ N → wfT a = true → wfT b = true →
        entriesLex (outer_combine f a b) = mergeJoinE f (entriesLex a) (entriesLex b) := by
      intro a b hsize hwa hwb
      obtain ⟨ap, av, acs⟩ := a
      obtain ⟨bp, bv, bcs⟩ := b
      rw [wfT_mk] at hwa hwb
      simp only [Bool.and_eq_true] at hwa hwb
      obtain ⟨hsa, hca⟩ := hwa
      obtain ⟨hsb, hcb⟩ := hwb
      by_cases h1 : commonPfx ap bp = ap.length
      · by_cases h2 : commonPfx ap bp = bp.length
        · -- identical prefixes
          have hab : ap = bp := eq_of_commonPfx_full h1 h2
          subst hab
          rw [outer_combine_eq_both f (a := .mk ap av acs) (b := .mk ap bv bcs)
            (by simpa using h1) (by simpa using h2)]
          simp only [TNode.pre_mk, TNode.val_mk, TNode.children_mk]
          simp only [entriesLex_eq]
          have hsums : sizeL acs + sizeL bcs < N := by
            simp at hsize
            omega
          have hjoin := (ih _ hsums).2 acs bcs (Nat.le_refl _) hsa hca hsb hcb
          rw [hjoin, ← mergeJoinE_prependKeys]
          have hXc : ∀ e ∈ prependKeys ap (entriesLexL acs), keyLt ap e.1 = true := by
            intro e he
            rw [prependKeys] at he
            rcases List.mem_map.mp he with ⟨e', he', rfl⟩
            exact keyLt_append_of_nonempty ap (entriesLexL_key_ne_nil hca e' he')
          have hYc : ∀ e ∈ prependKeys ap (entriesLexL bcs), keyLt ap e.1 = true := by
            intro e he
            rw [prependKeys] at he
            rcases List.mem_map.mp he with ⟨e', he', rfl⟩
            exact keyLt_append_of_nonempty ap (entriesLexL_key_ne_nil hcb e' he')
          cases av with
          | some av' =>
            cases bv with
            | some bv' =>
              simp only [optE_some, List.cons_append, List.nil_append,
                List.singleton_append]
              rw [mergeJoinE_cons_cons]
              simp only [keyCmp_self]
              cases hf : f av' bv' <;> simp [hf]
            | none =>
              simp only [optE_some, optE_none, List.nil_append, List.singleton_append]
              rw [mergeJoinE_emit_left f hYc]
              simp
          | none =>
            cases bv with
            | some bv' =>
              simp only [optE_some, optE_none, List.nil_append, List.singleton_append]
              rw [mergeJoinE_emit_right f hXc]
              simp
            | none =>
              simp
        · -- a is a proper prefix of b
          have hlt : commonPfx ap bp < bp.length :=
            Nat.lt_of_le_of_ne (commonPfx_le_right ap bp) h2
          rw [outer_combine_eq_left f (a := .mk ap av acs) (b := .mk bp bv bcs)
            (by simpa using h1) (by simpa using h2)]
          simp only [TNode.pre_mk, TNode.val_mk, TNode.children_mk]
          have h3 : ap.take (commonPfx ap bp) = ap := by rw [h1, List.take_length]
          have h4 : ap = bp.take (commonPfx ap bp) := by
            conv_lhs => rw [← h3]
            exact commonPfx_take ap bp
          have hwfs : wfC (shorten (commonPfx ap bp) (.mk bp bv bcs)) = true := by
            simp only [shorten, TNode.pre_mk, TNode.val_mk, TNode.children_mk, wfC_mk,
              Bool.and_eq_true]
            refine ⟨⟨?_, hsb⟩, hcb⟩
            simp [drop_ne_nil_of_lt hlt]
          have hsums :
              sizeL acs + sizeL [shorten (commonPfx ap bp) (.mk bp bv bcs)] < N := by
            simp only [sizeL_cons, sizeL_nil, size_shorten, size_mk]
            simp at hsize
            omega
          have hjoin := (ih _ hsums).2 acs [shorten (commonPfx ap bp) (.mk bp bv bcs)]
            (Nat.le_refl _) hsa hca (by simp) (by simp [hwfs])
          have hshort :
              prependKeys ap (entriesLex (shorten (commonPfx ap bp) (.mk bp bv bcs))) =
                optE bp bv ++ prependKeys bp (entriesLexL bcs) := by
            have h5 := prependKeys_entriesLex_shorten
              (b := TNode.mk bp bv bcs) (n := commonPfx ap bp)
            simp only [TNode.pre_mk] at h5
            rw [← h4] at h5
            rw [h5, entriesLex_eq]
          have hkeys : ∀ e ∈ optE bp bv ++ prependKeys bp (entriesLexL bcs),
              keyLt ap e.1 = true := by
            have hkeys0 : ∀ e ∈ entriesLex (TNode.mk bp bv bcs), keyLt ap e.1 = true := by
              intro e he
              rcases entriesLex_key_shape e he with ⟨k', hk⟩
              have hbp := List.take_append_drop (commonPfx ap bp) bp
              rw [← h4] at hbp
              simp only [TNode.pre_mk] at hk
              rw [hk, ← hbp, List.append_assoc]
              refine keyLt_append_of_nonempty ap ?_
              have hd := drop_ne_nil_of_lt hlt
              intro hc
              rcases List.append_eq_nil.mp hc with ⟨hc1, _⟩
              exact hd hc1
            simpa only [entriesLex_eq] using hkeys0
          simp only [entriesLex_eq]
          rw [hjoin]
          have hsingle : entriesLexL [shorten (commonPfx ap bp) (.mk bp bv bcs)] =
              entriesLex (shorten (commonPfx ap bp) (.mk bp bv bcs)) := by simp
          rw [hsingle, ← mergeJoinE_prependKeys, hshort]
          cases av with
          | some av' =>
            simp only [optE_some, List.singleton_append]
            rw [mergeJoinE_emit_left f hkeys]
          | none =>
            simp
      · by_cases h2 : commonPfx ap bp = bp.length
        · -- b is a proper prefix of a
          have hlt : commonPfx ap bp < ap.length :=
            Nat.lt_of_le_of_ne (commonPfx_le_left ap bp) h1
          rw [outer_combine_eq_right f (a := .mk ap av acs) (b := .mk bp bv bcs)
            (by simpa using h1) (by simpa using h2)]
          simp only [TNode.pre_mk, TNode.val_mk, TNode.children_mk]
          have h3 : bp.take (commonPfx ap bp) = bp := by rw [h2, List.take_length]
          have h4 : bp = ap.take (commonPfx ap bp) := by
            conv_lhs => rw [← h3]
            exact (commonPfx_take ap bp).symm
          have hwfs : wfC (shorten (commonPfx ap bp) (.mk ap av acs)) = true := by
            simp only [shorten, TNode.pre_mk, TNode.val_mk, TNode.children_mk, wfC_mk,
              Bool.and_eq_true]
            refine ⟨⟨?_, hsa⟩, hca⟩
            simp [drop_ne_nil_of_lt hlt]
          have hsums :
              sizeL [shorten (commonPfx ap bp) (.mk ap av acs)] + sizeL bcs < N := by
            simp only [sizeL_cons, sizeL_nil, size_shorten, size_mk]
            simp at hsize
            omega
          have hjoin := (ih _ hsums).2 [shorten (commonPfx ap bp) (.mk ap av acs)] bcs
            (Nat.le_refl _) (by simp) (by simp [hwfs]) hsb hcb
          have hshort :
              prependKeys (ap.take (commonPfx ap bp))
                  (entriesLex (shorten (commonPfx ap bp) (.mk ap av acs))) =
                optE ap av ++ prependKeys ap (entriesLexL acs) := by
            have h5 := prependKeys_entriesLex_shorten
              (b := TNode.mk ap av acs) (n := commonPfx ap bp)
            simp only [TNode.pre_mk] at h5
            rw [h5, entriesLex_eq]
          have hkeys : ∀ e ∈ optE ap av ++ prependKeys ap (entriesLexL acs),
              keyLt bp e.1 = true := by
            have hkeys0 : ∀ e ∈ entriesLex (TNode.mk ap av acs), keyLt bp e.1 = true := by
              intro e he
              rcases entriesLex_key_shape e he with ⟨k', hk⟩
              have hap := List.take_append_drop (commonPfx ap bp) ap
              rw [← h4] at hap
              simp only [TNode.pre_mk] at hk
              rw [hk, ← hap, List.append_assoc]
              refine keyLt_append_of_nonempty bp ?_
              have hd := drop_ne_nil_of_lt hlt
              intro hc
              rcases List.append_eq_nil.mp hc with ⟨hc1, _⟩
              exact hd hc1
            simpa only [entriesLex_eq] using hkeys0
          simp only [entriesLex_eq]
          rw [hjoin]
          have hsingle : entriesLexL [shorten (commonPfx ap bp) (.mk ap av acs)] =
              entriesLex (shorten (commonPfx ap bp) (.mk ap av acs)) := by simp
          rw [hsingle, ← mergeJoinE_prependKeys, hshort]
          rw [← h4]
          cases bv with
          | some bv' =>
            simp only [optE_some, List.singleton_append]
            rw [mergeJoinE_emit_right f hkeys]
          | none =>
            simp
        · -- disjoint nodes
          have hlta : commonPfx ap bp < ap.length :=
            Nat.lt_of_le_of_ne (commonPfx_le_left ap bp) h1
          have hltb : commonPfx ap bp < bp.length :=
            Nat.lt_of_le_of_ne (commonPfx_le_right ap bp) h2
          have hne := commonPfx_get_ne ap bp hlta hltb
          rw [outer_combine_eq_disjoint f (a := .mk ap av acs) (b := .mk bp bv bcs)
            (by simpa using h1) (by simpa using h2)]
          simp only [TNode.pre_mk, TNode.val_mk, TNode.children_mk]
          have htk : ap.take (commonPfx ap bp) = bp.take (commonPfx ap bp) :=
            commonPfx_take ap bp
          have hshortA :
              prependKeys (ap.take (commonPfx ap bp))
                  (entriesLex (shorten (commonPfx ap bp) (.mk ap av acs))) =
                optE ap av ++ prependKeys ap (entriesLexL acs) := by
            have h5 := prependKeys_entriesLex_shorten
              (b := TNode.mk ap av acs) (n := commonPfx ap bp)
            simp only [TNode.pre_mk] at h5
            rw [h5, entriesLex_eq]
          have hshortB :
              prependKeys (ap.take (commonPfx ap bp))
                  (entriesLex (shorten (commonPfx ap bp) (.mk bp bv bcs))) =
                optE bp bv ++ prependKeys bp (entriesLexL bcs) := by
            have h5 := prependKeys_entriesLex_shorten
              (b := TNode.mk bp bv bcs) (n := commonPfx ap bp)
            simp only [TNode.pre_mk] at h5
            rw [htk]
            rw [h5, entriesLex_eq]
          have hallAB : ∀ x ∈ optE ap av ++ prependKeys ap (entriesLexL acs),
              ∀ y ∈ optE bp bv ++ prependKeys bp (entriesLexL bcs),
              keyLt x.1 y.1 = true ∨ keyLt y.1 x.1 = true := by
            intro x hx y hy
            have hx0 : ∃ k, x.1 = ap ++ k := by
              have := entriesLex_key_shape (t := TNode.mk ap av acs) x
                (by simpa only [entriesLex_eq] using hx)
              simpa using this
            have hy0 : ∃ k, y.1 = bp ++ k := by
              have := entriesLex_key_shape (t := TNode.mk bp bv bcs) y
                (by simpa only [entriesLex_eq] using hy)
              simpa using this
            rcases hx0 with ⟨k, hk⟩
            rcases hy0 with ⟨k', hk'⟩
            rcases Nat.lt_or_ge (ap.getD (commonPfx ap bp) 0)
              (bp.getD (commonPfx ap bp) 0) with hg | hg
            · left
              rw [hk, hk']
              exact keyLt_of_getD_lt hlta hltb htk hg k k'
            · right
              have hg' : bp.getD (commonPfx ap bp) 0 < ap.getD (commonPfx ap bp) 0 :=
                Nat.lt_of_le_of_ne hg (Ne.symm hne)
              rw [hk, hk']
              exact keyLt_of_getD_lt hltb hlta htk.symm hg' k' k
          by_cases hle : ap.getD (commonPfx ap bp) 0 ≤ bp.getD (commonPfx ap bp) 0
          · have hltg : ap.getD (commonPfx ap bp) 0 < bp.getD (commonPfx ap bp) 0 :=
              Nat.lt_of_le_of_ne hle hne
            rw [if_pos hle]
            simp only [entriesLex_eq, entriesLexL_cons, entriesLexL_nil,
              List.append_nil, optE_none, List.nil_append]
            rw [prependKeys_append, hshortA, hshortB]
            have hall : ∀ x ∈ optE ap av ++ prependKeys ap (entriesLexL acs),
                ∀ y ∈ optE bp bv ++ prependKeys bp (entriesLexL bcs),
                keyLt x.1 y.1 = true := by
              intro x hx y hy
              have hx0 : ∃ k, x.1 = ap ++ k := by
                have := entriesLex_key_shape (t := TNode.mk ap av acs) x
                  (by simpa only [entriesLex_eq] using hx)
                simpa using this
              have hy0 : ∃ k, y.1 = bp ++ k := by
                have := entriesLex_key_shape (t := TNode.mk bp bv bcs) y
                  (by simpa only [entriesLex_eq] using hy)
                simpa using this
              rcases hx0 with ⟨k, hk⟩
              rcases hy0 with ⟨k', hk'⟩
              rw [hk, hk']
              exact keyLt_of_getD_lt hlta hltb htk hltg k k'
            rw [mergeJoinE_all_lt f hall]
          · have hltg : bp.getD (commonPfx ap bp) 0 < ap.getD (commonPfx ap bp) 0 :=
              Nat.lt_of_not_le hle
            rw [if_neg hle]
            simp only [entriesLex_eq, entriesLexL_cons, entriesLexL_nil,
              List.append_nil, optE_none, List.nil_append]
            rw [prependKeys_append, hshortB, hshortA]
            have hall : ∀ y ∈ optE bp bv ++ prependKeys bp (entriesLexL bcs),
                ∀ x ∈ optE ap av ++ prependKeys ap (entriesLexL acs),
                keyLt y.1 x.1 = true := by
              intro y hy x hx
              have hx0 : ∃ k, x.1 = ap ++ k := by
                have := entriesLex_key_shape (t := TNode.mk ap av acs) x
                  (by simpa only [entriesLex_eq] using hx)
                simpa using this
              have hy0 : ∃ k, y.1 = bp ++ k := by
                have := entriesLex_key_shape (t := TNode.mk bp bv bcs) y
                  (by simpa only [entriesLex_eq] using hy)
                simpa using this
              rcases hx0 with ⟨k, hk⟩
              rcases hy0 with ⟨k', hk'⟩
              rw [hk, hk']
              exact keyLt_of_getD_lt hltb hlta htk.symm hltg k' k
            have hmr := mergeJoinE_append_right f
              (Y := optE bp bv ++ prependKeys bp (entriesLexL bcs))
              (S := ([] : List (Key × Val)))
              (R := optE ap av ++ prependKeys ap (entriesLexL acs)) hall
            simp only [List.append_nil, mergeJoinE_nil_right] at hmr
            rw [hmr]
    have hQ : ∀ as bs : List TNode, sizeL as + sizeL bs ≤ N →
        sortedFB as = true → wfCL as = true → sortedFB bs = true → wfCL bs = true →
        entriesLexL (outer_combine_children f as bs) =
          mergeJoinE f (entriesLexL as) (entriesLexL bs) := by
      intro as bs hsize hsa hca hsb hcb
      cases as with
      | nil =>
        rw [outer_combine_children_nil_left]
        simp
      | cons a as' =>
        cases bs with
        | nil =>
          rw [outer_combine_children_nil_right]
          simp
        | cons b bs' =>
          simp only [wfCL_cons, Bool.and_eq_true] at hca hcb
          obtain ⟨hwca, hca'⟩ := hca
          obtain ⟨hwcb, hcb'⟩ := hcb
          have hha := head?_eq_fb (wfC_pre_ne hwca)
          have hhb := head?_eq_fb (wfC_pre_ne hwcb)
          rw [outer_combine_children_cons_cons f a b as' bs' hha hhb]
          have hsa' := sortedFB_of_cons hsa
          have hsb' := sortedFB_of_cons hsb
          by_cases hlt : fb a < fb b
          · rw [if_pos hlt]
            simp only [entriesLexL_cons]
            have hsums : sizeL as' + sizeL (b :: bs') < N := by
              have := size_pos a
              simp at hsize ⊢
              omega
            have hrec := (ih _ hsums).2 as' (b :: bs') (Nat.le_refl _) hsa' hca'
              hsb (by simp [hwcb, hcb'])
            rw [hrec]
            simp only [entriesLexL_cons]
            have hbound : ∀ x ∈ entriesLex a,
                ∀ s ∈ entriesLex b ++ entriesLexL bs', keyLt x.1 s.1 = true := by
              intro x hx s hs
              rcases entriesLex_key_head_of_wfC hwca x hx with ⟨t1, ht1⟩
              have hshead : ∃ c : TNode, (c = b ∨ c ∈ bs') ∧ ∃ t2, s.1 = fb c :: t2 := by
                rcases List.mem_append.mp hs with hs | hs
                · rcases entriesLex_key_head_of_wfC hwcb s hs with ⟨t2, ht2⟩
                  exact ⟨b, Or.inl rfl, t2, ht2⟩
                · rcases entriesLexL_key_head hcb' s hs with ⟨c, hc, t2, ht2⟩
                  exact ⟨c, Or.inr hc, t2, ht2⟩
              rcases hshead with ⟨c, hc, t2, ht2⟩
              have hcfb : fb a < fb c := by
                rcases hc with hc | hc
                · subst hc; exact hlt
                · exact Nat.lt_trans hlt (sortedFB_lt_of_mem hsb c hc)
              rw [ht1, ht2]
              exact keyLt_of_head_lt hcfb
            exact (mergeJoinE_append_left f hbound).symm
          · by_cases hgt : fb b < fb a
            · rw [if_neg hlt, if_pos hgt]
              simp only [entriesLexL_cons]
              have hsums : sizeL (a :: as') + sizeL bs' < N := by
                have := size_pos b
                simp at hsize ⊢
                omega
              have hrec := (ih _ hsums).2 (a :: as') bs' (Nat.le_refl _)
                hsa (by simp [hwca, hca']) hsb' hcb'
              rw [hrec]
              simp only [entriesLexL_cons]
              have hbound : ∀ y ∈ entriesLex b,
                  ∀ r ∈ entriesLex a ++ entriesLexL as', keyLt y.1 r.1 = true := by
                intro y hy r hr
                rcases entriesLex_key_head_of_wfC hwcb y hy with ⟨t1, ht1⟩
                have hrhead : ∃ c : TNode, (c = a ∨ c ∈ as') ∧ ∃ t2, r.1 = fb c :: t2 := by
                  rcases List.mem_append.mp hr with hr | hr
                  · rcases entriesLex_key_head_of_wfC hwca r hr with ⟨t2, ht2⟩
                    exact ⟨a, Or.inl rfl, t2, ht2⟩
                  · rcases entriesLexL_key_head hca' r hr with ⟨c, hc, t2, ht2⟩
                    exact ⟨c, Or.inr hc, t2, ht2⟩
                rcases hrhead with ⟨c, hc, t2, ht2⟩
                have hcfb : fb b < fb c := by
                  rcases hc with hc | hc
                  · subst hc; exact hgt
                  · exact Nat.lt_trans hgt (sortedFB_lt_of_mem hsa c hc)
                rw [ht1, ht2]
                exact keyLt_of_head_lt hcfb
              exact (mergeJoinE_append_right f hbound).symm
            · have heq : fb a = fb b :=
                Nat.le_antisymm (Nat.le_of_not_lt hgt) (Nat.le_of_not_lt hlt)
              rw [if_neg hlt, if_neg hgt]
              simp only [entriesLexL_cons]
              have hnode := hP a b
                (by
                  simp at hsize ⊢
                  omega)
                (wfT_of_wfC hwca) (wfT_of_wfC hwcb)
              have hsums : sizeL as' + sizeL bs' < N := by
                have hpa := size_pos a
                have hpb := size_pos b
                simp at hsize ⊢
                omega
              have hrec := (ih _ hsums).2 as' bs' (Nat.le_refl _) hsa' hca' hsb' hcb'
              rw [hnode, hrec]
              have hXS : ∀ x ∈ entriesLex a, ∀ s ∈ entriesLexL bs',
                  keyLt x.1 s.1 = true := by
                intro x hx s hs
                rcases entriesLex_key_head_of_wfC hwca x hx with ⟨t1, ht1⟩
                rcases entriesLexL_key_head hcb' s hs with ⟨c, hc, t2, ht2⟩
                have hcfb : fb a < fb c := by
                  rw [heq]
                  exact sortedFB_lt_of_mem hsb c hc
                rw [ht1, ht2]
                exact keyLt_of_head_lt hcfb
              have hYR : ∀ y ∈ entriesLex b, ∀ r ∈ entriesLexL as',
                  keyLt y.1 r.1 = true := by
                intro y hy r hr
                rcases entriesLex_key_head_of_wfC hwcb y hy with ⟨t1, ht1⟩
                rcases entriesLexL_key_head hca' r hr with ⟨c, hc, t2, ht2⟩
                have hcfb : fb b < fb c := by
                  rw [← heq]
                  exact sortedFB_lt_of_mem hsa c hc
                rw [ht1, ht2]
                exact keyLt_of_head_lt hcfb
              exact (mergeJoinE_block f hXS hYR).symm
    exact ⟨hP, hQ⟩

/-- Entries of the allocating merge are the reference merge join of the
entries of the operands (corollary of outer_combine_main). -/
theorem entriesLex_outer_combine (f : Val → Val → Option Val) (a b : TNode)
    (ha : wfT a = true) (hb : wfT b = true) :
    entriesLex (outer_combine f a b) = mergeJoinE f (entriesLex a) (entriesLex b) :=
  (outer_combine_main f (a.size + b.size)).1 a b (Nat.le_refl _) ha hb

/-! Sortedness: the reference entries of a well-formed tree carry strictly
ascending keys. -/

/-- Strictly ascending keys. -/
def sortedE (es : List (Key × Val)) : Prop :=
  es.Pairwise (fun e e' => keyLt e.1 e'.1 = true)

theorem sortedE_nil : sortedE [] := List.Pairwise.nil

theorem sortedE_prependKeys {p : Key} {es : List (Key × Val)} (h : sortedE es) :
    sortedE (prependKeys p es) := by
  rw [sortedE, prependKeys, List.pairwise_map]
  refine h.imp ?_
  intro e e' hee
  simpa [keyLt, keyCmp_append_same] using hee

theorem sortedE_entriesLexL {cs : List TNode} (hs : sortedFB cs = true)
    (hc : wfCL cs = true) (hall : ∀ c ∈ cs, sortedE (entriesLex c)) :
    sortedE (entriesLexL cs) := by
  induction cs with
  | nil => simp [sortedE]
  | cons c cs' ih =>
    simp only [wfCL_cons, Bool.and_eq_true] at hc
    rw [entriesLexL_cons, sortedE, List.pairwise_append]
    refine ⟨hall c (by simp), ?_, ?_⟩
    · exact ih (sortedFB_of_cons hs) hc.2 (fun d hd => hall d (by simp [hd]))
    · intro x hx y hy
      rcases entriesLex_key_head_of_wfC hc.1 x hx with ⟨t1, ht1⟩
      rcases entriesLexL_key_head hc.2 y hy with ⟨d, hd, t2, ht2⟩
      rw [ht1, ht2]
      exact keyLt_of_head_lt (sortedFB_lt_of_mem hs d hd)

theorem sortedE_entriesLex : ∀ t : TNode, wfT t = true → sortedE (entriesLex t) := by
  intro t
  induction t using TNode.rec_children with
  | h p v cs ih =>
    intro hw
    rw [wfT_mk] at hw
    simp only [Bool.and_eq_true] at hw
    have hlist : sortedE (entriesLexL cs) := by
      refine sortedE_entriesLexL hw.1 hw.2 ?_
      intro c hc
      refine ih c hc (wfT_of_wfC ?_)
      have h2 := hw.2
      clear ih hw
      induction cs with
      | nil => cases hc
      | cons d ds ihd =>
        simp only [wfCL_cons, Bool.and_eq_true] at h2
        rcases List.mem_cons.mp hc with h | h
        · subst h; exact h2.1
        · exact ihd h h2.2
    rw [entriesLex_eq, sortedE, List.pairwise_append]
    refine ⟨?_, sortedE_prependKeys hlist, ?_⟩
    · cases v <;> simp [sortedE]
    · intro x hx y hy
      cases v with
      | none => simp at hx
      | some v' =>
        simp only [optE_some, List.mem_singleton] at hx
        subst hx
        rw [prependKeys] at hy
        rcases List.mem_map.mp hy with ⟨e', he', rfl⟩
        exact keyLt_append_of_nonempty p (entriesLexL_key_ne_nil hw.2 e' he')

/-! Helpers about membership in well-formed and canonical sequences. -/

theorem wfC_of_mem {c : TNode} {cs : List TNode} (h : wfCL cs = true) (hc : c ∈ cs) :
    wfC c = true := by
  induction cs with
  | nil => cases hc
  | cons d ds ih =>
    simp only [wfCL_cons, Bool.and_eq_true] at h
    rcases List.mem_cons.mp hc with h0 | h0
    · subst h0; exact h.1
    · exact ih h.2 h0

theorem canonC_of_mem {c : TNode} {cs : List TNode} (h : canonCL cs = true)
    (hc : c ∈ cs) : canonC c = true := by
  induction cs with
  | nil => cases hc
  | cons d ds ih =>
    simp only [canonCL_cons, Bool.and_eq_true] at h
    rcases List.mem_cons.mp hc with h0 | h0
    · subst h0; exact h.1
    · exact ih h.2 h0

theorem canonT_of_canonC {t : TNode} (h : canonC t = true) : canonT t = true := by
  cases t with
  | mk p v cs =>
    simp only [canonC_mk, Bool.and_eq_true] at h
    simp only [canonT, TNode.val_mk, TNode.children_mk, TNode.pre_mk]
    rw [Bool.and_eq_true]
    refine ⟨h.2, ?_⟩
    rcases Bool.or_eq_true _ _ |>.mp h.1 with h0 | h0
    · simp [Option.isNone_iff_eq_none] at h0 ⊢
      cases v <;> simp_all
    · cases cs <;> simp_all

theorem wfC_eq (t : TNode) :
    wfC t = (!t.pre.isEmpty && sortedFB t.children && wfCL t.children) := by
  cases t with
  | mk p v cs => simp [wfC]

theorem wfC_of_wfT_pre {t : TNode} (hw : wfT t = true) (hp : t.pre ≠ []) :
    wfC t = true := by
  rw [wfC_eq, wfT] at *
  simp only [Bool.and_eq_true] at hw ⊢
  refine ⟨⟨?_, hw.1⟩, hw.2⟩
  simpa using hp

theorem sortedFB_cons_of {x : TNode} {xs : List TNode} (hs : sortedFB xs = true)
    (h : ∀ c ∈ xs, fb x < fb c) : sortedFB (x :: xs) = true := by
  cases xs with
  | nil => rfl
  | cons y ys =>
    rw [sortedFB_cons_cons]
    simp [h y (by simp), hs]

/-- The sorted join of non-empty well-formed sequences is non-empty. -/
theorem outer_combine_children_ne_nil (f) {as bs : List TNode}
    (hca : wfCL as = true) (hcb : wfCL bs = true) (h : as ≠ [] ∨ bs ≠ []) :
    outer_combine_children f as bs ≠ [] := by
  cases as with
  | nil =>
    rw [outer_combine_children_nil_left]
    rcases h with h | h
    · exact absurd rfl h
    · exact h
  | cons a as' =>
    cases bs with
    | nil =>
      rw [outer_combine_children_nil_right]
      simp
    | cons b bs' =>
      simp only [wfCL_cons, Bool.and_eq_true] at hca hcb
      have hha := head?_eq_fb (wfC_pre_ne hca.1)
      have hhb := head?_eq_fb (wfC_pre_ne hcb.1)
      rw [outer_combine_children_cons_cons f a b as' bs' hha hhb]
      by_cases h1 : fb a < fb b
      · simp [h1]
      · by_cases h2 : fb b < fb a <;> simp [h1, h2]

theorem take_ne_nil_of_pos {l : List Byte} {n : Nat} (hn : 0 < n) (hl : l ≠ []) :
    l.take n ≠ [] := by
  cases l with
  | nil => exact absurd rfl hl
  | cons x xs =>
    cases n with
    | zero => omega
    | succ m => simp

theorem headD_take_of_pos {l : List Byte} {n : Nat} (hn : 0 < n) :
    (l.take n).headD 0 = l.headD 0 := by
  cases l with
  | nil => simp
  | cons x xs =>
    cases n with
    | zero => omega
    | succ m => simp

/-- Well-formedness preservation for the allocating merge, with the
first-byte bookkeeping the sorted-join argument needs. -/
theorem outer_combine_wf (f : Val → Val → Option Val) : ∀ N : Nat,
    (∀ a b : TNode, a.size + b.size ≤ N → wfT a = true → wfT b = true →
      wfT (outer_combine f a b) = true ∧
      (a.pre ≠ [] → b.pre ≠ [] → fb a = fb b →
        (outer_combine f a b).pre ≠ [] ∧ fb (outer_combine f a b) = fb a)) ∧
    (∀ as bs : List TNode, sizeL as + sizeL bs ≤ N →
      sortedFB as = true → wfCL as = true → sortedFB bs = true → wfCL bs = true →
      sortedFB (outer_combine_children f as bs) = true ∧
      wfCL (outer_combine_children f as bs) = true ∧
      (∀ c ∈ outer_combine_children f as bs,
        ∃ d, (d ∈ as ∨ d ∈ bs) ∧ fb c = fb d)) := by
  intro N
  induction N using Nat.strong_induction_on with
  | _ N ih =>
    have hP : ∀ a b : TNode, a.size + b.size ≤ N → wfT a = true → wfT b = true →
        wfT (outer_combine f a b) = true ∧
        (a.pre ≠ [] → b.pre ≠ [] → fb a = fb b →
          (outer_combine f a b).pre ≠ [] ∧ fb (outer_combine f a b) = fb a) := by
      intro a b hsize hwa hwb
      obtain ⟨ap, av, acs⟩ := a
      obtain ⟨bp, bv, bcs⟩ := b
      rw [wfT_mk] at hwa hwb
      simp only [Bool.and_eq_true] at hwa hwb
      obtain ⟨hsa, hca⟩ := hwa
      obtain ⟨hsb, hcb⟩ := hwb
      have hn1 : ap ≠ [] → bp ≠ [] → fb (TNode.mk ap av acs) = fb (TNode.mk bp bv bcs) →
          0 < commonPfx ap bp := by
        intro hna hnb hfb
        cases hap : ap with
        | nil => exact absurd hap hna
        | cons x xs =>
          cases hbp : bp with
          | nil => exact absurd hbp hnb
          | cons y ys =>
            have : x = y := by
              simp only [fb, TNode.pre_mk, hap, hbp] at hfb
              simpa using hfb
            subst this
            rw [commonPfx_cons]
            simp
      by_cases h1 : commonPfx ap bp = ap.length
      · by_cases h2 : commonPfx ap bp = bp.length
        · have hab : ap = bp := eq_of_commonPfx_full h1 h2
          subst hab
          rw [outer_combine_eq_both f (a := .mk ap av acs) (b := .mk ap bv bcs)
            (by simpa using h1) (by simpa using h2)]
          have hsums : sizeL acs + sizeL bcs < N := by
            simp at hsize
            omega
          have hrec := (ih _ hsums).2 acs bcs (Nat.le_refl _) hsa hca hsb hcb
          constructor
          · rw [wfT_mk]
            simp [hrec.1, hrec.2.1]
          · intro hna _ _
            simpa [fb] using hna
        · rw [outer_combine_eq_left f (a := .mk ap av acs) (b := .mk bp bv bcs)
            (by simpa using h1) (by simpa using h2)]
          have hlt : commonPfx ap bp < bp.length :=
            Nat.lt_of_le_of_ne (commonPfx_le_right ap bp) h2
          have hwfs : wfC (shorten (commonPfx ap bp) (.mk bp bv bcs)) = true := by
            simp only [shorten, TNode.pre_mk, TNode.val_mk, TNode.children_mk, wfC_mk,
              Bool.and_eq_true]
            refine ⟨⟨?_, hsb⟩, hcb⟩
            simp [drop_ne_nil_of_lt hlt]
          have hsums :
              sizeL acs + sizeL [shorten (commonPfx ap bp) (.mk bp bv bcs)] < N := by
            simp only [sizeL_cons, sizeL_nil, size_shorten, size_mk]
            simp at hsize
            omega
          have hrec := (ih _ hsums).2 acs [shorten (commonPfx ap bp) (.mk bp bv bcs)]
            (Nat.le_refl _) hsa hca (by simp) (by simp [hwfs])
          constructor
          · rw [wfT_mk]
            simp [hrec.1, hrec.2.1]
          · intro hna _ _
            simpa [fb] using hna
      · by_cases h2 : commonPfx ap bp = bp.length
        · rw [outer_combine_eq_right f (a := .mk ap av acs) (b := .mk bp bv bcs)
            (by simpa using h1) (by simpa using h2)]
          have hlt : commonPfx ap bp < ap.length :=
            Nat.lt_of_le_of_ne (commonPfx_le_left ap bp) h1
          have hwfs : wfC (shorten (commonPfx ap bp) (.mk ap av acs)) = true := by
            simp only [shorten, TNode.pre_mk, TNode.val_mk, TNode.children_mk, wfC_mk,
              Bool.and_eq_true]
            refine ⟨⟨?_, hsa⟩, hca⟩
            simp [drop_ne_nil_of_lt hlt]
          have hsums :
              sizeL [shorten (commonPfx ap bp) (.mk ap av acs)] + sizeL bcs < N := by
            simp only [sizeL_cons, sizeL_nil, size_shorten, size_mk]
            simp at hsize
            omega
          have hrec := (ih _ hsums).2 [shorten (commonPfx ap bp) (.mk ap av acs)] bcs
            (Nat.le_refl _) (by simp) (by simp [hwfs]) hsb hcb
          constructor
          · rw [wfT_mk]
            simp [hrec.1, hrec.2.1]
          · intro hna hnb hfb
            simp only [TNode.pre_mk] at hna hnb
            have hpos := hn1 hna hnb hfb
            constructor
            · simp only [TNode.pre_mk]
              exact take_ne_nil_of_pos hpos hna
            · simp only [fb, TNode.pre_mk]
              exact headD_take_of_pos hpos
        · rw [outer_combine_eq_disjoint f (a := .mk ap av acs) (b := .mk bp bv bcs)
            (by simpa using h1) (by simpa using h2)]
          have hlta : commonPfx ap bp < ap.length :=
            Nat.lt_of_le_of_ne (commonPfx_le_left ap bp) h1
          have hltb : commonPfx ap bp < bp.length :=
            Nat.lt_of_le_of_ne (commonPfx_le_right ap bp) h2
          have hne := commonPfx_get_ne ap bp hlta hltb
          have hwfsa : wfC (shorten (commonPfx ap bp) (.mk ap av acs)) = true := by
            simp only [shorten, TNode.pre_mk, TNode.val_mk, TNode.children_mk, wfC_mk,
              Bool.and_eq_true]
            refine ⟨⟨?_, hsa⟩, hca⟩
            simp [drop_ne_nil_of_lt hlta]
          have hwfsb : wfC (shorten (commonPfx ap bp) (.mk bp bv bcs)) = true := by
            simp only [shorten, TNode.pre_mk, TNode.val_mk, TNode.children_mk, wfC_mk,
              Bool.and_eq_true]
            refine ⟨⟨?_, hsb⟩, hcb⟩
            simp [drop_ne_nil_of_lt hltb]
          have hfba : fb (shorten (commonPfx ap bp) (.mk ap av acs)) =
              ap.getD (commonPfx ap bp) 0 := by
            simp only [shorten, fb, TNode.pre_mk]
            rw [drop_eq_getD_cons hlta]
            simp
          have hfbb : fb (shorten (commonPfx ap bp) (.mk bp bv bcs)) =
              bp.getD (commonPfx ap bp) 0 := by
            simp only [shorten, fb, TNode.pre_mk]
            rw [drop_eq_getD_cons hltb]
            simp
          have hsorted : sortedFB
              (if ap.getD (commonPfx ap bp) 0 ≤ bp.getD (commonPfx ap bp) 0
               then [shorten (commonPfx ap bp) (.mk ap av acs),
                     shorten (commonPfx ap bp) (.mk bp bv bcs)]
               else [shorten (commonPfx ap bp) (.mk bp bv bcs),
                     shorten (commonPfx ap bp) (.mk ap av acs)]) = true := by
            by_cases hle : ap.getD (commonPfx ap bp) 0 ≤ bp.getD (commonPfx ap bp) 0
            · rw [if_pos hle, sortedFB_cons_cons]
              have hx : ap.getD (commonPfx ap bp) 0 < bp.getD (commonPfx ap bp) 0 :=
                Nat.lt_of_le_of_ne hle hne
              simpa [hfba, hfbb] using hx
            · rw [if_neg hle, sortedFB_cons_cons]
              have hx : bp.getD (commonPfx ap bp) 0 < ap.getD (commonPfx ap bp) 0 :=
                Nat.lt_of_not_le hle
              simpa [hfba, hfbb] using hx
          have hwfl : wfCL
              (if ap.getD (commonPfx ap bp) 0 ≤ bp.getD (commonPfx ap bp) 0
               then [shorten (commonPfx ap bp) (.mk ap av acs),
                     shorten (commonPfx ap bp) (.mk bp bv bcs)]
               else [shorten (commonPfx ap bp) (.mk bp bv bcs),
                     shorten (commonPfx ap bp) (.mk ap av acs)]) = true := by
            by_cases hle : ap.getD (commonPfx ap bp) 0 ≤ bp.getD (commonPfx ap bp) 0
            · rw [if_pos hle]
              simp [hwfsa, hwfsb]
            · rw [if_neg hle]
              simp [hwfsa, hwfsb]
          constructor
          · simp only [TNode.pre_mk]
            rw [wfT_mk, hsorted, hwfl]
            rfl
          · intro hna hnb hfb
            simp only [TNode.pre_mk] at hna hnb
            have hpos := hn1 hna hnb hfb
            constructor
            · simp only [TNode.pre_mk]
              exact take_ne_nil_of_pos hpos hna
            · simp only [fb, TNode.pre_mk]
              exact headD_take_of_pos hpos
    have hQ : ∀ as bs : List TNode, sizeL as + sizeL bs ≤ N →
        sortedFB as = true → wfCL as = true → sortedFB bs = true → wfCL bs = true →
        sortedFB (outer_combine_children f as bs) = true ∧
        wfCL (outer_combine_children f as bs) = true ∧
        (∀ c ∈ outer_combine_children f as bs,
          ∃ d, (d ∈ as ∨ d ∈ bs) ∧ fb c = fb d) := by
      intro as bs hsize hsa hca hsb hcb
      cases as with
      | nil =>
        rw [outer_combine_children_nil_left]
        exact ⟨hsb, hcb, fun c hc => ⟨c, Or.inr hc, rfl⟩⟩
      | cons a as' =>
        cases bs with
        | nil =>
          rw [outer_combine_children_nil_right]
          exact ⟨hsa, hca, fun c hc => ⟨c, Or.inl hc, rfl⟩⟩
        | cons b bs' =>
          simp only [wfCL_cons, Bool.and_eq_true] at hca hcb
          obtain ⟨hwca, hca'⟩ := hca
          obtain ⟨hwcb, hcb'⟩ := hcb
          have hha := head?_eq_fb (wfC_pre_ne hwca)
          have hhb := head?_eq_fb (wfC_pre_ne hwcb)
          rw [outer_combine_children_cons_cons f a b as' bs' hha hhb]
          have hsa' := sortedFB_of_cons hsa
          have hsb' := sortedFB_of_cons hsb
          by_cases hlt : fb a < fb b
          · rw [if_pos hlt]
            have hsums : sizeL as' + sizeL (b :: bs') < N := by
              have := size_pos a
              simp at hsize ⊢
              omega
            have hrec := (ih _ hsums).2 as' (b :: bs') (Nat.le_refl _) hsa' hca'
              hsb (by simp [hwcb, hcb'])
            refine ⟨?_, by simp [hwca, hrec.2.1], ?_⟩
            · refine sortedFB_cons_of hrec.1 ?_
              intro c hc
              rcases hrec.2.2 c hc with ⟨d, hd, hfd⟩
              rw [hfd]
              rcases hd with hd | hd
              · exact sortedFB_lt_of_mem hsa d (by simp [hd])
              · rcases List.mem_cons.mp hd with hd | hd
                · subst hd; exact hlt
                · exact Nat.lt_trans hlt (sortedFB_lt_of_mem hsb d hd)
            · intro c hc
              rcases List.mem_cons.mp hc with hc | hc
              · exact ⟨a, Or.inl (by simp [hc]), by rw [hc]⟩
              · rcases hrec.2.2 c hc with ⟨d, hd, hfd⟩
                rcases hd with hd | hd
                · exact ⟨d, Or.inl (by simp [hd]), hfd⟩
                · exact ⟨d, Or.inr hd, hfd⟩
          · by_cases hgt : fb b < fb a
            · rw [if_neg hlt, if_pos hgt]
              have hsums : sizeL (a :: as') + sizeL bs' < N := by
                have := size_pos b
                simp at hsize ⊢
                omega
              have hrec := (ih _ hsums).2 (a :: as') bs' (Nat.le_refl _)
                hsa (by simp [hwca, hca']) hsb' hcb'
              refine ⟨?_, by simp [hwcb, hrec.2.1], ?_⟩
              · refine sortedFB_cons_of hrec.1 ?_
                intro c hc
                rcases hrec.2.2 c hc with ⟨d, hd, hfd⟩
                rw [hfd]
                rcases hd with hd | hd
                · rcases List.mem_cons.mp hd with hd | hd
                  · subst hd; exact hgt
                  · exact Nat.lt_trans hgt (sortedFB_lt_of_mem hsa d hd)
                · exact sortedFB_lt_of_mem hsb d (by simp [hd])
              · intro c hc
                rcases List.mem_cons.mp hc with hc | hc
                · exact ⟨b, Or.inr (by simp), by rw [hc]⟩
                · rcases hrec.2.2 c hc with ⟨d, hd, hfd⟩
                  rcases hd with hd | hd
                  · exact ⟨d, Or.inl hd, hfd⟩
                  · exact ⟨d, Or.inr (by simp [hd]), hfd⟩
            · have heq : fb a = fb b :=
                Nat.le_antisymm (Nat.le_of_not_lt hgt) (Nat.le_of_not_lt hlt)
              rw [if_neg hlt, if_neg hgt]
              have hnode := hP a b
                (by
                  simp at hsize ⊢
                  omega)
                (wfT_of_wfC hwca) (wfT_of_wfC hwcb)
              have hfacts := hnode.2 (by simpa using wfC_pre_ne hwca)
                (by simpa using wfC_pre_ne hwcb) heq
              have hsums : sizeL as' + sizeL bs' < N := by
                have hpa := size_pos a
                have hpb := size_pos b
                simp at hsize ⊢
                omega
              have hrec := (ih _ hsums).2 as' bs' (Nat.le_refl _) hsa' hca' hsb' hcb'
              have hwfc : wfC (outer_combine f a b) = true :=
                wfC_of_wfT_pre hnode.1 hfacts.1
              refine ⟨?_, by simp [hwfc, hrec.2.1], ?_⟩
              · refine sortedFB_cons_of hrec.1 ?_
                intro c hc
                rcases hrec.2.2 c hc with ⟨d, hd, hfd⟩
                rw [hfd, hfacts.2]
                rcases hd with hd | hd
                · exact sortedFB_lt_of_mem hsa d hd
                · rw [heq]
                  exact sortedFB_lt_of_mem hsb d hd
              · intro c hc
                rcases List.mem_cons.mp hc with hc | hc
                · refine ⟨a, Or.inl (by simp), ?_⟩
                  rw [hc, hfacts.2]
                · rcases hrec.2.2 c hc with ⟨d, hd, hfd⟩
                  rcases hd with hd | hd
                  · exact ⟨d, Or.inl (by simp [hd]), hfd⟩
                  · exact ⟨d, Or.inr (by simp [hd]), hfd⟩
    exact ⟨hP, hQ⟩

theorem canonT_children {t : TNode} (h : canonT t = true) :
    canonCL t.children = true := by
  rw [canonT, Bool.and_eq_true] at h
  exact h.1

theorem canonC_intro {t : TNode}
    (h1 : (t.val.isSome || !t.children.isEmpty) = true) (h2 : canonT t = true) :
    canonC t = true := by
  cases t with
  | mk p v cs =>
    simp only [canonC_mk, Bool.and_eq_true]
    exact ⟨by simpa using h1, by simpa using canonT_children h2⟩

theorem canonT_first_of_pre_ne {t : TNode} (h : canonT t = true) (hp : t.pre ≠ []) :
    (t.val.isSome || !t.children.isEmpty) = true := by
  rw [canonT, Bool.and_eq_true] at h
  rcases Bool.or_eq_true _ _ |>.mp h.2 with h0 | h0
  · cases hv : t.val with
    | some v => simp
    | none =>
      cases hc : t.children with
      | cons c cs => simp [hc]
      | nil => simp [hv, hc] at h0
  · exact absurd (by simpa using h0) hp

/-- Canonical-form preservation for the allocating merge, for combine
functions that never drop a collision. -/
theorem outer_combine_canon (f : Val → Val → Option Val)
    (hf : ∀ x y, (f x y).isSome = true) : ∀ N : Nat,
    (∀ a b : TNode, a.size + b.size ≤ N → wfT a = true → wfT b = true →
      canonT a = true → canonT b = true →
      canonT (outer_combine f a b) = true ∧
      ((a.val.isSome || !a.children.isEmpty) = true →
        (b.val.isSome || !b.children.isEmpty) = true →
        ((outer_combine f a b).val.isSome ||
          !(outer_combine f a b).children.isEmpty) = true)) ∧
    (∀ as bs : List TNode, sizeL as + sizeL bs ≤ N →
      wfCL as = true → wfCL bs = true → canonCL as = true → canonCL bs = true →
      canonCL (outer_combine_children f as bs) = true) := by
  intro N
  induction N using Nat.strong_induction_on with
  | _ N ih =>
    have hP : ∀ a b : TNode, a.size + b.size ≤ N → wfT a = true → wfT b = true →
        canonT a = true → canonT b = true →
        canonT (outer_combine f a b) = true ∧
        ((a.val.isSome || !a.children.isEmpty) = true →
          (b.val.isSome || !b.children.isEmpty) = true →
          ((outer_combine f a b).val.isSome ||
            !(outer_combine f a b).children.isEmpty) = true) := by
      intro a b hsize hwa hwb hka hkb
      obtain ⟨ap, av, acs⟩ := a
      obtain ⟨bp, bv, bcs⟩ := b
      rw [wfT_mk] at hwa hwb
      simp only [Bool.and_eq_true] at hwa hwb
      obtain ⟨hsa, hca⟩ := hwa
      obtain ⟨hsb, hcb⟩ := hwb
      have hkca : canonCL acs = true := by simpa using canonT_children hka
      have hkcb : canonCL bcs = true := by simpa using canonT_children hkb
      by_cases h1 : commonPfx ap bp = ap.length
      · by_cases h2 : commonPfx ap bp = bp.length
        · -- identical prefixes
          have hab : ap = bp := eq_of_commonPfx_full h1 h2
          subst hab
          rw [outer_combine_eq_both f (a := .mk ap av acs) (b := .mk ap bv bcs)
            (by simpa using h1) (by simpa using h2)]
          simp only [TNode.pre_mk, TNode.val_mk, TNode.children_mk]
          have hsums : sizeL acs + sizeL bcs < N := by
            simp at hsize
            omega
          have hrec := (ih _ hsums).2 acs bcs (Nat.le_refl _) hca hcb hkca hkcb
          have hfirst : (av.isSome || !acs.isEmpty) = true →
              (bv.isSome || !bcs.isEmpty) = true →
              ((combineV f av bv).isSome ||
                !(outer_combine_children f acs bcs).isEmpty) = true := by
            intro hfa hfb
            cases av with
            | some av' =>
              cases bv with
              | some bv' => simp [hf av' bv']
              | none => simp
            | none =>
              cases bv with
              | some bv' => simp
              | none =>
                simp only [Option.isSome_none, Bool.false_or] at hfa
                have hne : acs ≠ [] := by
                  cases acs <;> simp_all
                have := outer_combine_children_ne_nil f hca hcb (Or.inl hne)
                simp only [combineV_none_none, Option.isSome_none, Bool.false_or]
                cases hc : outer_combine_children f acs bcs with
                | nil => exact absurd hc this
                | cons c cs => simp
          constructor
          · rw [canonT]
            simp only [TNode.val_mk, TNode.children_mk, TNode.pre_mk, Bool.and_eq_true]
            refine ⟨hrec, ?_⟩
            by_cases hvn : ((combineV f av bv).isNone &&
                (outer_combine_children f acs bcs).isEmpty) = true
            · simp only [Bool.and_eq_true] at hvn
              have hav : av = none := by
                cases av with
                | none => rfl
                | some av' =>
                  cases bv with
                  | some bv' =>
                    have := hf av' bv'
                    simp only [combineV_some_some] at hvn
                    cases hfv : f av' bv' <;> simp_all
                  | none => simp at hvn
              have hbv : bv = none := by
                cases bv with
                | none => rfl
                | some bv' =>
                  subst hav
                  simp at hvn
              subst hav
              subst hbv
              have hocc : outer_combine_children f acs bcs = [] := by
                have h2x := hvn.2
                cases hc : outer_combine_children f acs bcs with
                | nil => rfl
                | cons c cs =>
                  rw [hc] at h2x
                  simp at h2x
              have hacs : acs = [] := by
                by_cases h : acs = []
                · exact h
                · exact absurd hocc (outer_combine_children_ne_nil f hca hcb (Or.inl h))
              subst hacs
              rw [canonT] at hka
              simp only [TNode.val_mk, TNode.children_mk, TNode.pre_mk,
                Bool.and_eq_true] at hka
              rcases Bool.or_eq_true _ _ |>.mp hka.2 with h0 | h0
              · simp at h0
              · simp [h0]
            · rw [Bool.or_eq_true]
              left
              have hfalse : ((combineV f av bv).isNone &&
                  (outer_combine_children f acs bcs).isEmpty) = false :=
                Bool.eq_false_iff.mpr hvn
              simp [hfalse]
          · intro hfa hfb
            exact hfirst hfa hfb
        · -- a is a proper prefix of b
          have hlt : commonPfx ap bp < bp.length :=
            Nat.lt_of_le_of_ne (commonPfx_le_right ap bp) h2
          rw [outer_combine_eq_left f (a := .mk ap av acs) (b := .mk bp bv bcs)
            (by simpa using h1) (by simpa using h2)]
          simp only [TNode.pre_mk, TNode.val_mk, TNode.children_mk]
          have hbpne : bp ≠ [] := by
            intro hc
            rw [hc] at hlt
            simp at hlt
          have hwfs : wfC (shorten (commonPfx ap bp) (.mk bp bv bcs)) = true := by
            simp only [shorten, TNode.pre_mk, TNode.val_mk, TNode.children_mk, wfC_mk,
              Bool.and_eq_true]
            refine ⟨⟨?_, hsb⟩, hcb⟩
            simp [drop_ne_nil_of_lt hlt]
          have hks : canonC (shorten (commonPfx ap bp) (.mk bp bv bcs)) = true := by
            simp only [shorten, TNode.pre_mk, TNode.val_mk, TNode.children_mk, canonC_mk,
              Bool.and_eq_true]
            refine ⟨?_, hkcb⟩
            simpa using canonT_first_of_pre_ne hkb (by simpa using hbpne)
          have hsums :
              sizeL acs + sizeL [shorten (commonPfx ap bp) (.mk bp bv bcs)] < N := by
            simp only [sizeL_cons, sizeL_nil, size_shorten, size_mk]
            simp at hsize
            omega
          have hrec := (ih _ hsums).2 acs [shorten (commonPfx ap bp) (.mk bp bv bcs)]
            (Nat.le_refl _) hca (by simp [hwfs]) hkca (by simp [hks])
          have hnonempty := outer_combine_children_ne_nil f hca
            (by simp [hwfs] : wfCL [shorten (commonPfx ap bp) (.mk bp bv bcs)] = true)
            (Or.inr (by simp))
          constructor
          · rw [canonT]
            simp only [TNode.val_mk, TNode.children_mk, TNode.pre_mk, Bool.and_eq_true]
            refine ⟨hrec, ?_⟩
            rw [Bool.or_eq_true]
            left
            cases hc : outer_combine_children f acs
                [shorten (commonPfx ap bp) (.mk bp bv bcs)] with
            | nil => exact absurd hc hnonempty
            | cons c cs => simp
          · intro _ _
            rw [Bool.or_eq_true]
            right
            cases hc : outer_combine_children f acs
                [shorten (commonPfx ap bp) (.mk bp bv bcs)] with
            | nil => exact absurd hc hnonempty
            | cons c cs => simp
      · by_cases h2 : commonPfx ap bp = bp.length
        · -- b is a proper prefix of a
          have hlt : commonPfx ap bp < ap.length :=
            Nat.lt_of_le_of_ne (commonPfx_le_left ap bp) h1
          rw [outer_combine_eq_right f (a := .mk ap av acs) (b := .mk bp bv bcs)
            (by simpa using h1) (by simpa using h2)]
          simp only [TNode.pre_mk, TNode.val_mk, TNode.children_mk]
          have hapne : ap ≠ [] := by
            intro hc
            rw [hc] at hlt
            simp at hlt
          have hwfs : wfC (shorten (commonPfx ap bp) (.mk ap av acs)) = true := by
            simp only [shorten, TNode.pre_mk, TNode.val_mk, TNode.children_mk, wfC_mk,
              Bool.and_eq_true]
            refine ⟨⟨?_, hsa⟩, hca⟩
            simp [drop_ne_nil_of_lt hlt]
          have hks : canonC (shorten (commonPfx ap bp) (.mk ap av acs)) = true := by
            simp only [shorten, TNode.pre_mk, TNode.val_mk, TNode.children_mk, canonC_mk,
              Bool.and_eq_true]
            refine ⟨?_, hkca⟩
            simpa using canonT_first_of_pre_ne hka (by simpa using hapne)
          have hsums :
              sizeL [shorten (commonPfx ap bp) (.mk ap av acs)] + sizeL bcs < N := by
            simp only [sizeL_cons, sizeL_nil, size_shorten, size_mk]
            simp at hsize
            omega
          have hrec := (ih _ hsums).2 [shorten (commonPfx ap bp) (.mk ap av acs)] bcs
            (Nat.le_refl _) (by simp [hwfs]) hcb (by simp [hks]) hkcb
          have hnonempty := outer_combine_children_ne_nil f
            (by simp [hwfs] : wfCL [shorten (commonPfx ap bp) (.mk ap av acs)] = true)
            hcb (Or.inl (by simp))
          constructor
          · rw [canonT]
            simp only [TNode.val_mk, TNode.children_mk, TNode.pre_mk, Bool.and_eq_true]
            refine ⟨hrec, ?_⟩
            rw [Bool.or_eq_true]
            left
            cases hc : outer_combine_children f
                [shorten (commonPfx ap bp) (.mk ap av acs)] bcs with
            | nil => exact absurd hc hnonempty
            | cons c cs => simp
          · intro _ _
            rw [Bool.or_eq_true]
            right
            cases hc : outer_combine_children f
                [shorten (commonPfx ap bp) (.mk ap av acs)] bcs with
            | nil => exact absurd hc hnonempty
            | cons c cs => simp
        · -- disjoint nodes
          have hlta : commonPfx ap bp < ap.length :=
            Nat.lt_of_le_of_ne (commonPfx_le_left ap bp) h1
          have hltb : commonPfx ap bp < bp.length :=
            Nat.lt_of_le_of_ne (commonPfx_le_right ap bp) h2
          rw [outer_combine_eq_disjoint f (a := .mk ap av acs) (b := .mk bp bv bcs)
            (by simpa using h1) (by simpa using h2)]
          simp only [TNode.pre_mk, TNode.val_mk, TNode.children_mk]
          have hapne : ap ≠ [] := by
            intro hc
            rw [hc] at hlta
            simp at hlta
          have hbpne : bp ≠ [] := by
            intro hc
            rw [hc] at hltb
            simp at hltb
          have hksa : canonC (shorten (commonPfx ap bp) (.mk ap av acs)) = true := by
            simp only [shorten, TNode.pre_mk, TNode.val_mk, TNode.children_mk, canonC_mk,
              Bool.and_eq_true]
            refine ⟨?_, hkca⟩
            simpa using canonT_first_of_pre_ne hka (by simpa using hapne)
          have hksb : canonC (shorten (commonPfx ap bp) (.mk bp bv bcs)) = true := by
            simp only [shorten, TNode.pre_mk, TNode.val_mk, TNode.children_mk, canonC_mk,
              Bool.and_eq_true]
            refine ⟨?_, hkcb⟩
            simpa using canonT_first_of_pre_ne hkb (by simpa using hbpne)
          constructor
          · rw [canonT]
            simp only [TNode.val_mk, TNode.children_mk, TNode.pre_mk, Bool.and_eq_true]
            constructor
            · by_cases hle : ap.getD (commonPfx ap bp) 0 ≤ bp.getD (commonPfx ap bp) 0
              · rw [if_pos hle]
                simp [hksa, hksb]
              · rw [if_neg hle]
                simp [hksa, hksb]
            · rw [Bool.or_eq_true]
              left
              by_cases hle : ap.getD (commonPfx ap bp) 0 ≤ bp.getD (commonPfx ap bp) 0
              · rw [if_pos hle]
                simp
              · rw [if_neg hle]
                simp
          · intro _ _
            rw [Bool.or_eq_true]
            right
            by_cases hle : ap.getD (commonPfx ap bp) 0 ≤ bp.getD (commonPfx ap bp) 0
            · rw [if_pos hle]
              simp
            · rw [if_neg hle]
              simp
    have hQ : ∀ as bs : List TNode, sizeL as + sizeL bs ≤ N →
        wfCL as = true → wfCL bs = true → canonCL as = true → canonCL bs = true →
        canonCL (outer_combine_children f as bs) = true := by
      intro as bs hsize hca hcb hka hkb
      cases as with
      | nil =>
        rw [outer_combine_children_nil_left]
        exact hkb
      | cons a as' =>
        cases bs with
        | nil =>
          rw [outer_combine_children_nil_right]
          exact hka
        | cons b bs' =>
          simp only [wfCL_cons, canonCL_cons, Bool.and_eq_true] at hca hcb hka hkb
          obtain ⟨hwca, hca'⟩ := hca
          obtain ⟨hwcb, hcb'⟩ := hcb
          obtain ⟨hkna, hka'⟩ := hka
          obtain ⟨hknb, hkb'⟩ := hkb
          have hha := head?_eq_fb (wfC_pre_ne hwca)
          have hhb := head?_eq_fb (wfC_pre_ne hwcb)
          rw [outer_combine_children_cons_cons f a b as' bs' hha hhb]
          by_cases hlt : fb a < fb b
          · rw [if_pos hlt]
            have hsums : sizeL as' + sizeL (b :: bs') < N := by
              have := size_pos a
              simp at hsize ⊢
              omega
            have hrec := (ih _ hsums).2 as' (b :: bs') (Nat.le_refl _) hca'
              (by simp [hwcb, hcb']) hka' (by simp [hknb, hkb'])
            simp [hkna, hrec]
          · by_cases hgt : fb b < fb a
            · rw [if_neg hlt, if_pos hgt]
              have hsums : sizeL (a :: as') + sizeL bs' < N := by
                have := size_pos b
                simp at hsize ⊢
                omega
              have hrec := (ih _ hsums).2 (a :: as') bs' (Nat.le_refl _)
                (by simp [hwca, hca']) hcb' (by simp [hkna, hka']) hkb'
              simp [hknb, hrec]
            · rw [if_neg hlt, if_neg hgt]
              have hnode := hP a b
                (by
                  simp at hsize ⊢
                  omega)
                (wfT_of_wfC hwca) (wfT_of_wfC hwcb)
                (canonT_of_canonC hkna) (canonT_of_canonC hknb)
              have hfa : (a.val.isSome || !a.children.isEmpty) = true := by
                cases a with
                | mk p v cs =>
                  simp only [canonC_mk, Bool.and_eq_true] at hkna
                  simpa using hkna.1
              have hfb2 : (b.val.isSome || !b.children.isEmpty) = true := by
                cases b with
                | mk p v cs =>
                  simp only [canonC_mk, Bool.and_eq_true] at hknb
                  simpa using hknb.1
              have hsums : sizeL as' + sizeL bs' < N := by
                have hma := size_pos a
                have hmb := size_pos b
                simp at hsize ⊢
                omega
              have hrec := (ih _ hsums).2 as' bs' (Nat.le_refl _) hca' hcb' hka' hkb'
              simp only [canonCL_cons, Bool.and_eq_true]
              exact ⟨canonC_intro (hnode.2 hfa hfb2) hnode.1, hrec⟩
    exact ⟨hP, hQ⟩

/-! Case-unfolding lemmas for the in-place merge. -/

theorem outer_combine_with_eq_both (f) {a b : TNode}
    (h1 : commonPfx a.pre b.pre = a.pre.length)
    (h2 : commonPfx a.pre b.pre = b.pre.length) :
    outer_combine_with f a b =
      .mk a.pre (combineV f a.val b.val)
        (outer_combine_children_with f a.children b.children) := by
  rw [outer_combine_with]
  have h2x : a.pre.length = b.pre.length := by rw [← h1, h2]
  simp only [h1, h2x, and_self, if_pos]
  cases hva : a.val <;> cases hvb : b.val <;> simp [combineV, hvb]

theorem outer_combine_with_eq_left (f) {a b : TNode}
    (h1 : commonPfx a.pre b.pre = a.pre.length)
    (h2 : commonPfx a.pre b.pre ≠ b.pre.length) :
    outer_combine_with f a b =
      .mk a.pre a.val
        (outer_combine_children_with f a.children
          [shorten (commonPfx a.pre b.pre) b]) := by
  rw [outer_combine_with]
  have hcond : ¬ (commonPfx a.pre b.pre = a.pre.length ∧
      commonPfx a.pre b.pre = b.pre.length) := by
    intro h; exact h2 h.2
  rw [if_neg hcond, if_pos h1]

theorem outer_combine_with_eq_right (f) {a b : TNode}
    (h1 : commonPfx a.pre b.pre ≠ a.pre.length)
    (h2 : commonPfx a.pre b.pre = b.pre.length) :
    outer_combine_with f a b =
      .mk (a.pre.take (commonPfx a.pre b.pre)) b.val
        (outer_combine_children_with f [shorten (commonPfx a.pre b.pre) a]
          b.children) := by
  rw [outer_combine_with]
  have hcond : ¬ (commonPfx a.pre b.pre = a.pre.length ∧
      commonPfx a.pre b.pre = b.pre.length) := by
    intro h; exact h1 h.1
  rw [if_neg hcond, if_neg h1, if_pos h2]
  rfl

theorem outer_combine_with_eq_disjoint (f) {a b : TNode}
    (h1 : commonPfx a.pre b.pre ≠ a.pre.length)
    (h2 : commonPfx a.pre b.pre ≠ b.pre.length) :
    outer_combine_with f a b =
      .mk (a.pre.take (commonPfx a.pre b.pre)) none
        (if a.pre.getD (commonPfx a.pre b.pre) 0 ≤ b.pre.getD (commonPfx a.pre b.pre) 0
         then [shorten (commonPfx a.pre b.pre) a, shorten (commonPfx a.pre b.pre) b]
         else [shorten (commonPfx a.pre b.pre) b,
               shorten (commonPfx a.pre b.pre) a]) := by
  rw [outer_combine_with]
  have hcond : ¬ (commonPfx a.pre b.pre = a.pre.length ∧
      commonPfx a.pre b.pre = b.pre.length) := by
    intro h; exact h1 h.1
  rw [if_neg hcond, if_neg h1, if_neg h2]
  rfl

theorem outer_combine_children_with_nil_right (f) (as : List TNode) :
    outer_combine_children_with f as [] = as := by
  cases as <;> rw [outer_combine_children_with]

theorem outer_combine_children_with_nil_left (f) (b : TNode) (bs : List TNode) :
    outer_combine_children_with f [] (b :: bs) = b :: bs := by
  rw [outer_combine_children_with]
  simp

theorem outer_combine_children_with_cons_cons (f) (a b : TNode)
    (as bs : List TNode) :
    outer_combine_children_with f (a :: as) (b :: bs) =
      canonicalize_all (combiner_loop f (a :: as) (b :: bs)) := by
  rw [outer_combine_children_with]

theorem combiner_loop_nil_right (f) (as : List TNode) :
    combiner_loop f as [] = as := by
  cases as <;> rw [combiner_loop]

theorem combiner_loop_nil_left (f) (b : TNode) (bs : List TNode) :
    combiner_loop f [] (b :: bs) = b :: combiner_loop f [] bs := by
  rw [combiner_loop]

theorem combiner_loop_cons_cons (f) (a b : TNode) (as bs : List TNode)
    {x y : Byte} (ha : a.pre.head? = some x) (hb : b.pre.head? = some y) :
    combiner_loop f (a :: as) (b :: bs) =
      (if x < y then a :: combiner_loop f as (b :: bs)
       else if y < x then b :: combiner_loop f (a :: as) bs
       else outer_combine_with f a b :: combiner_loop f as bs) := by
  rw [combiner_loop]
  simp [ha, hb]

theorem combiner_loop_nil_left_all (f) (bs : List TNode) :
    combiner_loop f [] bs = bs := by
  induction bs with
  | nil => rw [combiner_loop]
  | cons b bs ih => rw [combiner_loop_nil_left, ih]

/-- A triple that carries a value or children is untouched by
canonicalization. -/
theorem canonicalize_one_id {t : TNode}
    (h : (t.val.isSome || !t.children.isEmpty) = true) :
    canonicalize_one t = t := by
  rw [canonicalize_one, if_neg]
  intro hc
  simp only [Bool.and_eq_true] at hc
  rcases Bool.or_eq_true _ _ |>.mp h with h0 | h0
  · rw [Option.isSome_iff_exists] at h0
    rcases h0 with ⟨v, hv⟩
    rw [hv] at hc
    simp at hc
  · have := hc.1
    simp only [Bool.and_eq_true] at this
    rw [this.2] at h0
    simp at h0

theorem canonicalize_all_id {cs : List TNode} (h : canonCL cs = true) :
    canonicalize_all cs = cs := by
  induction cs with
  | nil => rfl
  | cons c cs ih =>
    simp only [canonCL_cons, Bool.and_eq_true] at h
    have hfirst : (c.val.isSome || !c.children.isEmpty) = true := by
      cases c with
      | mk p v cs' =>
        have := h.1
        simp only [canonC_mk, Bool.and_eq_true] at this
        simpa using this.1
    rw [canonicalize_all] at ih ⊢
    simp only [List.map_cons]
    rw [canonicalize_one_id hfirst, ih h.2]

/-- On well-formed canonical trees, and for combine functions that never
return None, the in-place merge computes exactly the same tree as the
allocating merge. -/
theorem outer_combine_with_agrees (f : Val → Val → Option Val)
    (hf : ∀ x y, (f x y).isSome = true) : ∀ N : Nat,
    (∀ a b : TNode, a.size + b.size ≤ N → wfT a = true → wfT b = true →
      canonT a = true → canonT b = true →
      outer_combine_with f a b = outer_combine f a b) ∧
    (∀ as bs : List TNode, sizeL as + sizeL bs ≤ N →
      sortedFB as = true → wfCL as = true → canonCL as = true →
      sortedFB bs = true → wfCL bs = true → canonCL bs = true →
      combiner_loop f as bs = outer_combine_children f as bs ∧
      outer_combine_children_with f as bs = outer_combine_children f as bs) := by
  intro N
  induction N using Nat.strong_induction_on with
  | _ N ih =>
    have hP : ∀ a b : TNode, a.size + b.size ≤ N → wfT a = true → wfT b = true →
        canonT a = true → canonT b = true →
        outer_combine_with f a b = outer_combine f a b := by
      intro a b hsize hwa hwb hka hkb
      obtain ⟨ap, av, acs⟩ := a
      obtain ⟨bp, bv, bcs⟩ := b
      rw [wfT_mk] at hwa hwb
      simp only [Bool.and_eq_true] at hwa hwb
      obtain ⟨hsa, hca⟩ := hwa
      obtain ⟨hsb, hcb⟩ := hwb
      have hkca : canonCL acs = true := by simpa using canonT_children hka
      have hkcb : canonCL bcs = true := by simpa using canonT_children hkb
      by_cases h1 : commonPfx ap bp = ap.length
      · by_cases h2 : commonPfx ap bp = bp.length
        · rw [outer_combine_with_eq_both f (a := .mk ap av acs) (b := .mk bp bv bcs)
            (by simpa using h1) (by simpa using h2),
            outer_combine_eq_both f (a := .mk ap av acs) (b := .mk bp bv bcs)
            (by simpa using h1) (by simpa using h2)]
          have hsums : sizeL acs + sizeL bcs < N := by
            simp at hsize
            omega
          have hrec := (ih _ hsums).2 acs bcs (Nat.le_refl _) hsa hca hkca hsb hcb hkcb
          simp only [TNode.pre_mk, TNode.val_mk, TNode.children_mk]
          rw [hrec.2]
        · rw [outer_combine_with_eq_left f (a := .mk ap av acs) (b := .mk bp bv bcs)
            (by simpa using h1) (by simpa using h2),
            outer_combine_eq_left f (a := .mk ap av acs) (b := .mk bp bv bcs)
            (by simpa using h1) (by simpa using h2)]
          have hlt : commonPfx ap bp < bp.length :=
            Nat.lt_of_le_of_ne (commonPfx_le_right ap bp) h2
          have hbpne : bp ≠ [] := by
            intro hc
            rw [hc] at hlt
            simp at hlt
          have hwfs : wfC (shorten (commonPfx ap bp) (.mk bp bv bcs)) = true := by
            simp only [shorten, TNode.pre_mk, TNode.val_mk, TNode.children_mk, wfC_mk,
              Bool.and_eq_true]
            refine ⟨⟨?_, hsb⟩, hcb⟩
            simp [drop_ne_nil_of_lt hlt]
          have hks : canonC (shorten (commonPfx ap bp) (.mk bp bv bcs)) = true := by
            simp only [shorten, TNode.pre_mk, TNode.val_mk, TNode.children_mk, canonC_mk,
              Bool.and_eq_true]
            refine ⟨?_, hkcb⟩
            simpa using canonT_first_of_pre_ne hkb (by simpa using hbpne)
          have hsums :
              sizeL acs + sizeL [shorten (commonPfx ap bp) (.mk bp bv bcs)] < N := by
            simp only [sizeL_cons, sizeL_nil, size_shorten, size_mk]
            simp at hsize
            omega
          have hrec := (ih _ hsums).2 acs [shorten (commonPfx ap bp) (.mk bp bv bcs)]
            (Nat.le_refl _) hsa hca hkca (by simp) (by simp [hwfs]) (by simp [hks])
          simp only [TNode.pre_mk, TNode.val_mk, TNode.children_mk]
          rw [hrec.2]
      · by_cases h2 : commonPfx ap bp = bp.length
        · rw [outer_combine_with_eq_right f (a := .mk ap av acs) (b := .mk bp bv bcs)
            (by simpa using h1) (by simpa using h2),
            outer_combine_eq_right f (a := .mk ap av acs) (b := .mk bp bv bcs)
            (by simpa using h1) (by simpa using h2)]
          have hlt : commonPfx ap bp < ap.length :=
            Nat.lt_of_le_of_ne (commonPfx_le_left ap bp) h1
          have hapne : ap ≠ [] := by
            intro hc
            rw [hc] at hlt
            simp at hlt
          have hwfs : wfC (shorten (commonPfx ap bp) (.mk ap av acs)) = true := by
            simp only [shorten, TNode.pre_mk, TNode.val_mk, TNode.children_mk, wfC_mk,
              Bool.and_eq_true]
            refine ⟨⟨?_, hsa⟩, hca⟩
            simp [drop_ne_nil_of_lt hlt]
          have hks : canonC (shorten (commonPfx ap bp) (.mk ap av acs)) = true := by
            simp only [shorten, TNode.pre_mk, TNode.val_mk, TNode.children_mk, canonC_mk,
              Bool.and_eq_true]
            refine ⟨?_, hkca⟩
            simpa using canonT_first_of_pre_ne hka (by simpa using hapne)
          have hsums :
              sizeL [shorten (commonPfx ap bp) (.mk ap av acs)] + sizeL bcs < N := by
            simp only [sizeL_cons, sizeL_nil, size_shorten, size_mk]
            simp at hsize
            omega
          have hrec := (ih _ hsums).2 [shorten (commonPfx ap bp) (.mk ap av acs)] bcs
            (Nat.le_refl _) (by simp) (by simp [hwfs]) (by simp [hks]) hsb hcb hkcb
          simp only [TNode.pre_mk, TNode.val_mk, TNode.children_mk]
          rw [hrec.2]
        · rw [outer_combine_with_eq_disjoint f (a := .mk ap av acs)
            (b := .mk bp bv bcs) (by simpa using h1) (by simpa using h2),
            outer_combine_eq_disjoint f (a := .mk ap av acs) (b := .mk bp bv bcs)
            (by simpa using h1) (by simpa using h2)]
    have hQ : ∀ as bs : List TNode, sizeL as + sizeL bs ≤ N →
        sortedFB as = true → wfCL as = true → canonCL as = true →
        sortedFB bs = true → wfCL bs = true → canonCL bs = true →
        combiner_loop f as bs = outer_combine_children f as bs ∧
        outer_combine_children_with f as bs = outer_combine_children f as bs := by
      intro as bs hsize hsa hca hka hsb hcb hkb
      have hloop : combiner_loop f as bs = outer_combine_children f as bs := by
        cases as with
        | nil =>
          rw [combiner_loop_nil_left_all, outer_combine_children_nil_left]
        | cons a as' =>
          cases bs with
          | nil =>
            rw [combiner_loop_nil_right, outer_combine_children_nil_right]
          | cons b bs' =>
            simp only [wfCL_cons, canonCL_cons, Bool.and_eq_true] at hca hcb hka hkb
            obtain ⟨hwca, hca'⟩ := hca
            obtain ⟨hwcb, hcb'⟩ := hcb
            obtain ⟨hkna, hka'⟩ := hka
            obtain ⟨hknb, hkb'⟩ := hkb
            have hha := head?_eq_fb (wfC_pre_ne hwca)
            have hhb := head?_eq_fb (wfC_pre_ne hwcb)
            rw [combiner_loop_cons_cons f a b as' bs' hha hhb,
              outer_combine_children_cons_cons f a b as' bs' hha hhb]
            have hsa' := sortedFB_of_cons hsa
            have hsb' := sortedFB_of_cons hsb
            by_cases hlt : fb a < fb b
            · rw [if_pos hlt, if_pos hlt]
              have hsums : sizeL as' + sizeL (b :: bs') < N := by
                have := size_pos a
                simp at hsize ⊢
                omega
              have hrec := (ih _ hsums).2 as' (b :: bs') (Nat.le_refl _) hsa' hca' hka'
                hsb (by simp [hwcb, hcb']) (by simp [hknb, hkb'])
              rw [hrec.1]
            · by_cases hgt : fb b < fb a
              · rw [if_neg hlt, if_pos hgt, if_neg hlt, if_pos hgt]
                have hsums : sizeL (a :: as') + sizeL bs' < N := by
                  have := size_pos b
                  simp at hsize ⊢
                  omega
                have hrec := (ih _ hsums).2 (a :: as') bs' (Nat.le_refl _)
                  hsa (by simp [hwca, hca']) (by simp [hkna, hka']) hsb' hcb' hkb'
                rw [hrec.1]
              · rw [if_neg hlt, if_neg hgt, if_neg hlt, if_neg hgt]
                have hnode := hP a b
                  (by
                    simp at hsize ⊢
                    omega)
                  (wfT_of_wfC hwca) (wfT_of_wfC hwcb)
                  (canonT_of_canonC hkna) (canonT_of_canonC hknb)
                have hsums : sizeL as' + sizeL bs' < N := by
                  have hma := size_pos a
                  have hmb := size_pos b
                  simp at hsize ⊢
                  omega
                have hrec := (ih _ hsums).2 as' bs' (Nat.le_refl _)
                  hsa' hca' hka' hsb' hcb' hkb'
                rw [hnode, hrec.1]
      refine ⟨hloop, ?_⟩
      cases as with
      | nil =>
        cases bs with
        | nil =>
          rw [outer_combine_children_with_nil_right, outer_combine_children_nil_left]
        | cons b bs' =>
          rw [outer_combine_children_with_nil_left, outer_combine_children_nil_left]
      | cons a as' =>
        cases bs with
        | nil =>
          rw [outer_combine_children_with_nil_right, outer_combine_children_nil_right]
        | cons b bs' =>
          rw [outer_combine_children_with_cons_cons, hloop]
          refine canonicalize_all_id ?_
          have hcanon := (outer_combine_canon f hf
            (sizeL (a :: as') + sizeL (b :: bs'))).2 (a :: as') (b :: bs')
            (Nat.le_refl _) hca hcb hka hkb
          exact hcanon
    exact ⟨hP, hQ⟩

/-- Tree-level corollary: the in-place right-biased merge agrees with the
allocating merge on well-formed canonical trees. -/
theorem outer_combine_with_eq_outer_combine (f : Val → Val → Option Val)
    (hf : ∀ x y, (f x y).isSome = true) (a b : TNode)
    (hwa : wfT a = true) (hwb : wfT b = true)
    (hka : canonT a = true) (hkb : canonT b = true) :
    outer_combine_with f a b = outer_combine f a b :=
  (outer_combine_with_agrees f hf (a.size + b.size)).1 a b (Nat.le_refl _)
    hwa hwb hka hkb

/-! Association lookup over iterated entries: the finite mapping denoted by
an entry list. -/

def lookupE : List (Key × Val) → Key → Option Val
  | [], _ => none
  | e :: es, k => if e.1 = k then some e.2 else lookupE es k

@[simp] theorem lookupE_nil (k) : lookupE [] k = none := rfl

theorem lookupE_cons (e) (es : List (Key × Val)) (k) :
    lookupE (e :: es) k = (if e.1 = k then some e.2 else lookupE es k) := rfl

theorem lookupE_eq_none {es : List (Key × Val)} {k : Key}
    (h : ∀ e ∈ es, e.1 ≠ k) : lookupE es k = none := by
  induction es with
  | nil => rfl
  | cons e es ih =>
    rw [lookupE_cons, if_neg (h e (by simp))]
    exact ih (fun e' he' => h e' (by simp [he']))

theorem ne_of_keyLt {a b : List Byte} (h : keyLt a b = true) : a ≠ b := by
  intro hc
  subst hc
  rw [keyLt_irrefl] at h
  cases h

theorem nodup_keys_of_sortedE {es : List (Key × Val)} (h : sortedE es) :
    es.Pairwise (fun e e' => e.1 ≠ e'.1) :=
  h.imp (fun hee => ne_of_keyLt hee)

/-- Lookup is invariant under permutation of a duplicate-key-free entry
list. -/
theorem lookupE_perm {l₁ l₂ : List (Key × Val)} (h : List.Perm l₁ l₂)
    (hn : l₁.Pairwise (fun e e' => e.1 ≠ e'.1)) (k : Key) :
    lookupE l₁ k = lookupE l₂ k := by
  induction h with
  | nil => rfl
  | cons x h ih =>
    rw [List.pairwise_cons] at hn
    rw [lookupE_cons, lookupE_cons, ih hn.2]
  | swap x y l =>
    rw [lookupE_cons, lookupE_cons, lookupE_cons, lookupE_cons]
    rw [List.pairwise_cons] at hn
    by_cases hy : y.1 = k
    · by_cases hx : x.1 = k
      · exact absurd (hy.trans hx.symm) (hn.1 x (by simp))
      · rw [if_pos hy, if_neg hx, if_pos hy]
    · by_cases hx : x.1 = k
      · rw [if_neg hy, if_pos hx, if_pos hx]
      · rw [if_neg hy, if_neg hx, if_neg hx, if_neg hy]
  | trans h₁ h₂ ih₁ ih₂ =>
    rw [ih₁ hn]
    refine ih₂ ?_
    exact (h₁.pairwise_iff (fun hab => Ne.symm hab)).mp hn

theorem mergeJoinE_key_mem (f) : ∀ (xs ys : List (Key × Val)),
    ∀ e ∈ mergeJoinE f xs ys,
      (∃ x ∈ xs, e.1 = x.1) ∨ (∃ y ∈ ys, e.1 = y.1) := by
  have main : ∀ n (xs ys : List (Key × Val)), xs.length + ys.length ≤ n →
      ∀ e ∈ mergeJoinE f xs ys,
        (∃ x ∈ xs, e.1 = x.1) ∨ (∃ y ∈ ys, e.1 = y.1) := by
    intro n
    induction n with
    | zero =>
      intro xs ys hlen e he
      have hx : xs = [] := by cases xs <;> simp_all
      have hy : ys = [] := by cases ys <;> simp_all
      subst hx; subst hy
      simp at he
    | succ n ih =>
      intro xs ys hlen e he
      cases xs with
      | nil =>
        simp only [mergeJoinE_nil_left] at he
        exact Or.inr ⟨e, he, rfl⟩
      | cons x xs =>
        cases ys with
        | nil =>
          simp only [mergeJoinE_nil_right] at he
          exact Or.inl ⟨e, he, rfl⟩
        | cons y ys =>
          rw [mergeJoinE_cons_cons] at he
          cases hcmp : keyCmp x.1 y.1 with
          | lt =>
            rw [hcmp] at he
            rcases List.mem_cons.mp he with he | he
            · exact Or.inl ⟨x, by simp, by rw [he]⟩
            · rcases ih xs (y :: ys) (by simp at hlen ⊢; omega) e he with h | h
              · rcases h with ⟨x', hx', hex⟩
                exact Or.inl ⟨x', by simp [hx'], hex⟩
              · exact Or.inr h
          | gt =>
            rw [hcmp] at he
            rcases List.mem_cons.mp he with he | he
            · exact Or.inr ⟨y, by simp, by rw [he]⟩
            · rcases ih (x :: xs) ys (by simp at hlen ⊢; omega) e he with h | h
              · exact Or.inl h
              · rcases h with ⟨y', hy', hey⟩
                exact Or.inr ⟨y', by simp [hy'], hey⟩
          | eq =>
            rw [hcmp] at he
            cases hf : f x.2 y.2 with
            | some v =>
              rw [hf] at he
              rcases List.mem_cons.mp he with he | he
              · exact Or.inl ⟨x, by simp, by rw [he]⟩
              · rcases ih xs ys (by simp at hlen ⊢; omega) e he with h | h
                · rcases h with ⟨x', hx', hex⟩
                  exact Or.inl ⟨x', by simp [hx'], hex⟩
                · rcases h with ⟨y', hy', hey⟩
                  exact Or.inr ⟨y', by simp [hy'], hey⟩
            | none =>
              rw [hf] at he
              rcases ih xs ys (by simp at hlen ⊢; omega) e he with h | h
              · rcases h with ⟨x', hx', hex⟩
                exact Or.inl ⟨x', by simp [hx'], hex⟩
              · rcases h with ⟨y', hy', hey⟩
                exact Or.inr ⟨y', by simp [hy'], hey⟩
  exact fun xs ys => main (xs.length + ys.length) xs ys (Nat.le_refl _)

theorem sortedE_cons_iff {e : Key × Val} {es : List (Key × Val)} :
    sortedE (e :: es) ↔ (∀ e' ∈ es, keyLt e.1 e'.1 = true) ∧ sortedE es := by
  rw [sortedE, List.pairwise_cons]
  exact Iff.rfl

/-- The merge join of sorted entry lists is sorted. -/
theorem sortedE_mergeJoinE (f) : ∀ (xs ys : List (Key × Val)),
    sortedE xs → sortedE ys → sortedE (mergeJoinE f xs ys) := by
  have main : ∀ n (xs ys : List (Key × Val)), xs.length + ys.length ≤ n →
      sortedE xs → sortedE ys → sortedE (mergeJoinE f xs ys) := by
    intro n
    induction n with
    | zero =>
      intro xs ys hlen hx hy
      have h1 : xs = [] := by cases xs <;> simp_all
      have h2 : ys = [] := by cases ys <;> simp_all
      subst h1; subst h2
      simp [sortedE]
    | succ n ih =>
      intro xs ys hlen hx hy
      cases xs with
      | nil => simpa using hy
      | cons x xs =>
        cases ys with
        | nil => simpa using hx
        | cons y ys =>
          rw [sortedE_cons_iff] at hx hy
          rw [mergeJoinE_cons_cons]
          cases hcmp : keyCmp x.1 y.1 with
          | lt =>
            rw [sortedE_cons_iff]
            constructor
            · intro e' he'
              rcases mergeJoinE_key_mem f xs (y :: ys) e' he' with h | h
              · rcases h with ⟨x', hx', hex⟩
                rw [hex]
                exact hx.1 x' hx'
              · rcases h with ⟨y', hy', hey⟩
                rw [hey]
                rcases List.mem_cons.mp hy' with h0 | h0
                · rw [h0]
                  simpa [keyLt] using hcmp
                · exact keyLt_trans (by simpa [keyLt] using hcmp) (hy.1 y' h0)
            · exact ih xs (y :: ys) (by simp at hlen ⊢; omega) hx.2
                (sortedE_cons_iff.mpr hy)
          | gt =>
            rw [sortedE_cons_iff]
            have hyx : keyLt y.1 x.1 = true := by
              simp only [keyLt, decide_eq_true_eq]
              exact keyCmp_gt_iff.mp hcmp
            constructor
            · intro e' he'
              rcases mergeJoinE_key_mem f (x :: xs) ys e' he' with h | h
              · rcases h with ⟨x', hx', hex⟩
                rw [hex]
                rcases List.mem_cons.mp hx' with h0 | h0
                · rw [h0]
                  exact hyx
                · exact keyLt_trans hyx (hx.1 x' h0)
              · rcases h with ⟨y', hy', hey⟩
                rw [hey]
                exact hy.1 y' hy'
            · exact ih (x :: xs) ys (by simp at hlen ⊢; omega)
                (sortedE_cons_iff.mpr hx) hy.2
          | eq =>
            have hxy : x.1 = y.1 := keyCmp_eq_iff.mp hcmp
            have hrest : sortedE (mergeJoinE f xs ys) :=
              ih xs ys (by simp at hlen ⊢; omega) hx.2 hy.2
            have hbound : ∀ e' ∈ mergeJoinE f xs ys, keyLt x.1 e'.1 = true := by
              intro e' he'
              rcases mergeJoinE_key_mem f xs ys e' he' with h | h
              · rcases h with ⟨x', hx', hex⟩
                rw [hex]
                exact hx.1 x' hx'
              · rcases h with ⟨y', hy', hey⟩
                rw [hey, hxy]
                exact hy.1 y' hy'
            cases hf : f x.2 y.2 with
            | some v =>
              rw [sortedE_cons_iff]
              exact ⟨hbound, hrest⟩
            | none => exact hrest
  exact fun xs ys => main (xs.length + ys.length) xs ys (Nat.le_refl _)

/-- Lookup through a merge join is the pointwise combine of the lookups. -/
theorem lookupE_mergeJoinE (f) : ∀ (xs ys : List (Key × Val)),
    sortedE xs → sortedE ys → ∀ k,
    lookupE (mergeJoinE f xs ys) k = combineV f (lookupE xs k) (lookupE ys k) := by
  have main : ∀ n (xs ys : List (Key × Val)), xs.length + ys.length ≤ n →
      sortedE xs → sortedE ys → ∀ k,
      lookupE (mergeJoinE f xs ys) k = combineV f (lookupE xs k) (lookupE ys k) := by
    intro n
    induction n with
    | zero =>
      intro xs ys hlen hx hy k
      have h1 : xs = [] := by cases xs <;> simp_all
      have h2 : ys = [] := by cases ys <;> simp_all
      subst h1; subst h2
      simp [combineV]
    | succ n ih =>
      intro xs ys hlen hx hy k
      cases xs with
      | nil =>
        simp only [mergeJoinE_nil_left, lookupE_nil]
        cases lookupE ys k <;> simp [combineV]
      | cons x xs =>
        cases ys with
        | nil =>
          simp only [mergeJoinE_nil_right, lookupE_nil]
          cases lookupE (x :: xs) k <;> simp [combineV]
        | cons y ys =>
          rw [sortedE_cons_iff] at hx hy
          rw [mergeJoinE_cons_cons]
          cases hcmp : keyCmp x.1 y.1 with
          | lt =>
            have hxy : keyLt x.1 y.1 = true := by simpa [keyLt] using hcmp
            rw [lookupE_cons]
            by_cases hk : x.1 = k
            · rw [if_pos hk]
              have hys : lookupE (y :: ys) k = none := by
                refine lookupE_eq_none ?_
                intro e he
                rcases List.mem_cons.mp he with h0 | h0
                · subst h0
                  intro hc
                  rw [← hk] at hc
                  exact absurd hc.symm (ne_of_keyLt hxy)
                · intro hc
                  have := keyLt_trans hxy (hy.1 e h0)
                  rw [hc, hk] at this
                  rw [keyLt_irrefl] at this
                  cases this
              rw [lookupE_cons, if_pos hk, hys]
              simp [combineV]
            · rw [if_neg hk, lookupE_cons, if_neg hk]
              exact ih xs (y :: ys) (by simp at hlen ⊢; omega) hx.2
                (sortedE_cons_iff.mpr hy) k
          | gt =>
            have hyx : keyLt y.1 x.1 = true := by
              simp only [keyLt, decide_eq_true_eq]
              exact keyCmp_gt_iff.mp hcmp
            rw [lookupE_cons]
            by_cases hk : y.1 = k
            · rw [if_pos hk]
              have hxs : lookupE (x :: xs) k = none := by
                refine lookupE_eq_none ?_
                intro e he
                rcases List.mem_cons.mp he with h0 | h0
                · subst h0
                  intro hc
                  rw [← hk] at hc
                  exact absurd hc (ne_of_keyLt hyx).symm
                · intro hc
                  have := keyLt_trans hyx (hx.1 e h0)
                  rw [hc, hk] at this
                  rw [keyLt_irrefl] at this
                  cases this
              rw [hxs, lookupE_cons y ys k, if_pos hk]
              simp [combineV]
            · rw [if_neg hk, lookupE_cons y ys k, if_neg hk]
              exact ih (x :: xs) ys (by simp at hlen ⊢; omega)
                (sortedE_cons_iff.mpr hx) hy.2 k
          | eq =>
            have hxy : x.1 = y.1 := keyCmp_eq_iff.mp hcmp
            have hrest := ih xs ys (by simp at hlen ⊢; omega) hx.2 hy.2 k
            by_cases hk : x.1 = k
            · have hnone_x : lookupE xs k = none := by
                refine lookupE_eq_none ?_
                intro e he hc
                have := hx.1 e he
                rw [hc, hk] at this
                rw [keyLt_irrefl] at this
                cases this
              have hnone_y : lookupE ys k = none := by
                refine lookupE_eq_none ?_
                intro e he hc
                have := hy.1 e he
                rw [hc, ← hxy, hk] at this
                rw [keyLt_irrefl] at this
                cases this
              cases hf : f x.2 y.2 with
              | some v =>
                rw [lookupE_cons, if_pos hk, lookupE_cons, if_pos hk,
                  lookupE_cons, if_pos (by rw [← hxy, hk])]
                simp [combineV, hf]
              | none =>
                rw [lookupE_cons, if_pos hk, lookupE_cons, if_pos (by rw [← hxy, hk])]
                have : lookupE (mergeJoinE f xs ys) k = none := by
                  rw [hrest, hnone_x, hnone_y]
                  simp [combineV]
                rw [this]
                simp [combineV, hf]
            · have hk2 : ¬ y.1 = k := by rw [← hxy]; exact hk
              cases hf : f x.2 y.2 with
              | some v =>
                rw [lookupE_cons, if_neg hk, lookupE_cons, if_neg hk,
                  lookupE_cons, if_neg hk2]
                exact hrest
              | none =>
                rw [lookupE_cons, if_neg hk, lookupE_cons, if_neg hk2]
                exact hrest
  exact fun xs ys => main (xs.length + ys.length) xs ys (Nat.le_refl _)

theorem combineV_take_right (x y : Option Val) :
    combineV take_right x y = Option.or y x := by
  cases x <;> cases y <;> simp [combineV, take_right, Option.or]

theorem combineV_take_left (x y : Option Val) :
    combineV take_left x y = Option.or x y := by
  cases x <;> cases y <;> simp [combineV, take_left, Option.or]

/-- Lookup over the produced iterator entries agrees with lookup over the
reference entries. -/
theorem lookupE_iterList {t : TNode} (hs : sortedE (entriesLex t)) (k : Key) :
    lookupE (iterList t) k = lookupE (entriesLex t) k := by
  have h := iterList_perm_entriesLex t
  refine lookupE_perm h ?_ k
  exact (h.pairwise_iff (fun hab => Ne.symm hab)).mpr (nodup_keys_of_sortedE hs)

/-! Well-formedness and canonicality of the public constructors. -/

theorem wfT_emptyTree : wfT emptyTree = true := by
  simp [emptyTree, wfT_mk]

theorem wfT_single (k : Key) (v : Val) : wfT (single k v) = true := by
  simp [single, wfT_mk]

theorem canonT_emptyTree : canonT emptyTree = true := by
  simp [emptyTree, canonT]

theorem canonT_single (k : Key) (v : Val) : canonT (single k v) = true := by
  simp [single, canonT]

/-- Lookup through an allocating merge of well-formed trees is the pointwise
combine of the two lookups. -/
theorem lookupE_outer_combine (f : Val → Val → Option Val) (a b : TNode)
    (ha : wfT a = true) (hb : wfT b = true) (k : Key) :
    lookupE (iterList (outer_combine f a b)) k
      = combineV f (lookupE (iterList a) k) (lookupE (iterList b) k) := by
  have hsa := sortedE_entriesLex a ha
  have hsb := sortedE_entriesLex b hb
  have he := entriesLex_outer_combine f a b ha hb
  have hsr : sortedE (entriesLex (outer_combine f a b)) := by
    rw [he]
    exact sortedE_mergeJoinE f _ _ hsa hsb
  rw [lookupE_iterList hsr k, he, lookupE_mergeJoinE f _ _ hsa hsb k,
    ← lookupE_iterList hsa k, ← lookupE_iterList hsb k]

/-- Lookup over the total allocating merge is the biased union: the
mapping-level content of outer_combine under both bias combiners, for the
inputs on which the program completes. -/
theorem lookupE_union_of_total (a b : TNode)
    (ha : wfT a = true) (hb : wfT b = true) (k : Key) :
    lookupE (iterList (outer_combine take_right a b)) k
        = Option.or (lookupE (iterList b) k) (lookupE (iterList a) k)
    ∧ lookupE (iterList (outer_combine take_left a b)) k
        = Option.or (lookupE (iterList a) k) (lookupE (iterList b) k) := by
  constructor
  · rw [lookupE_outer_combine take_right a b ha hb k, combineV_take_right]
  · rw [lookupE_outer_combine take_left a b ha hb k, combineV_take_left]

/-- C8: combining any tree with the empty tree, under any combine
function, is the identity on the represented mapping: the iterated
entries of outer_combine f a emptyTree are exactly those of a. -/
theorem outer_combine_empty_identity (f : Val → Val → Option Val) (a : TNode) :
    iterList (outer_combine f a emptyTree) = iterList a := by
  cases a with
  | mk ap av acs =>
    by_cases hp : ap = []
    · subst hp
      have h1 : commonPfx (TNode.mk [] av acs).pre emptyTree.pre
          = (TNode.mk [] av acs).pre.length := by
        simp [emptyTree, commonPfx]
      have h2 : commonPfx (TNode.mk [] av acs).pre emptyTree.pre
          = emptyTree.pre.length := by
        simp [emptyTree, commonPfx]
      rw [outer_combine_eq_both f h1 h2]
      simp only [emptyTree, TNode.pre_mk, TNode.val_mk, TNode.children_mk,
        outer_combine_children_nil_right]
      cases av <;> simp [combineV]
    · have h0 : commonPfx (TNode.mk ap av acs).pre emptyTree.pre = 0 := by
        cases ap <;> simp [emptyTree, commonPfx]
      have h1 : commonPfx (TNode.mk ap av acs).pre emptyTree.pre
          ≠ (TNode.mk ap av acs).pre.length := by
        rw [h0]
        simp only [TNode.pre_mk]
        intro hc
        exact hp (List.eq_nil_of_length_eq_zero hc.symm)
      have h2 : commonPfx (TNode.mk ap av acs).pre emptyTree.pre
          = emptyTree.pre.length := by
        rw [h0]
        simp [emptyTree]
      rw [outer_combine_eq_right f h1 h2]
      rw [h0]
      simp only [emptyTree, TNode.pre_mk, TNode.val_mk, TNode.children_mk,
        shorten_zero, outer_combine_children_nil_right, List.take_zero]
      simp

/-- C3: refuted. The iterator yields a node's descendant entries before the
node's own entry: right-biased in-place combination of single "a" ↦ "1"
with single "ab" ↦ "2" iterates to [("ab","2"), ("a","1")], not the
claimed ascending [("a","1"), ("ab","2")], so iter() is not in ascending
lexicographic key order. -/
theorem iter_order_counterexample :
    iterList (outer_combine_with take_right (single [97] [49]) (single [97, 98] [50]))
        = [([97, 98], [50]), ([97], [49])]
      ∧ ¬ sortedE (iterList (outer_combine_with take_right (single [97] [49])
          (single [97, 98] [50]))) := by
  have h : iterList (outer_combine_with take_right (single [97] [49])
      (single [97, 98] [50])) = [([97, 98], [50]), ([97], [49])] := by
    simp [outer_combine_with, outer_combine_children_with, combiner_loop,
      canonicalize_all, canonicalize_one, take_right, single, shorten, commonPfx]
  refine ⟨h, ?_⟩
  rw [h]
  intro hs
  rw [sortedE, List.pairwise_cons] at hs
  have := hs.1 ([97], [49]) (by simp)
  simp [keyLt, keyCmp] at this

/-- C4: refuted. values() traverses pre-order (a node's own value before
its descendants) while iter() yields post-order: on the tree holding
"a" ↦ "1" and "ab" ↦ "2" the value sequences are ["1","2"] and
["2","1"] respectively, so values() is not the value projection of
iter(). -/
theorem values_order_counterexample :
    valuesList (outer_combine_with take_right (single [97] [49]) (single [97, 98] [50]))
        = [[49], [50]]
      ∧ (iterList (outer_combine_with take_right (single [97] [49])
            (single [97, 98] [50]))).map Prod.snd = [[50], [49]]
      ∧ valuesList (outer_combine_with take_right (single [97] [49]) (single [97, 98] [50]))
        ≠ (iterList (outer_combine_with take_right (single [97] [49])
            (single [97, 98] [50]))).map Prod.snd := by
  have h1 : valuesList (outer_combine_with take_right (single [97] [49])
      (single [97, 98] [50])) = [[49], [50]] := by
    simp [outer_combine_with, outer_combine_children_with, combiner_loop,
      canonicalize_all, canonicalize_one, take_right, single, shorten, commonPfx]
  have h2 : (iterList (outer_combine_with take_right (single [97] [49])
      (single [97, 98] [50]))).map Prod.snd = [[50], [49]] := by
    simp [outer_combine_with, outer_combine_children_with, combiner_loop,
      canonicalize_all, canonicalize_one, take_right, single, shorten, commonPfx]
  exact ⟨h1, h2, by rw [h1, h2]; simp⟩

/-! The canonical-form property follows from canonicality, and is preserved
from the public constructors through both merge engines when the combine
function always produces a value. -/

theorem noBadTripleL_of_canonCL {cs : List TNode}
    (h : ∀ c ∈ cs, canonC c = true → noBadTriple c = true)
    (hc : canonCL cs = true) : noBadTripleL cs = true := by
  induction cs with
  | nil => simp
  | cons c cs ih =>
    simp only [canonCL_cons, Bool.and_eq_true] at hc
    simp only [noBadTripleL_cons, Bool.and_eq_true]
    exact ⟨h c (by simp) hc.1, ih (fun d hd => h d (by simp [hd])) hc.2⟩

theorem noBadTriple_of_canonC : ∀ t : TNode, canonC t = true → noBadTriple t = true := by
  refine TNode.rec_children ?_
  intro p v cs ih hc
  simp only [canonC_mk, Bool.and_eq_true] at hc
  simp only [noBadTriple_mk, Bool.and_eq_true]
  refine ⟨?_, noBadTripleL_of_canonCL ih hc.2⟩
  rcases Bool.or_eq_true _ _ |>.mp hc.1 with h0 | h0
  · cases v with
    | none => simp at h0
    | some x => simp
  · simp only [Bool.not_eq_true'] at h0 ⊢
    simp [h0]

theorem canonical_form_ok_of_canonT {t : TNode} (h : canonT t = true) :
    canonical_form_ok t = true := by
  rw [canonical_form_ok]
  exact noBadTripleL_of_canonCL (fun c _ => noBadTriple_of_canonC c)
    (canonT_children h)

/-- The trees reachable from the public constructors (the empty tree and
the singletons) by the allocating and the in-place merge, with combine
functions that always return a value, as the public bias combiners do. -/
inductive Reach : TNode → Prop where
  | empty : Reach emptyTree
  | sing (k : Key) (v : Val) : Reach (single k v)
  | oc (f : Val → Val → Option Val) (hf : ∀ x y, (f x y).isSome = true)
      {a b : TNode} : Reach a → Reach b → Reach (outer_combine f a b)
  | ocw (f : Val → Val → Option Val) (hf : ∀ x y, (f x y).isSome = true)
      {a b : TNode} : Reach a → Reach b → Reach (outer_combine_with f a b)

theorem wf_canon_of_reach {t : TNode} (h : Reach t) :
    wfT t = true ∧ canonT t = true := by
  induction h with
  | empty => exact ⟨wfT_emptyTree, canonT_emptyTree⟩
  | sing k v => exact ⟨wfT_single k v, canonT_single k v⟩
  | oc f hf ra rb iha ihb =>
    exact ⟨((outer_combine_wf f _).1 _ _ (Nat.le_refl _) iha.1 ihb.1).1,
      ((outer_combine_canon f hf _).1 _ _ (Nat.le_refl _)
        iha.1 ihb.1 iha.2 ihb.2).1⟩
  | ocw f hf ra rb iha ihb =>
    rw [outer_combine_with_eq_outer_combine f hf _ _ iha.1 ihb.1 iha.2 ihb.2]
    exact ⟨((outer_combine_wf f _).1 _ _ (Nat.le_refl _) iha.1 ihb.1).1,
      ((outer_combine_canon f hf _).1 _ _ (Nat.le_refl _)
        iha.1 ihb.1 iha.2 ihb.2).1⟩

/-- C7 (corrected): in every tree reachable from the public constructors by
outer_combine and outer_combine_with with combine functions that always
return a value, no non-root triple has a non-empty prefix together with an
absent value and absent children.  The original claim's allowance of
combine functions returning None is refuted separately: the allocating
merge then emits a value-less childless triple with a non-empty prefix. -/
theorem reachable_canonical_form {t : TNode} (h : Reach t) :
    canonical_form_ok t = true :=
  canonical_form_ok_of_canonT (wf_canon_of_reach h).2

/-- Witness for C7 at a reachable combined tree. -/
theorem reachable_canonical_form_witness :
    Reach (outer_combine take_right (single [97] [49]) (single [97, 98] [50]))
      ∧ canonical_form_ok
          (outer_combine take_right (single [97] [49]) (single [97, 98] [50])) = true :=
  ⟨Reach.oc take_right (fun _ _ => rfl) (Reach.sing [97] [49])
      (Reach.sing [97, 98] [50]),
    reachable_canonical_form
      (Reach.oc take_right (fun _ _ => rfl) (Reach.sing [97] [49])
        (Reach.sing [97, 98] [50]))⟩

/-- C7 counterexample: with a combine function returning None, the
allocating merge of reachable trees produces a non-root triple with a
non-empty prefix and neither value nor children, violating the
canonical-form property. -/
theorem canonical_form_none_counterexample :
    canonical_form_ok
      (outer_combine (fun _ _ => none)
        (outer_combine take_right (single [97, 98] [49]) (single [97, 99] [50]))
        (single [97, 98] [51])) = false := by
  simp [outer_combine, outer_combine_children, take_right, single, shorten,
    commonPfx, canonical_form_ok]

/-! Non-overlapping keys: neither key is a byte-prefix of the other.  This
is the hypothesis of the spec's round-trip property. -/

/-- a is a byte-prefix of b. -/
def pfxOf (a b : Key) : Bool := decide (commonPfx a b = a.length)

theorem commonPfx_append_same (u x y : List Byte) :
    commonPfx (u ++ x) (u ++ y) = u.length + commonPfx x y := by
  induction u with
  | nil => simp
  | cons c u ih =>
    simp [List.cons_append, commonPfx_cons, List.length_cons, ih]
    omega

@[simp] theorem pfxOf_self (a : Key) : pfxOf a a = true := by
  simp [pfxOf, commonPfx_self]

theorem pfxOf_append_same (u x y : List Byte) :
    pfxOf (u ++ x) (u ++ y) = pfxOf x y := by
  simp only [pfxOf, commonPfx_append_same, List.length_append]
  by_cases h : commonPfx x y = x.length
  · simp [h]
  · simp only [decide_eq_decide]
    omega

theorem pfxOf_append_right (u x : List Byte) : pfxOf u (u ++ x) = true := by
  have := pfxOf_append_same u [] x
  simpa using this

theorem ne_of_pfxOf_eq_false {a b : Key} (h : pfxOf a b = false) : a ≠ b := by
  intro hc
  subst hc
  rw [pfxOf_self] at h
  cases h

@[simp] theorem entriesLex_emptyTree : entriesLex emptyTree = [] := by
  simp [emptyTree]

@[simp] theorem entriesLex_single (k : Key) (v : Val) :
    entriesLex (single k v) = [(k, v)] := by
  simp [single]

/-- A canonical non-root triple denotes at least one entry. -/
theorem entriesLex_ne_nil_of_canonC :
    ∀ t : TNode, canonC t = true → entriesLex t ≠ [] := by
  refine TNode.rec_children ?_
  intro p v cs ih hc
  simp only [canonC_mk, Bool.and_eq_true] at hc
  cases v with
  | some x => simp
  | none =>
    cases cs with
    | nil => simp at hc
    | cons c cs' =>
      have hcc : canonC c = true := by
        have := hc.2
        simp only [canonCL_cons, Bool.and_eq_true] at this
        exact this.1
      have hne := ih c (by simp) hcc
      cases hE : entriesLex c with
      | nil => exact absurd hE hne
      | cons e es => simp [hE]


/-- Two keys do not overlap: neither is a byte-prefix of the other. -/
def keysNonOverlap (a b : Key) : Prop := pfxOf a b = false ∧ pfxOf b a = false

instance (a b : Key) : Decidable (keysNonOverlap a b) :=
  inferInstanceAs (Decidable (_ ∧ _))

theorem keysNonOverlap_symm {a b : Key} (h : keysNonOverlap a b) :
    keysNonOverlap b a := ⟨h.2, h.1⟩

theorem ne_of_keysNonOverlap {a b : Key} (h : keysNonOverlap a b) : a ≠ b :=
  ne_of_pfxOf_eq_false h.1

/-- When no entry key is a prefix of another, the post-order iterator
coincides with the ascending-lexicographic reference entries: every value
then sits at a childless node, so the traversal orders agree. -/
theorem iterList_eq_entriesLex_of_nonOverlap :
    ∀ t : TNode, canonT t = true →
    ((entriesLex t).map Prod.fst).Pairwise keysNonOverlap →
    iterList t = entriesLex t := by
  have hL : ∀ ds : List TNode,
      (∀ c ∈ ds, canonT c = true →
        ((entriesLex c).map Prod.fst).Pairwise keysNonOverlap →
        iterList c = entriesLex c) →
      canonCL ds = true →
      ((entriesLexL ds).map Prod.fst).Pairwise keysNonOverlap →
      iterListL ds = entriesLexL ds := by
    intro ds
    induction ds with
    | nil => intro _ _ _; simp
    | cons c ds' ihd =>
      intro hihs hcl hp
      simp only [canonCL_cons, Bool.and_eq_true] at hcl
      simp only [entriesLexL_cons, List.map_append] at hp
      have hparts := List.pairwise_append.mp hp
      simp only [iterListL_cons, entriesLexL_cons]
      rw [hihs c (by simp) (canonT_of_canonC hcl.1) hparts.1,
        ihd (fun d hd => hihs d (by simp [hd])) hcl.2 hparts.2.1]
  refine TNode.rec_children ?_
  intro p v cs ih hc hp
  have hcl : canonCL cs = true := canonT_children hc
  cases v with
  | none =>
    simp only [iterList_mk, entriesLex_mk, List.nil_append, List.append_nil]
    have hp' : ((entriesLexL cs).map Prod.fst).Pairwise keysNonOverlap := by
      simp only [entriesLex_mk, List.nil_append, List.map_map] at hp
      have hp2 : ((entriesLexL cs).map Prod.fst).Pairwise
          (fun a b => keysNonOverlap (p ++ a) (p ++ b)) := by
        rw [List.pairwise_map]
        rw [List.pairwise_map] at hp
        exact hp
      refine hp2.imp ?_
      intro a b hab
      refine ⟨?_, ?_⟩
      · have := hab.1
        rw [pfxOf_append_same] at this
        exact this
      · have := hab.2
        rw [pfxOf_append_same] at this
        exact this
    rw [hL cs (fun c hcm => ih c hcm) hcl hp']
  | some x =>
    cases cs with
    | nil => simp
    | cons c cs' =>
      exfalso
      have hcc : canonC c = true := by
        simp only [canonCL_cons, Bool.and_eq_true] at hcl
        exact hcl.1
      have hne := entriesLex_ne_nil_of_canonC c hcc
      cases hE : entriesLex c with
      | nil => exact hne hE
      | cons e es =>
        simp only [entriesLex_mk, entriesLexL_cons, hE] at hp
        simp only [List.cons_append, List.map_cons, List.nil_append] at hp
        rw [List.pairwise_cons] at hp
        have hno := hp.1 (p ++ e.1, e.2).1 (by simp)
        have := hno.1
        rw [pfxOf_append_right] at this
        cases this
  

/-- Merging one fresh-key entry into an entry list permutes to consing it
on. -/
theorem mergeJoinE_single_perm (f : Val → Val → Option Val) (k : Key) (v : Val) :
    ∀ es : List (Key × Val), (∀ e ∈ es, e.1 ≠ k) →
    List.Perm (mergeJoinE f es [(k, v)]) ((k, v) :: es) := by
  intro es
  induction es with
  | nil =>
    intro _
    rw [mergeJoinE_nil_left]
  | cons e es ih =>
    intro h
    rw [mergeJoinE_cons_cons]
    cases hcmp : keyCmp e.1 (k, v).1 with
    | lt =>
      refine List.Perm.trans
        (List.Perm.cons e (ih (fun e' he' => h e' (by simp [he'])))) ?_
      exact List.Perm.swap (k, v) e es
    | gt =>
      rw [mergeJoinE_nil_right]
    | eq =>
      exact absurd (keyCmp_eq_iff.mp hcmp) (h e (by simp))

/-- Loop invariant of building a tree by repeated in-place combination of
singletons: well-formedness, canonicality, and the reference entries as a
permutation of the inserted entries. -/
theorem fromList_loop_inv (ps : List (Key × Val)) :
    ∀ acc : TNode, wfT acc = true → canonT acc = true →
    (∀ e ∈ entriesLex acc, ∀ e' ∈ ps, e.1 ≠ e'.1) →
    ps.Pairwise (fun e e' => e.1 ≠ e'.1) →
    wfT (ps.foldl (fun t kv => outer_combine_with take_right t (single kv.1 kv.2)) acc) = true ∧
    canonT (ps.foldl (fun t kv => outer_combine_with take_right t (single kv.1 kv.2)) acc) = true ∧
    List.Perm
      (entriesLex (ps.foldl (fun t kv => outer_combine_with take_right t (single kv.1 kv.2)) acc))
      (entriesLex acc ++ ps) := by
  induction ps with
  | nil =>
    intro acc hw hc _ _
    simp only [List.foldl_nil, List.append_nil]
    exact ⟨hw, hc, List.Perm.refl _⟩
  | cons kv ps' ih =>
    intro acc hw hc hdisj hnd
    simp only [List.foldl_cons]
    have heq : outer_combine_with take_right acc (single kv.1 kv.2)
        = outer_combine take_right acc (single kv.1 kv.2) :=
      outer_combine_with_eq_outer_combine take_right (fun _ _ => rfl) _ _
        hw (wfT_single kv.1 kv.2) hc (canonT_single kv.1 kv.2)
    have hw' : wfT (outer_combine_with take_right acc (single kv.1 kv.2)) = true := by
      rw [heq]
      exact ((outer_combine_wf take_right _).1 _ _ (Nat.le_refl _)
        hw (wfT_single kv.1 kv.2)).1
    have hc' : canonT (outer_combine_with take_right acc (single kv.1 kv.2)) = true := by
      rw [heq]
      exact ((outer_combine_canon take_right (fun _ _ => rfl) _).1 _ _ (Nat.le_refl _)
        hw (wfT_single kv.1 kv.2) hc (canonT_single kv.1 kv.2)).1
    have hperm' : List.Perm
        (entriesLex (outer_combine_with take_right acc (single kv.1 kv.2)))
        ((kv.1, kv.2) :: entriesLex acc) := by
      rw [heq, entriesLex_outer_combine take_right _ _ hw (wfT_single kv.1 kv.2),
        entriesLex_single]
      exact mergeJoinE_single_perm take_right kv.1 kv.2 (entriesLex acc)
        (fun e he => hdisj e he kv (by simp))
    have hdisj' : ∀ e ∈ entriesLex (outer_combine_with take_right acc (single kv.1 kv.2)),
        ∀ e' ∈ ps', e.1 ≠ e'.1 := by
      intro e he e' he'
      rcases List.mem_cons.mp (hperm'.subset he) with h0 | h0
      · rw [h0]
        exact (List.pairwise_cons.mp hnd).1 e' he'
      · exact hdisj e h0 e' (by simp [he'])
    obtain ⟨hwf, hcf, hpf⟩ := ih (outer_combine_with take_right acc (single kv.1 kv.2))
      hw' hc' hdisj' (List.pairwise_cons.mp hnd).2
    refine ⟨hwf, hcf, ?_⟩
    refine hpf.trans ?_
    refine List.Perm.trans (hperm'.append_right ps') ?_
    rw [List.cons_append]
    exact List.perm_middle.symm

/-- Round trip of the total fold: for a mapping with pairwise
non-overlapping keys, iterating the total-model build yields a
permutation of the input in strictly ascending lexicographic key order. -/
theorem fromList_round_trip_total (ps : List (Key × Val))
    (h : ps.Pairwise (fun e e' => keysNonOverlap e.1 e'.1)) :
    List.Perm (iterList (fromList ps)) ps ∧ sortedE (iterList (fromList ps)) := by
  have hnd : ps.Pairwise (fun e e' => e.1 ≠ e'.1) :=
    h.imp (fun hee => ne_of_keysNonOverlap hee)
  obtain ⟨hw, hc, hperm⟩ := fromList_loop_inv ps emptyTree wfT_emptyTree
    canonT_emptyTree (by simp) hnd
  have hw' : wfT (fromList ps) = true := hw
  have hc' : canonT (fromList ps) = true := hc
  have hperm' : List.Perm (entriesLex (fromList ps)) ps := by
    have := hperm
    rw [entriesLex_emptyTree, List.nil_append] at this
    exact this
  have hsorted : sortedE (entriesLex (fromList ps)) := sortedE_entriesLex _ hw'
  have hpN : ((entriesLex (fromList ps)).map Prod.fst).Pairwise keysNonOverlap := by
    have hmap : List.Perm ((entriesLex (fromList ps)).map Prod.fst)
        (ps.map Prod.fst) := hperm'.map Prod.fst
    have hps : (ps.map Prod.fst).Pairwise keysNonOverlap :=
      List.pairwise_map.mpr h
    exact (hmap.pairwise_iff (fun hab => keysNonOverlap_symm hab)).mpr hps
  have hEq : iterList (fromList ps) = entriesLex (fromList ps) :=
    iterList_eq_entriesLex_of_nonOverlap _ hc' hpN
  rw [hEq]
  exact ⟨hperm', hsorted⟩

/-! The fallible in-place merge: the same traversal as outer_combine_with,
with the combine function allowed to fail, mirroring the Result-returning
source.  The combine function is the only source of Result errors under
the in-memory store; the separate assertion abort of push_shortened is
modelled by outer_combine_withP further below. -/

mutual

def outer_combine_withE (f : Val → Val → Except Unit (Option Val)) (a b : TNode) :
    Except Unit TNode :=
  let ap := a.pre
  let bp := b.pre
  let n := commonPfx ap bp
  if n = ap.length ∧ n = bp.length then
    -- prefixes are identical: move prefix, combine values (f may fail)
    match a.val, b.val with
    | some av, some bv =>
      match f av bv with
      | .error e => .error e
      | .ok r =>
        Except.map (fun cs => TNode.mk ap r cs)
          (outer_combine_children_withE f a.children b.children)
    | some av, none =>
      Except.map (fun cs => TNode.mk ap (some av) cs)
        (outer_combine_children_withE f a.children b.children)
    | none, _ =>
      Except.map (fun cs => TNode.mk ap b.val cs)
        (outer_combine_children_withE f a.children b.children)
  else if n = ap.length then
    -- a is a prefix of b: move prefix and value
    Except.map (fun cs => TNode.mk ap a.val cs)
      (outer_combine_children_withE f a.children [shorten n b])
  else if n = bp.length then
    -- b is a prefix of a: split a at n, keep b's value at the split point
    Except.map (fun cs => TNode.mk (ap.take n) b.val cs)
      (outer_combine_children_withE f [TNode.mk (ap.drop n) a.val a.children]
        b.children)
  else
    -- the two nodes are disjoint: no combine function is called
    .ok (TNode.mk (ap.take n) none
      (if ap.getD n 0 ≤ bp.getD n 0
       then [TNode.mk (ap.drop n) a.val a.children, shorten n b]
       else [shorten n b, TNode.mk (ap.drop n) a.val a.children]))
termination_by 3 * (a.size + b.size)
decreasing_by
  all_goals simp_wf
  all_goals
    have ha := sizeL_children_lt a
    have hb := sizeL_children_lt b
    omega

def outer_combine_children_withE (f : Val → Val → Except Unit (Option Val))
    (as bs : List TNode) : Except Unit (List TNode) :=
  match as, bs with
  | as, [] => .ok as
  | [], bs => .ok bs
  | a :: as, b :: bs =>
    Except.map canonicalize_all (combiner_loopE f (a :: as) (b :: bs))
termination_by 3 * (sizeL as + sizeL bs) + 2
decreasing_by
  all_goals simp_wf

def combiner_loopE (f : Val → Val → Except Unit (Option Val)) :
    List TNode → List TNode → Except Unit (List TNode)
  | as, [] => .ok as
  | [], b :: bs => Except.map (fun r => b :: r) (combiner_loopE f [] bs)
  | a :: as, b :: bs =>
    match a.pre.head?, b.pre.head? with
    | some x, some y =>
      if x < y then Except.map (fun r => a :: r) (combiner_loopE f as (b :: bs))
      else if y < x then Except.map (fun r => b :: r) (combiner_loopE f (a :: as) bs)
      else
        match outer_combine_withE f a b with
        | .error e => .error e
        | .ok t => Except.map (fun r => t :: r) (combiner_loopE f as bs)
    | _, _ => .ok []  -- the source panics on an empty sibling prefix
termination_by as bs => 3 * (sizeL as + sizeL bs) + 1
decreasing_by
  all_goals simp_wf
  all_goals first
    | omega
    | (have ha := size_pos a; omega)
    | (have hb := size_pos b; omega)

end

/-- Models Tree::try_outer_combine_with.  InPlaceNodeSeqBuilder::new rips
the node vector out of the tree; only on success is the rebuilt vector
stored back, while the early error return leaves the tree holding the
taken-out, empty node sequence. -/
def tryOuterCombineWith (f : Val → Val → Except Unit (Option Val))
    (a b : TNode) : TNode :=
  match outer_combine_withE f a b with
  | .ok r => r
  | .error _ => emptyTree

/-- C5: refuted.  A failing combine on two overlapping singletons does not
leave the target logically untouched: the failed in-place merge empties
the tree, because the node vector was moved out of the tree at the start
of the call and the early error return never stores a result back. -/
theorem error_rollback_counterexample :
    outer_combine_withE (fun _ _ => .error ()) (single [97] [49]) (single [97] [50])
        = .error ()
      ∧ iterList (tryOuterCombineWith (fun _ _ => .error ())
          (single [97] [49]) (single [97] [50])) = []
      ∧ iterList (single [97] [49]) = [([97], [49])] := by
  have h : outer_combine_withE (fun _ _ => .error ())
      (single [97] [49]) (single [97] [50]) = .error () := by
    rw [outer_combine_withE]
    simp [single, commonPfx]
  refine ⟨h, ?_, by simp [single]⟩
  rw [tryOuterCombineWith, h]
  simp [emptyTree]

/-! Point lookup: the find skeleton, the get projection, and contains_key
with its value-presence test.  FlexRef::is_some is written in the source as
the negation of itself, so it is modelled with fuel: no amount of fuel
produces a result. -/

/-- The three-way find result. -/
inductive FindRes where
  | found (t : TNode)
  | pfx (t : TNode) (rt : Nat)
  | notFound

/-- Models NodeSeqRef::find: linear scan of the sibling sequence for the
sibling whose first prefix byte equals the searched byte, giving up early
once a larger first byte appears. -/
def seqFind : List TNode → Byte → Option TNode
  | [], _ => none
  | c :: cs, x =>
    match c.pre.head? with
    | some y =>
      if y = x then some c
      else if y > x then none
      else seqFind cs x
    | none => seqFind cs x

theorem mem_of_seqFind : ∀ {cs : List TNode} {x : Byte} {t : TNode},
    seqFind cs x = some t → t ∈ cs := by
  intro cs
  induction cs with
  | nil => intro x t h; cases h
  | cons c cs ih =>
    intro x t h
    rw [seqFind] at h
    cases hh : c.pre.head? with
    | some y =>
      rw [hh] at h
      dsimp only at h
      by_cases h1 : y = x
      · rw [if_pos h1] at h
        cases h
        simp
      · rw [if_neg h1] at h
        by_cases h2 : y > x
        · rw [if_pos h2] at h
          cases h
        · rw [if_neg h2] at h
          simp [ih h]
    | none =>
      rw [hh] at h
      dsimp only at h
      simp [ih h]

/-- Models fn find: peel the common prefix, descend into the child selected
by the next key byte. -/
def findT (t : TNode) (key : Key) : FindRes :=
  let n := commonPfx t.pre key
  let rt := t.pre.length - n
  let rp := key.length - n
  if rp = 0 ∧ rt = 0 then .found t
  else if rp = 0 then .pfx t rt
  else if rt = 0 then
    match h : seqFind t.children (key.getD n 0) with
    | some child => findT child (key.drop n)
    | none => .notFound
  else .notFound
termination_by t.size
decreasing_by
  simp_wf
  have h1 := size_le_of_mem (mem_of_seqFind h)
  have h2 := sizeL_children_lt t
  omega

/-- Models Tree::try_get: on an exact hit, load the value slot. -/
def getM (t : TNode) (key : Key) : Option Val :=
  match findT t key with
  | .found u => u.val
  | _ => none

/-- Models FlexRef::is_some, which the source defines as the negation of
itself: with any fuel, no result. -/
def flexIsSomeFuel : Nat → Option Bool
  | 0 => none
  | n + 1 => Option.map not (flexIsSomeFuel n)

theorem flexIsSomeFuel_eq_none : ∀ n, flexIsSomeFuel n = none := by
  intro n
  induction n with
  | zero => rfl
  | succ n ih => rw [flexIsSomeFuel, ih]; rfl

/-- Models Tree::try_contains_key: on an exact hit the value slot's
is_some is consulted, which never returns. -/
def containsKeyFuel (t : TNode) (key : Key) (fuel : Nat) : Option Bool :=
  match findT t key with
  | .found _ => flexIsSomeFuel fuel
  | _ => some false

/-- C6: refuted.  contains_key does not terminate on any present key:
FlexRef::is_some recurses into itself, so no fuel yields an answer for
the key "a" in single "a" ↦ "1", while get returns the value "1" for the
same key. -/
theorem contains_key_diverges :
    (∀ fuel : Nat, containsKeyFuel (single [97] [49]) [97] fuel = none)
      ∧ getM (single [97] [49]) [97] = some [49] := by
  have hf : findT (single [97] [49]) [97] = .found (single [97] [49]) := by
    rw [findT]
    simp [single, commonPfx]
  constructor
  · intro fuel
    rw [containsKeyFuel, hf, flexIsSomeFuel_eq_none]
  · rw [getM, hf]
    simp [single]

/-! Slot encoding: the header byte packs a 2-bit type tag with a 6-bit
length, so make_header_byte asserts the length below 64; FlexRef::slice
chooses the inline encoding for any payload under 128 bytes. -/

/-- An encoded reference slot: an inline slot holds its header byte and
payload directly, an arc slot points to out-of-line bytes. -/
inductive FlexSlot where
  | inline (bytes : List Byte)
  | arc (bytes : List Byte)
deriving DecidableEq

/-- Models make_header_byte: the length must fit in 6 bits next to the
2-bit type tag, enforced by an assertion. -/
def make_header_byte (tpe len : Nat) : Except Unit Byte :=
  if len < 64 then .ok (tpe * 64 + len) else .error ()

/-- Models push_inline: header byte then the payload (tag 1 = Inline). -/
def push_inline (data : List Byte) : Except Unit FlexSlot :=
  Except.map (fun h => FlexSlot.inline (h :: data)) (make_header_byte 1 data.length)

/-- Models FlexRef::slice: inline for payloads under 128 bytes, otherwise
a fresh arc. -/
def slice (data : List Byte) : Except Unit FlexSlot :=
  if data.length < 128 then push_inline data
  else .ok (.arc data)

/-- Models push_shortened on the prefix slot: for n > 0 the loaded prefix
bytes are re-encoded with slice after dropping the first n (the source
asserts n < prefix.len()); for n = 0 the original slot is copied. -/
def push_shortened_slot (orig : FlexSlot) (p : List Byte) (n : Nat) :
    Except Unit FlexSlot :=
  if 0 < n then
    if n < p.length then slice (p.drop n) else .error ()
  else .ok orig

/-- C9: refuted.  Re-encoding a 65-byte prefix stripped of one byte leaves
a 64-byte suffix; slice chooses the inline path for it because 64 < 128,
and make_header_byte's length assertion fails, so push_shortened does not
succeed for every suffix length.  Suffixes shorter than 64 bytes do encode
successfully. -/
theorem push_shortened_assertion_failure :
    push_shortened_slot (.arc (List.replicate 65 0)) (List.replicate 65 0) 1
        = .error ()
      ∧ (∀ data : List Byte, data.length < 64 → slice data ≠ .error ()) := by
  constructor
  · rw [push_shortened_slot]
    simp [slice, push_inline, make_header_byte, Except.map]
  · intro data h
    have h128 : data.length < 128 := by omega
    simp [slice, push_inline, make_header_byte, Except.map, h, h128]


/-! Copy-on-write children blocks.  A heap of reference-counted node-
sequence blocks: Clone for NodeSeqBuilder retains each shared slot
(incrementing its count), and mutate takes the arc out of the slot and
uniquifies it with Arc::make_mut — writing in place only when the block is
uniquely held, otherwise writing a fresh copy and releasing the old
block. -/

structure ArcHeap where
  content : List (List TNode)
  rc : List Nat

/-- Read the node sequence stored in block a. -/
def readH (h : ArcHeap) (a : Nat) : List TNode := h.content.getD a []

/-- Models Clone for NodeSeqBuilder on a tree whose children slot points at
block a: the clone retains the shared block. -/
def cloneH (h : ArcHeap) (a : Nat) : ArcHeap :=
  { h with rc := h.rc.set a (h.rc.getD a 0 + 1) }

/-- Models Arc::make_mut on the arc taken out of the children slot: the
address written through afterwards — block a itself when uniquely held,
otherwise a fresh copy of it, the original block released. -/
def make_mut (h : ArcHeap) (a : Nat) : ArcHeap × Nat :=
  if h.rc.getD a 0 ≤ 1 then (h, a)
  else
    ({ content := h.content ++ [h.content.getD a []],
       rc := h.rc.set a (h.rc.getD a 0 - 1) ++ [1] },
      h.content.length)

/-- Overwrite block a. -/
def write (h : ArcHeap) (a : Nat) (v : List TNode) : ArcHeap :=
  { h with content := h.content.set a v }

/-- Models InPlaceBuilderRef::mutate: uniquify the children block, apply
the in-place rewrite to its node sequence, store the result back through
the uniquified address. -/
def mutateH (h : ArcHeap) (a : Nat) (f : List TNode → List TNode) :
    ArcHeap × Nat :=
  (write (make_mut h a).1 (make_mut h a).2
      (f (readH (make_mut h a).1 (make_mut h a).2)),
    (make_mut h a).2)

theorem getD_set_self {l : List α} {a : Nat} (v d : α) (ha : a < l.length) :
    (l.set a v).getD a d = v := by
  induction l generalizing a with
  | nil => cases ha
  | cons c l ih =>
    cases a with
    | zero => rfl
    | succ a => simpa using ih (by simpa using ha)

theorem getD_append_last (l : List α) (x : α) (d : α) :
    (l ++ [x]).getD l.length d = x := by
  induction l with
  | nil => rfl
  | cons c l ih => simpa using ih

theorem getD_append_of_lt {l : List α} {a : Nat} (x : α) (d : α)
    (ha : a < l.length) : (l ++ [x]).getD a d = l.getD a d := by
  induction l generalizing a with
  | nil => cases ha
  | cons c l ih =>
    cases a with
    | zero => rfl
    | succ a => simpa using ih (by simpa using ha)

theorem set_append_length (l : List α) (x y : α) :
    (l ++ [x]).set l.length y = l ++ [y] := by
  induction l with
  | nil => rfl
  | cons c l ih => simpa using ih

/-- C10: an in-place mutation of a tree after cloning it is never observed
through the clone: the clone retains the shared children block, so mutate
uniquifies onto a fresh block, the rewrite lands there, and the shared
block's node sequence — hence the clone's key-to-value mapping — is
exactly what it was before the mutation. -/
theorem clone_mutate_frame (h : ArcHeap) (a : Nat) (f : List TNode → List TNode)
    (ha : a < h.content.length) (h1 : 1 ≤ h.rc.getD a 0) :
    iterListL (readH (mutateH (cloneH h a) a f).1 a) = iterListL (readH h a)
      ∧ readH (mutateH (cloneH h a) a f).1 (mutateH (cloneH h a) a f).2
          = f (readH h a) := by
  have harc : a < h.rc.length := by
    by_contra hx
    push_neg at hx
    rw [List.getD_eq_default _ _ hx] at h1
    exact absurd h1 (by omega)
  have hrc : (cloneH h a).rc.getD a 0 = h.rc.getD a 0 + 1 := by
    rw [cloneH]
    exact getD_set_self _ _ harc
  have hcond : ¬ ((cloneH h a).rc.getD a 0 ≤ 1) := by
    rw [hrc]
    omega
  have hmm : make_mut (cloneH h a) a =
      (ArcHeap.mk (h.content ++ [h.content.getD a []])
        ((cloneH h a).rc.set a ((cloneH h a).rc.getD a 0 - 1) ++ [1]),
        h.content.length) := by
    rw [make_mut, if_neg hcond]
    rfl
  have hmut : mutateH (cloneH h a) a f =
      (write (ArcHeap.mk (h.content ++ [h.content.getD a []])
          ((cloneH h a).rc.set a ((cloneH h a).rc.getD a 0 - 1) ++ [1]))
        h.content.length
        (f (readH (ArcHeap.mk (h.content ++ [h.content.getD a []])
            ((cloneH h a).rc.set a ((cloneH h a).rc.getD a 0 - 1) ++ [1]))
          h.content.length)),
        h.content.length) := by
    rw [mutateH, hmm]
  have hblk : readH (ArcHeap.mk (h.content ++ [h.content.getD a []])
      ((cloneH h a).rc.set a ((cloneH h a).rc.getD a 0 - 1) ++ [1]))
      h.content.length = h.content.getD a [] := by
    rw [readH]
    exact getD_append_last _ _ _
  have hw : write (ArcHeap.mk (h.content ++ [h.content.getD a []])
        ((cloneH h a).rc.set a ((cloneH h a).rc.getD a 0 - 1) ++ [1]))
      h.content.length (f (h.content.getD a [])) =
      ArcHeap.mk (h.content ++ [f (h.content.getD a [])])
        ((cloneH h a).rc.set a ((cloneH h a).rc.getD a 0 - 1) ++ [1]) := by
    rw [write]
    simp only [ArcHeap.mk.injEq, and_true]
    exact set_append_length _ _ _
  rw [hmut, hblk, hw]
  constructor
  · have hrd : readH (ArcHeap.mk (h.content ++ [f (h.content.getD a [])])
        ((cloneH h a).rc.set a ((cloneH h a).rc.getD a 0 - 1) ++ [1])) a
        = readH h a := by
      rw [readH, readH]
      exact getD_append_of_lt _ _ ha
    rw [hrd]
  · rw [readH]
    exact getD_append_last _ _ _

/-- Witness for C10: one shared children block holding the node of
a ↦ "1", cloned once, then rewritten to empty through mutate. -/
theorem clone_mutate_frame_witness :
    0 < (ArcHeap.mk [[single [97] [49]]] [1]).content.length
      ∧ 1 ≤ (ArcHeap.mk [[single [97] [49]]] [1]).rc.getD 0 0
      ∧ (iterListL (readH (mutateH (cloneH (ArcHeap.mk [[single [97] [49]]] [1]) 0) 0
              (fun cs => cs.drop 1)).1 0)
            = iterListL (readH (ArcHeap.mk [[single [97] [49]]] [1]) 0)
          ∧ readH (mutateH (cloneH (ArcHeap.mk [[single [97] [49]]] [1]) 0) 0
                (fun cs => cs.drop 1)).1
              (mutateH (cloneH (ArcHeap.mk [[single [97] [49]]] [1]) 0) 0
                (fun cs => cs.drop 1)).2
            = (fun cs => cs.drop 1) (readH (ArcHeap.mk [[single [97] [49]]] [1]) 0)) :=
  ⟨by decide, by decide,
    clone_mutate_frame (ArcHeap.mk [[single [97] [49]]] [1]) 0 (fun cs => cs.drop 1)
      (by decide) (by decide)⟩

/-! The abort path of push_shortened.  With n > 0 the suffix is re-encoded
through FlexRef::slice, which takes the inline path for any payload under
128 bytes while make_header_byte asserts the length below 64: suffix
lengths 64..=127 abort.  push_prefix and push_value go through
push_arc_or_inline (inline only below 64 bytes, otherwise a fresh arc)
and never abort. -/

/-- push_shortened completes without an assertion failure: either n = 0
(the slot is copied unencoded), or n is within the prefix and the
remaining suffix avoids slice's oversized inline path. -/
def push_shortened_ok (p : List Byte) (n : Nat) : Bool :=
  decide (n = 0) ||
    (decide (n < p.length) &&
      (decide (p.length - n < 64) || decide (128 ≤ p.length - n)))

/-- The abort predicate agrees with the C9 slot model: push_shortened_ok
holds exactly when push_shortened_slot does not fail. -/
theorem push_shortened_ok_iff (orig : FlexSlot) (p : List Byte) (n : Nat) :
    push_shortened_ok p n = true ↔ push_shortened_slot orig p n ≠ .error () := by
  rw [push_shortened_ok, push_shortened_slot]
  by_cases h0 : n = 0
  · subst h0
    simp
  · have h0' : 0 < n := Nat.pos_of_ne_zero h0
    rw [if_pos h0']
    by_cases h1 : n < p.length
    · rw [if_pos h1, slice]
      have hlen : (List.drop n p).length = p.length - n := List.length_drop n p
      by_cases h2 : p.length - n < 128
      · rw [if_pos (by rw [hlen]; exact h2), push_inline, make_header_byte]
        by_cases h3 : p.length - n < 64
        · rw [if_pos (by rw [hlen]; exact h3)]
          simp [Except.map, h0, h1, h3]
        · rw [if_neg (by rw [hlen]; exact h3)]
          simp only [Except.map]
          simp [h0, h1, h3]
          omega
      · rw [if_neg (by rw [hlen]; exact h2)]
        simp [h0, h1]
        omega
    · rw [if_neg h1]
      simp [h0, h1]

theorem except_map_eq_ok {α β : Type} {g : α → β} {e : Except Unit α} {t : β} :
    Except.map g e = .ok t ↔ ∃ x, e = .ok x ∧ t = g x := by
  cases e with
  | error e' =>
    constructor
    · intro h
      cases h
    · rintro ⟨x, hx, _⟩
      cases hx
  | ok x =>
    constructor
    · intro h
      injection h with h
      exact ⟨x, rfl, h.symm⟩
    · rintro ⟨x', hx', ht⟩
      injection hx' with hx'
      subst hx'
      subst ht
      rfl

/-! The allocating merge as the source runs it: the same traversal as
outer_combine, with the push_shortened abort made explicit.  Each branch
that re-encodes a shortened prefix is guarded by push_shortened_ok; a
failed guard is the assertion abort. -/

mutual

def outer_combineE (f : Val → Val → Option Val) (a b : TNode) :
    Except Unit TNode :=
  let ap := a.pre
  let bp := b.pre
  let n := commonPfx ap bp
  if n = ap.length ∧ n = bp.length then
    -- prefixes are identical: nothing is re-encoded with slice
    let value : Option Val :=
      match a.val, b.val with
      | some av, some bv => f av bv
      | some av, none => some av
      | none, some bv => some bv
      | none, none => none
    Except.map (fun cs => TNode.mk (ap.take n) value cs)
      (outer_combine_childrenE f a.children b.children)
  else if n = ap.length then
    -- a is a prefix of b: b is shortened by n
    if push_shortened_ok bp n then
      Except.map (fun cs => TNode.mk (ap.take n) a.val cs)
        (outer_combine_childrenE f a.children [shorten n b])
    else .error ()
  else if n = bp.length then
    -- b is a prefix of a: a is shortened by n
    if push_shortened_ok ap n then
      Except.map (fun cs => TNode.mk (ap.take n) b.val cs)
        (outer_combine_childrenE f [shorten n a] b.children)
    else .error ()
  else
    -- disjoint: both nodes are shortened by n
    if push_shortened_ok ap n && push_shortened_ok bp n then
      .ok (TNode.mk (ap.take n) none
        (if ap.getD n 0 ≤ bp.getD n 0 then [shorten n a, shorten n b]
         else [shorten n b, shorten n a]))
    else .error ()
termination_by 2 * (a.size + b.size)
decreasing_by
  all_goals simp_wf
  all_goals
    have ha := sizeL_children_lt a
    have hb := sizeL_children_lt b
    omega

def outer_combine_childrenE (f : Val → Val → Option Val) :
    List TNode → List TNode → Except Unit (List TNode)
  | [], [] => .ok []
  | a :: as, [] => Except.map (fun r => a :: r) (outer_combine_childrenE f as [])
  | [], b :: bs => Except.map (fun r => b :: r) (outer_combine_childrenE f [] bs)
  | a :: as, b :: bs =>
    match a.pre.head?, b.pre.head? with
    | some x, some y =>
      if x < y then
        Except.map (fun r => a :: r) (outer_combine_childrenE f as (b :: bs))
      else if y < x then
        Except.map (fun r => b :: r) (outer_combine_childrenE f (a :: as) bs)
      else
        match outer_combineE f a b with
        | .error e => .error e
        | .ok t => Except.map (fun r => t :: r) (outer_combine_childrenE f as bs)
    | _, _ => .ok []  -- the source panics on an empty sibling prefix
termination_by as bs => 2 * (sizeL as + sizeL bs) + 1
decreasing_by
  all_goals simp_wf
  all_goals first
    | omega
    | (have ha := size_pos a; omega)
    | (have hb := size_pos b; omega)

end

/-! Case lemmas for the fallible allocating merge, mirroring those of the
total model. -/

theorem outer_combineE_eq_both (f) {a b : TNode}
    (h1 : commonPfx a.pre b.pre = a.pre.length)
    (h2 : commonPfx a.pre b.pre = b.pre.length) :
    outer_combineE f a b =
      Except.map (fun cs => TNode.mk a.pre (combineV f a.val b.val) cs)
        (outer_combine_childrenE f a.children b.children) := by
  rw [outer_combineE]
  have h2x : a.pre.length = b.pre.length := by rw [← h1, h2]
  simp only [h1, h2x, and_self, if_pos]
  rw [← h2x, List.take_length]
  cases hva : a.val <;> cases hvb : b.val <;> simp [combineV]

theorem outer_combineE_eq_left (f) {a b : TNode}
    (h1 : commonPfx a.pre b.pre = a.pre.length)
    (h2 : commonPfx a.pre b.pre ≠ b.pre.length) :
    outer_combineE f a b =
      (if push_shortened_ok b.pre (commonPfx a.pre b.pre) then
        Except.map (fun cs => TNode.mk a.pre a.val cs)
          (outer_combine_childrenE f a.children
            [shorten (commonPfx a.pre b.pre) b])
       else .error ()) := by
  rw [outer_combineE]
  have hcond : ¬ (commonPfx a.pre b.pre = a.pre.length ∧
      commonPfx a.pre b.pre = b.pre.length) := by
    intro h
    exact h2 h.2
  rw [if_neg hcond, if_pos h1, h1, List.take_length]

theorem outer_combineE_eq_right (f) {a b : TNode}
    (h1 : commonPfx a.pre b.pre ≠ a.pre.length)
    (h2 : commonPfx a.pre b.pre = b.pre.length) :
    outer_combineE f a b =
      (if push_shortened_ok a.pre (commonPfx a.pre b.pre) then
        Except.map (fun cs => TNode.mk (a.pre.take (commonPfx a.pre b.pre)) b.val cs)
          (outer_combine_childrenE f [shorten (commonPfx a.pre b.pre) a]
            b.children)
       else .error ()) := by
  rw [outer_combineE]
  have hcond : ¬ (commonPfx a.pre b.pre = a.pre.length ∧
      commonPfx a.pre b.pre = b.pre.length) := by
    intro h
    exact h1 h.1
  rw [if_neg hcond, if_neg h1, if_pos h2]

theorem outer_combineE_eq_disjoint (f) {a b : TNode}
    (h1 : commonPfx a.pre b.pre ≠ a.pre.length)
    (h2 : commonPfx a.pre b.pre ≠ b.pre.length) :
    outer_combineE f a b =
      (if push_shortened_ok a.pre (commonPfx a.pre b.pre)
          && push_shortened_ok b.pre (commonPfx a.pre b.pre) then
        .ok (TNode.mk (a.pre.take (commonPfx a.pre b.pre)) none
          (if a.pre.getD (commonPfx a.pre b.pre) 0
              ≤ b.pre.getD (commonPfx a.pre b.pre) 0
           then [shorten (commonPfx a.pre b.pre) a,
                 shorten (commonPfx a.pre b.pre) b]
           else [shorten (commonPfx a.pre b.pre) b,
                 shorten (commonPfx a.pre b.pre) a]))
       else .error ()) := by
  rw [outer_combineE]
  have hcond : ¬ (commonPfx a.pre b.pre = a.pre.length ∧
      commonPfx a.pre b.pre = b.pre.length) := by
    intro h
    exact h1 h.1
  rw [if_neg hcond, if_neg h1, if_neg h2]


theorem outer_combine_childrenE_cons_cons (f) (a b : TNode) (as bs : List TNode)
    {x y : Byte} (ha : a.pre.head? = some x) (hb : b.pre.head? = some y) :
    outer_combine_childrenE f (a :: as) (b :: bs) =
      (if x < y then
        Except.map (fun r => a :: r) (outer_combine_childrenE f as (b :: bs))
       else if y < x then
        Except.map (fun r => b :: r) (outer_combine_childrenE f (a :: as) bs)
       else
        match outer_combineE f a b with
        | .error e => .error e
        | .ok t => Except.map (fun r => t :: r) (outer_combine_childrenE f as bs)) := by
  rw [outer_combine_childrenE]
  simp [ha, hb]

/-- The fallible allocating merge agrees with the total model whenever it
completes: an ok result is exactly the outer_combine result, so the total
model describes every run of the source that does not abort. -/
theorem outer_combineE_agrees (f : Val → Val → Option Val) : ∀ N : Nat,
    (∀ a b : TNode, a.size + b.size ≤ N → ∀ t : TNode,
      outer_combineE f a b = .ok t → t = outer_combine f a b) ∧
    (∀ as bs : List TNode, sizeL as + sizeL bs ≤ N → ∀ cs : List TNode,
      outer_combine_childrenE f as bs = .ok cs →
      cs = outer_combine_children f as bs) := by
  intro N
  induction N using Nat.strong_induction_on with
  | _ N ih =>
    have hP : ∀ a b : TNode, a.size + b.size ≤ N → ∀ t : TNode,
        outer_combineE f a b = .ok t → t = outer_combine f a b := by
      intro a b hN t ht
      by_cases h1 : commonPfx a.pre b.pre = a.pre.length
      · by_cases h2 : commonPfx a.pre b.pre = b.pre.length
        · rw [outer_combineE_eq_both f h1 h2, except_map_eq_ok] at ht
          obtain ⟨cs, hcs, rfl⟩ := ht
          rw [outer_combine_eq_both f h1 h2]
          have hM : sizeL a.children + sizeL b.children < N := by
            have ha := sizeL_children_lt a
            have hb := sizeL_children_lt b
            omega
          rw [(ih _ hM).2 a.children b.children (Nat.le_refl _) cs hcs]
        · rw [outer_combineE_eq_left f h1 h2] at ht
          by_cases hok : push_shortened_ok b.pre (commonPfx a.pre b.pre) = true
          · rw [if_pos hok, except_map_eq_ok] at ht
            obtain ⟨cs, hcs, rfl⟩ := ht
            rw [outer_combine_eq_left f h1 h2]
            have hM : sizeL a.children
                + sizeL [shorten (commonPfx a.pre b.pre) b] < N := by
              have ha := sizeL_children_lt a
              have hb := size_pos b
              simp only [sizeL_cons, sizeL_nil, size_shorten]
              omega
            rw [(ih _ hM).2 _ _ (Nat.le_refl _) cs hcs]
          · rw [if_neg hok] at ht
            simp at ht
      · by_cases h2 : commonPfx a.pre b.pre = b.pre.length
        · rw [outer_combineE_eq_right f h1 h2] at ht
          by_cases hok : push_shortened_ok a.pre (commonPfx a.pre b.pre) = true
          · rw [if_pos hok, except_map_eq_ok] at ht
            obtain ⟨cs, hcs, rfl⟩ := ht
            rw [outer_combine_eq_right f h1 h2]
            have hM : sizeL [shorten (commonPfx a.pre b.pre) a]
                + sizeL b.children < N := by
              have ha := size_pos a
              have hb := sizeL_children_lt b
              simp only [sizeL_cons, sizeL_nil, size_shorten]
              omega
            rw [(ih _ hM).2 _ _ (Nat.le_refl _) cs hcs]
          · rw [if_neg hok] at ht
            simp at ht
        · rw [outer_combineE_eq_disjoint f h1 h2] at ht
          by_cases hok : (push_shortened_ok a.pre (commonPfx a.pre b.pre)
              && push_shortened_ok b.pre (commonPfx a.pre b.pre)) = true
          · rw [if_pos hok] at ht
            injection ht with ht
            rw [outer_combine_eq_disjoint f h1 h2]
            exact ht.symm
          · rw [if_neg hok] at ht
            simp at ht
    refine ⟨hP, ?_⟩
    intro as bs hN cs hcs
    match as, bs with
    | [], [] =>
      rw [outer_combine_childrenE] at hcs
      injection hcs with hcs
      rw [outer_combine_children]
      exact hcs.symm
    | a :: as, [] =>
      rw [outer_combine_childrenE, except_map_eq_ok] at hcs
      obtain ⟨r, hr, rfl⟩ := hcs
      have hM : sizeL as + sizeL ([] : List TNode) < N := by
        have := size_pos a
        simp only [sizeL_nil] at hN ⊢
        simp only [sizeL_cons] at hN
        omega
      rw [(ih _ hM).2 as [] (Nat.le_refl _) r hr,
        outer_combine_children_nil_right, outer_combine_children_nil_right]
    | [], b :: bs =>
      rw [outer_combine_childrenE, except_map_eq_ok] at hcs
      obtain ⟨r, hr, rfl⟩ := hcs
      have hM : sizeL ([] : List TNode) + sizeL bs < N := by
        have := size_pos b
        simp only [sizeL_nil] at hN ⊢
        simp only [sizeL_cons] at hN
        omega
      rw [(ih _ hM).2 [] bs (Nat.le_refl _) r hr,
        outer_combine_children_nil_left, outer_combine_children_nil_left]
    | a :: as, b :: bs =>
      cases hha : a.pre.head? with
      | none =>
        rw [outer_combine_childrenE] at hcs
        rw [hha] at hcs
        cases hhb : b.pre.head? with
        | none =>
          rw [hhb] at hcs
          dsimp only at hcs
          injection hcs with hcs
          rw [outer_combine_children]
          simp [hha, hhb]
          exact hcs.symm
        | some y =>
          rw [hhb] at hcs
          dsimp only at hcs
          injection hcs with hcs
          rw [outer_combine_children]
          simp [hha, hhb]
          exact hcs.symm
      | some x =>
        cases hhb : b.pre.head? with
        | none =>
          rw [outer_combine_childrenE] at hcs
          rw [hha, hhb] at hcs
          dsimp only at hcs
          injection hcs with hcs
          rw [outer_combine_children]
          simp [hha, hhb]
          exact hcs.symm
        | some y =>
          rw [outer_combine_childrenE_cons_cons f a b as bs hha hhb] at hcs
          rw [outer_combine_children_cons_cons f a b as bs hha hhb]
          by_cases hxy : x < y
          · rw [if_pos hxy] at hcs ⊢
            rw [except_map_eq_ok] at hcs
            obtain ⟨r, hr, rfl⟩ := hcs
            have hM : sizeL as + sizeL (b :: bs) < N := by
              have := size_pos a
              simp only [sizeL_cons] at hN ⊢
              omega
            rw [(ih _ hM).2 as (b :: bs) (Nat.le_refl _) r hr]
          · rw [if_neg hxy] at hcs ⊢
            by_cases hyx : y < x
            · rw [if_pos hyx] at hcs ⊢
              rw [except_map_eq_ok] at hcs
              obtain ⟨r, hr, rfl⟩ := hcs
              have hM : sizeL (a :: as) + sizeL bs < N := by
                have := size_pos b
                simp only [sizeL_cons] at hN ⊢
                omega
              rw [(ih _ hM).2 (a :: as) bs (Nat.le_refl _) r hr]
            · rw [if_neg hyx] at hcs ⊢
              cases hoc : outer_combineE f a b with
              | error e =>
                rw [hoc] at hcs
                simp at hcs
              | ok t0 =>
                rw [hoc] at hcs
                dsimp only at hcs
                rw [except_map_eq_ok] at hcs
                obtain ⟨r, hr, rfl⟩ := hcs
                have hab : a.size + b.size ≤ N := by
                  simp only [sizeL_cons] at hN
                  omega
                have ht0 : t0 = outer_combine f a b := hP a b hab t0 hoc
                have hM : sizeL as + sizeL bs < N := by
                  have := size_pos a
                  simp only [sizeL_cons] at hN
                  omega
                rw [(ih _ hM).2 as bs (Nat.le_refl _) r hr, ht0]

/-- An ok result of the fallible allocating merge is the total model's
result. -/
theorem outer_combineE_ok_eq (f : Val → Val → Option Val) {a b t : TNode}
    (h : outer_combineE f a b = .ok t) : t = outer_combine f a b :=
  (outer_combineE_agrees f (a.size + b.size)).1 a b (Nat.le_refl _) t h

/-- C1 (corrected): whenever the allocating merge completes rather than
aborting in push_shortened's encoding assertion, its result is the biased
union: for well-formed trees, an ok result of the take_right merge looks
up at every key as the union in which b wins on collisions, and an ok
result of the take_left merge as the union in which a wins.  The original
unconditional claim fails on inputs where the merge aborts. -/
theorem outer_combine_union (a b : TNode)
    (ha : wfT a = true) (hb : wfT b = true) {t t' : TNode}
    (ht : outer_combineE take_right a b = .ok t)
    (ht' : outer_combineE take_left a b = .ok t') (k : Key) :
    lookupE (iterList t) k
        = Option.or (lookupE (iterList b) k) (lookupE (iterList a) k)
    ∧ lookupE (iterList t') k
        = Option.or (lookupE (iterList a) k) (lookupE (iterList b) k) := by
  rw [outer_combineE_ok_eq take_right ht, outer_combineE_ok_eq take_left ht']
  exact lookupE_union_of_total a b ha hb k

/-- Witness for C1 at the colliding singletons a ↦ "1" and a ↦ "2". -/
theorem outer_combine_union_witness :
    wfT (single [97] [49]) = true ∧ wfT (single [97] [50]) = true
    ∧ outer_combineE take_right (single [97] [49]) (single [97] [50])
        = .ok (TNode.mk [97] (some [50]) [])
    ∧ outer_combineE take_left (single [97] [49]) (single [97] [50])
        = .ok (TNode.mk [97] (some [49]) [])
    ∧ (lookupE (iterList (TNode.mk [97] (some [50]) [])) [97]
          = Option.or (lookupE (iterList (single [97] [50])) [97])
              (lookupE (iterList (single [97] [49])) [97])
        ∧ lookupE (iterList (TNode.mk [97] (some [49]) [])) [97]
          = Option.or (lookupE (iterList (single [97] [49])) [97])
              (lookupE (iterList (single [97] [50])) [97])) := by
  have h1 : outer_combineE take_right (single [97] [49]) (single [97] [50])
      = .ok (TNode.mk [97] (some [50]) []) := by
    rw [outer_combineE]
    simp [single, commonPfx, take_right, Except.map, outer_combine_childrenE]
  have h2 : outer_combineE take_left (single [97] [49]) (single [97] [50])
      = .ok (TNode.mk [97] (some [49]) []) := by
    rw [outer_combineE]
    simp [single, commonPfx, take_left, Except.map, outer_combine_childrenE]
  exact ⟨wfT_single [97] [49], wfT_single [97] [50], h1, h2,
    outer_combine_union (single [97] [49]) (single [97] [50])
      (by simp [single, wfT_mk]) (by simp [single, wfT_mk]) h1 h2 [97]⟩

/-- C1 counterexample: on two well-formed singletons with 65-byte keys
sharing one leading byte, the allocating merge aborts: the disjoint split
re-encodes both 64-byte suffixes through slice's inline path, whose
header assertion requires lengths below 64.  So outer_combine does not
yield the union for every pair of mappings. -/
theorem outer_combine_abort :
    wfT (single (97 :: List.replicate 64 0) [49]) = true
    ∧ wfT (single (97 :: List.replicate 64 1) [50]) = true
    ∧ outer_combineE take_right (single (97 :: List.replicate 64 0) [49])
        (single (97 :: List.replicate 64 1) [50]) = .error () := by
  refine ⟨wfT_single _ _, wfT_single _ _, ?_⟩
  have hcp : commonPfx (97 :: List.replicate 64 (0 : Byte))
      (97 :: List.replicate 64 (1 : Byte)) = 1 := by decide
  rw [outer_combineE]
  simp only [single, TNode.pre_mk, TNode.val_mk, TNode.children_mk, hcp]
  simp [push_shortened_ok]

/-! The in-place merge as the source runs it: the same traversal as
outer_combine_with, with the push_shortened abort made explicit.  Only
the b side is ever re-encoded with slice (the a-side split goes through
push_prefix, which inlines only below 64 bytes and otherwise allocates),
so only the a-is-a-prefix and disjoint branches can abort.  The combine
function is total here, as it is for the FromIterator build. -/

mutual

def outer_combine_withP (f : Val → Val → Option Val) (a b : TNode) :
    Except Unit TNode :=
  let ap := a.pre
  let bp := b.pre
  let n := commonPfx ap bp
  if n = ap.length ∧ n = bp.length then
    -- prefixes are identical: move prefix, combine values
    let value : Option Val :=
      match a.val, b.val with
      | some av, some bv => f av bv
      | some av, none => some av
      | none, _ => b.val
    Except.map (fun cs => TNode.mk ap value cs)
      (outer_combine_children_withP f a.children b.children)
  else if n = ap.length then
    -- a is a prefix of b: b is shortened by n through push_shortened
    if push_shortened_ok bp n then
      Except.map (fun cs => TNode.mk ap a.val cs)
        (outer_combine_children_withP f a.children [shorten n b])
    else .error ()
  else if n = bp.length then
    -- b is a prefix of a: a is split with push_prefix, which cannot abort
    Except.map (fun cs => TNode.mk (ap.take n) b.val cs)
      (outer_combine_children_withP f [shorten n a] b.children)
  else
    -- disjoint: a is split with push_prefix, b goes through push_shortened
    if push_shortened_ok bp n then
      .ok (TNode.mk (ap.take n) none
        (if ap.getD n 0 ≤ bp.getD n 0 then [shorten n a, shorten n b]
         else [shorten n b, shorten n a]))
    else .error ()
termination_by 3 * (a.size + b.size)
decreasing_by
  all_goals simp_wf
  all_goals
    have ha := sizeL_children_lt a
    have hb := sizeL_children_lt b
    omega

def outer_combine_children_withP (f : Val → Val → Option Val)
    (as bs : List TNode) : Except Unit (List TNode) :=
  match as, bs with
  | as, [] => .ok as
  | [], bs => .ok bs
  | a :: as, b :: bs =>
    Except.map canonicalize_all (combiner_loopP f (a :: as) (b :: bs))
termination_by 3 * (sizeL as + sizeL bs) + 2
decreasing_by
  all_goals simp_wf

def combiner_loopP (f : Val → Val → Option Val) :
    List TNode → List TNode → Except Unit (List TNode)
  | as, [] => .ok as
  | [], b :: bs => Except.map (fun r => b :: r) (combiner_loopP f [] bs)
  | a :: as, b :: bs =>
    match a.pre.head?, b.pre.head? with
    | some x, some y =>
      if x < y then
        Except.map (fun r => a :: r) (combiner_loopP f as (b :: bs))
      else if y < x then
        Except.map (fun r => b :: r) (combiner_loopP f (a :: as) bs)
      else
        match outer_combine_withP f a b with
        | .error e => .error e
        | .ok t => Except.map (fun r => t :: r) (combiner_loopP f as bs)
    | _, _ => .ok []  -- the source panics on an empty sibling prefix
termination_by as bs => 3 * (sizeL as + sizeL bs) + 1
decreasing_by
  all_goals simp_wf
  all_goals first
    | omega
    | (have ha := size_pos a; omega)
    | (have hb := size_pos b; omega)

end

/-! Case lemmas for the fallible in-place merge. -/

theorem outer_combine_withP_eq_both (f) {a b : TNode}
    (h1 : commonPfx a.pre b.pre = a.pre.length)
    (h2 : commonPfx a.pre b.pre = b.pre.length) :
    outer_combine_withP f a b =
      Except.map (fun cs => TNode.mk a.pre (combineV f a.val b.val) cs)
        (outer_combine_children_withP f a.children b.children) := by
  rw [outer_combine_withP]
  have h2x : a.pre.length = b.pre.length := by rw [← h1, h2]
  simp only [h1, h2x, and_self, if_pos]
  cases hva : a.val <;> cases hvb : b.val <;> simp [combineV, hvb]

theorem outer_combine_withP_eq_left (f) {a b : TNode}
    (h1 : commonPfx a.pre b.pre = a.pre.length)
    (h2 : commonPfx a.pre b.pre ≠ b.pre.length) :
    outer_combine_withP f a b =
      (if push_shortened_ok b.pre (commonPfx a.pre b.pre) then
        Except.map (fun cs => TNode.mk a.pre a.val cs)
          (outer_combine_children_withP f a.children
            [shorten (commonPfx a.pre b.pre) b])
       else .error ()) := by
  rw [outer_combine_withP]
  have hcond : ¬ (commonPfx a.pre b.pre = a.pre.length ∧
      commonPfx a.pre b.pre = b.pre.length) := by
    intro h
    exact h2 h.2
  rw [if_neg hcond, if_pos h1]

theorem outer_combine_withP_eq_right (f) {a b : TNode}
    (h1 : commonPfx a.pre b.pre ≠ a.pre.length)
    (h2 : commonPfx a.pre b.pre = b.pre.length) :
    outer_combine_withP f a b =
      Except.map (fun cs => TNode.mk (a.pre.take (commonPfx a.pre b.pre)) b.val cs)
        (outer_combine_children_withP f [shorten (commonPfx a.pre b.pre) a]
          b.children) := by
  rw [outer_combine_withP]
  have hcond : ¬ (commonPfx a.pre b.pre = a.pre.length ∧
      commonPfx a.pre b.pre = b.pre.length) := by
    intro h
    exact h1 h.1
  rw [if_neg hcond, if_neg h1, if_pos h2]

theorem outer_combine_withP_eq_disjoint (f) {a b : TNode}
    (h1 : commonPfx a.pre b.pre ≠ a.pre.length)
    (h2 : commonPfx a.pre b.pre ≠ b.pre.length) :
    outer_combine_withP f a b =
      (if push_shortened_ok b.pre (commonPfx a.pre b.pre) then
        .ok (TNode.mk (a.pre.take (commonPfx a.pre b.pre)) none
          (if a.pre.getD (commonPfx a.pre b.pre) 0
              ≤ b.pre.getD (commonPfx a.pre b.pre) 0
           then [shorten (commonPfx a.pre b.pre) a,
                 shorten (commonPfx a.pre b.pre) b]
           else [shorten (commonPfx a.pre b.pre) b,
                 shorten (commonPfx a.pre b.pre) a]))
       else .error ()) := by
  rw [outer_combine_withP]
  have hcond : ¬ (commonPfx a.pre b.pre = a.pre.length ∧
      commonPfx a.pre b.pre = b.pre.length) := by
    intro h
    exact h1 h.1
  rw [if_neg hcond, if_neg h1, if_neg h2]

theorem combiner_loopP_cons_cons (f) (a b : TNode) (as bs : List TNode)
    {x y : Byte} (ha : a.pre.head? = some x) (hb : b.pre.head? = some y) :
    combiner_loopP f (a :: as) (b :: bs) =
      (if x < y then
        Except.map (fun r => a :: r) (combiner_loopP f as (b :: bs))
       else if y < x then
        Except.map (fun r => b :: r) (combiner_loopP f (a :: as) bs)
       else
        match outer_combine_withP f a b with
        | .error e => .error e
        | .ok t => Except.map (fun r => t :: r) (combiner_loopP f as bs)) := by
  rw [combiner_loopP]
  simp [ha, hb]

theorem combiner_loopP_nil_right (f) (as : List TNode) :
    combiner_loopP f as [] = .ok as := by
  cases as <;> rw [combiner_loopP]

theorem combiner_loopP_nil_left (f) (b : TNode) (bs : List TNode) :
    combiner_loopP f [] (b :: bs) =
      Except.map (fun r => b :: r) (combiner_loopP f [] bs) := by
  rw [combiner_loopP]

theorem outer_combine_children_withP_nil_right (f) (as : List TNode) :
    outer_combine_children_withP f as [] = .ok as := by
  cases as <;> rw [outer_combine_children_withP]

theorem outer_combine_children_withP_nil_left (f) (b : TNode) (bs : List TNode) :
    outer_combine_children_withP f [] (b :: bs) = .ok (b :: bs) := by
  rw [outer_combine_children_withP]
  simp

theorem outer_combine_children_withP_cons_cons (f) (a b : TNode)
    (as bs : List TNode) :
    outer_combine_children_withP f (a :: as) (b :: bs) =
      Except.map canonicalize_all (combiner_loopP f (a :: as) (b :: bs)) := by
  rw [outer_combine_children_withP]

/-- The fallible in-place merge agrees with the total model whenever it
completes: an ok result is exactly the outer_combine_with result. -/
theorem outer_combine_withP_agrees (f : Val → Val → Option Val) : ∀ N : Nat,
    (∀ a b : TNode, a.size + b.size ≤ N → ∀ t : TNode,
      outer_combine_withP f a b = .ok t → t = outer_combine_with f a b) ∧
    (∀ as bs : List TNode, sizeL as + sizeL bs ≤ N →
      (∀ cs, combiner_loopP f as bs = .ok cs → cs = combiner_loop f as bs) ∧
      (∀ cs, outer_combine_children_withP f as bs = .ok cs →
        cs = outer_combine_children_with f as bs)) := by
  intro N
  induction N using Nat.strong_induction_on with
  | _ N ih =>
    have hP : ∀ a b : TNode, a.size + b.size ≤ N → ∀ t : TNode,
        outer_combine_withP f a b = .ok t → t = outer_combine_with f a b := by
      intro a b hN t ht
      by_cases h1 : commonPfx a.pre b.pre = a.pre.length
      · by_cases h2 : commonPfx a.pre b.pre = b.pre.length
        · rw [outer_combine_withP_eq_both f h1 h2, except_map_eq_ok] at ht
          obtain ⟨cs, hcs, rfl⟩ := ht
          rw [outer_combine_with_eq_both f h1 h2]
          have hM : sizeL a.children + sizeL b.children < N := by
            have ha := sizeL_children_lt a
            have hb := sizeL_children_lt b
            omega
          rw [((ih _ hM).2 a.children b.children (Nat.le_refl _)).2 cs hcs]
        · rw [outer_combine_withP_eq_left f h1 h2] at ht
          by_cases hok : push_shortened_ok b.pre (commonPfx a.pre b.pre) = true
          · rw [if_pos hok, except_map_eq_ok] at ht
            obtain ⟨cs, hcs, rfl⟩ := ht
            rw [outer_combine_with_eq_left f h1 h2]
            have hM : sizeL a.children
                + sizeL [shorten (commonPfx a.pre b.pre) b] < N := by
              have ha := sizeL_children_lt a
              have hb := size_pos b
              simp only [sizeL_cons, sizeL_nil, size_shorten]
              omega
            rw [((ih _ hM).2 _ _ (Nat.le_refl _)).2 cs hcs]
          · rw [if_neg hok] at ht
            simp at ht
      · by_cases h2 : commonPfx a.pre b.pre = b.pre.length
        · rw [outer_combine_withP_eq_right f h1 h2, except_map_eq_ok] at ht
          obtain ⟨cs, hcs, rfl⟩ := ht
          rw [outer_combine_with_eq_right f h1 h2]
          have hM : sizeL [shorten (commonPfx a.pre b.pre) a]
              + sizeL b.children < N := by
            have ha := size_pos a
            have hb := sizeL_children_lt b
            simp only [sizeL_cons, sizeL_nil, size_shorten]
            omega
          rw [((ih _ hM).2 _ _ (Nat.le_refl _)).2 cs hcs]
        · rw [outer_combine_withP_eq_disjoint f h1 h2] at ht
          by_cases hok : push_shortened_ok b.pre (commonPfx a.pre b.pre) = true
          · rw [if_pos hok] at ht
            injection ht with ht
            rw [outer_combine_with_eq_disjoint f h1 h2]
            exact ht.symm
          · rw [if_neg hok] at ht
            simp at ht
    have hQ : ∀ as bs : List TNode, sizeL as + sizeL bs ≤ N →
        ∀ cs, combiner_loopP f as bs = .ok cs → cs = combiner_loop f as bs := by
      intro as bs hN cs hcs
      match as, bs with
      | as, [] =>
        rw [combiner_loopP_nil_right] at hcs
        injection hcs with hcs
        rw [combiner_loop_nil_right]
        exact hcs.symm
      | [], b :: bs =>
        rw [combiner_loopP_nil_left, except_map_eq_ok] at hcs
        obtain ⟨r, hr, rfl⟩ := hcs
        have hM : sizeL ([] : List TNode) + sizeL bs < N := by
          have := size_pos b
          simp only [sizeL_nil] at hN ⊢
          simp only [sizeL_cons] at hN
          omega
        rw [(ih _ hM).2 [] bs (Nat.le_refl _) |>.1 r hr, combiner_loop_nil_left]
      | a :: as, b :: bs =>
        cases hha : a.pre.head? with
        | none =>
          rw [combiner_loopP] at hcs
          rw [hha] at hcs
          cases hhb : b.pre.head? with
          | none =>
            rw [hhb] at hcs
            dsimp only at hcs
            injection hcs with hcs
            rw [combiner_loop]
            simp [hha, hhb]
            exact hcs.symm
          | some y =>
            rw [hhb] at hcs
            dsimp only at hcs
            injection hcs with hcs
            rw [combiner_loop]
            simp [hha, hhb]
            exact hcs.symm
        | some x =>
          cases hhb : b.pre.head? with
          | none =>
            rw [combiner_loopP] at hcs
            rw [hha, hhb] at hcs
            dsimp only at hcs
            injection hcs with hcs
            rw [combiner_loop]
            simp [hha, hhb]
            exact hcs.symm
          | some y =>
            rw [combiner_loopP_cons_cons f a b as bs hha hhb] at hcs
            rw [combiner_loop_cons_cons f a b as bs hha hhb]
            by_cases hxy : x < y
            · rw [if_pos hxy] at hcs ⊢
              rw [except_map_eq_ok] at hcs
              obtain ⟨r, hr, rfl⟩ := hcs
              have hM : sizeL as + sizeL (b :: bs) < N := by
                have := size_pos a
                simp only [sizeL_cons] at hN ⊢
                omega
              rw [(ih _ hM).2 as (b :: bs) (Nat.le_refl _) |>.1 r hr]
            · rw [if_neg hxy] at hcs ⊢
              by_cases hyx : y < x
              · rw [if_pos hyx] at hcs ⊢
                rw [except_map_eq_ok] at hcs
                obtain ⟨r, hr, rfl⟩ := hcs
                have hM : sizeL (a :: as) + sizeL bs < N := by
                  have := size_pos b
                  simp only [sizeL_cons] at hN ⊢
                  omega
                rw [(ih _ hM).2 (a :: as) bs (Nat.le_refl _) |>.1 r hr]
              · rw [if_neg hyx] at hcs ⊢
                cases hoc : outer_combine_withP f a b with
                | error e =>
                  rw [hoc] at hcs
                  simp at hcs
                | ok t0 =>
                  rw [hoc] at hcs
                  dsimp only at hcs
                  rw [except_map_eq_ok] at hcs
                  obtain ⟨r, hr, rfl⟩ := hcs
                  have hab : a.size + b.size ≤ N := by
                    simp only [sizeL_cons] at hN
                    omega
                  have ht0 : t0 = outer_combine_with f a b := hP a b hab t0 hoc
                  have hM : sizeL as + sizeL bs < N := by
                    have := size_pos a
                    simp only [sizeL_cons] at hN
                    omega
                  rw [(ih _ hM).2 as bs (Nat.le_refl _) |>.1 r hr, ht0]
    refine ⟨hP, ?_⟩
    intro as bs hN
    refine ⟨hQ as bs hN, ?_⟩
    intro cs hcs
    match as, bs with
    | as, [] =>
      rw [outer_combine_children_withP_nil_right] at hcs
      injection hcs with hcs
      rw [outer_combine_children_with_nil_right]
      exact hcs.symm
    | [], b :: bs =>
      rw [outer_combine_children_withP_nil_left] at hcs
      injection hcs with hcs
      rw [outer_combine_children_with_nil_left]
      exact hcs.symm
    | a :: as, b :: bs =>
      rw [outer_combine_children_withP_cons_cons, except_map_eq_ok] at hcs
      obtain ⟨r, hr, rfl⟩ := hcs
      rw [outer_combine_children_with_cons_cons,
        hQ (a :: as) (b :: bs) hN r hr]


/-- Models the FromIterator build as the source runs it: fold the fallible
right-biased in-place merge of singletons from the empty tree, stopping at
the first abort. -/
def buildP : TNode → List (Key × Val) → Except Unit TNode
  | t, [] => .ok t
  | t, kv :: ps =>
    match outer_combine_withP take_right t (single kv.1 kv.2) with
    | .error e => .error e
    | .ok u => buildP u ps

def fromListP (ps : List (Key × Val)) : Except Unit TNode :=
  buildP emptyTree ps

theorem buildP_ok : ∀ (ps : List (Key × Val)) (acc t : TNode),
    buildP acc ps = .ok t →
    t = ps.foldl
      (fun u kv => outer_combine_with take_right u (single kv.1 kv.2)) acc := by
  intro ps
  induction ps with
  | nil =>
    intro acc t h
    rw [buildP] at h
    injection h with h
    rw [List.foldl_nil]
    exact h.symm
  | cons kv ps ih =>
    intro acc t h
    rw [buildP] at h
    cases hoc : outer_combine_withP take_right acc (single kv.1 kv.2) with
    | error e =>
      rw [hoc] at h
      dsimp only at h
      cases h
    | ok u =>
      rw [hoc] at h
      dsimp only at h
      have hu : u = outer_combine_with take_right acc (single kv.1 kv.2) :=
        (outer_combine_withP_agrees take_right _).1 _ _ (Nat.le_refl _) u hoc
      rw [List.foldl_cons, ← hu]
      exact ih u t h

/-- An ok result of the fallible build is the total model's build. -/
theorem fromListP_ok {ps : List (Key × Val)} {t : TNode}
    (h : fromListP ps = .ok t) : t = fromList ps := by
  rw [fromList]
  exact buildP_ok ps emptyTree t h

/-- C2 (corrected): for a mapping with pairwise non-overlapping keys,
whenever the repeated right-biased single-entry in-place combination
completes rather than aborting in push_shortened's encoding assertion,
iterating the built tree yields exactly the original entries: a
permutation of the input in strictly ascending lexicographic key order.
The original unconditional claim fails on mappings whose build aborts. -/
theorem from_iter_round_trip (ps : List (Key × Val))
    (h : ps.Pairwise (fun e e' => keysNonOverlap e.1 e'.1))
    {t : TNode} (ht : fromListP ps = .ok t) :
    List.Perm (iterList t) ps ∧ sortedE (iterList t) := by
  rw [fromListP_ok ht]
  exact fromList_round_trip_total ps h

/-- Witness for C2 on the two-entry mapping b ↦ "2", a ↦ "1" given in
descending order. -/
theorem from_iter_round_trip_witness :
    List.Pairwise (fun e e' : Key × Val => keysNonOverlap e.1 e'.1)
        [([98], [50]), ([97], [49])]
      ∧ fromListP [([98], [50]), ([97], [49])]
          = .ok (TNode.mk [] none
              [TNode.mk [97] (some [49]) [], TNode.mk [98] (some [50]) []])
      ∧ (List.Perm
            (iterList (TNode.mk [] none
              [TNode.mk [97] (some [49]) [], TNode.mk [98] (some [50]) []]))
            [([98], [50]), ([97], [49])]
          ∧ sortedE (iterList (TNode.mk [] none
              [TNode.mk [97] (some [49]) [], TNode.mk [98] (some [50]) []]))) := by
  have s1 : outer_combine_withP take_right emptyTree (single [98] [50])
      = .ok (TNode.mk [] none [TNode.mk [98] (some [50]) []]) := by
    rw [outer_combine_withP]
    simp [emptyTree, single, commonPfx, outer_combine_children_withP,
      push_shortened_ok, Except.map]
  have s2 : outer_combine_withP take_right
      (TNode.mk [] none [TNode.mk [98] (some [50]) []]) (single [97] [49])
      = .ok (TNode.mk [] none
          [TNode.mk [97] (some [49]) [], TNode.mk [98] (some [50]) []]) := by
    rw [outer_combine_withP]
    simp [single, commonPfx, outer_combine_children_withP, combiner_loopP,
      canonicalize_all, canonicalize_one, push_shortened_ok, Except.map]
  have hfp : fromListP [([98], [50]), ([97], [49])]
      = .ok (TNode.mk [] none
          [TNode.mk [97] (some [49]) [], TNode.mk [98] (some [50]) []]) := by
    rw [fromListP, buildP, s1]
    dsimp only
    rw [buildP, s2]
    dsimp only
    rw [buildP]
  exact ⟨by decide, hfp,
    from_iter_round_trip [([98], [50]), ([97], [49])] (by decide) hfp⟩

/-- C2 counterexample: the pairwise non-overlapping mapping holding
"aa" ↦ "1" and a 66-byte key "a"-then-65-zeros ↦ "2" cannot be built:
inserting the second entry splits disjointly after the shared byte and
re-encodes the new key's 65-byte suffix through slice's inline path,
which aborts in make_header_byte's length assertion. -/
theorem from_iter_abort :
    List.Pairwise (fun e e' : Key × Val => keysNonOverlap e.1 e'.1)
        [([97, 97], [49]), (97 :: List.replicate 65 0, [50])]
      ∧ fromListP [([97, 97], [49]), (97 :: List.replicate 65 0, [50])]
          = .error () := by
  refine ⟨by decide, ?_⟩
  have s1 : outer_combine_withP take_right emptyTree (single [97, 97] [49])
      = .ok (TNode.mk [] none [TNode.mk [97, 97] (some [49]) []]) := by
    rw [outer_combine_withP]
    simp [emptyTree, single, commonPfx, outer_combine_children_withP,
      push_shortened_ok, Except.map]
  have habort : outer_combine_withP take_right (TNode.mk [97, 97] (some [49]) [])
      (TNode.mk (97 :: List.replicate 65 0) (some [50]) []) = .error () := by
    have hcp : commonPfx [97, 97] (97 :: List.replicate 65 (0 : Byte)) = 1 := by
      decide
    rw [outer_combine_withP]
    simp only [TNode.pre_mk, TNode.val_mk, TNode.children_mk, hcp]
    simp [push_shortened_ok]
  have hocc : outer_combine_children_withP take_right
      [TNode.mk [97, 97] (some [49]) []]
      [TNode.mk (97 :: List.replicate 65 0) (some [50]) []] = .error () := by
    rw [outer_combine_children_withP_cons_cons]
    rw [combiner_loopP_cons_cons take_right _ _ _ _ (x := 97) (y := 97)
      (by simp) (by simp)]
    rw [if_neg (by decide), if_neg (by decide), habort]
    rfl
  have s2 : outer_combine_withP take_right
      (TNode.mk [] none [TNode.mk [97, 97] (some [49]) []])
      (single (97 :: List.replicate 65 0) [50]) = .error () := by
    have h1 : commonPfx (TNode.mk [] none [TNode.mk [97, 97] (some [49]) []]).pre
        (single (97 :: List.replicate 65 0) [50]).pre
        = (TNode.mk [] none [TNode.mk [97, 97] (some [49]) []]).pre.length := by
      decide
    have h2 : commonPfx (TNode.mk [] none [TNode.mk [97, 97] (some [49]) []]).pre
        (single (97 :: List.replicate 65 0) [50]).pre
        ≠ (single (97 :: List.replicate 65 0) [50]).pre.length := by
      decide
    rw [outer_combine_withP_eq_left take_right h1 h2]
    rw [if_pos (by decide)]
    simp only [single, TNode.pre_mk, TNode.val_mk, TNode.children_mk,
      commonPfx_nil_left, shorten_zero]
    rw [hocc]
    rfl
  rw [fromListP, buildP]
  dsimp only
  rw [s1]
  dsimp only
  rw [buildP]
  dsimp only
  rw [s2]

end RadixDb
